import Mathlib

/-!
Verification of the response-normalization and itinerary-enrichment pipeline
of a browser-based campervan trip-planning assistant.

The development shallowly embeds the TypeScript source:

* the quasi-JSON repair parser (`parseAndCleanJson`) together with a model of
  the strict JSON parser (`jsonParse`, standing for JS `JSON.parse`) and the
  two regex repairs it applies;
* the domain extractors (`parseStartDateFromResponse`,
  `parseWaypointsFromResponse`);
* the itinerary enricher (`addWeatherToItinerary`), including the day-heading
  scan, the per-day location/date assignment and the text splice;
* the forecast gateway (`getWeatherForecast` of the weather service);
* the conversation state machine (`handleSubmit` phase structure,
  `handleClearHistory`, `getCurrentPosition`).

Text is modelled as `List Char`.  JS numbers that are only carried around
(never computed with) are modelled as decimal literal tokens or rationals;
floating-point identity is outside the embedding and is not needed by any
claim.  All functions are total; a JS exception surfaces as an explicit
`Except`/`Option` failure value in the model.
-/

/-- ASCII digit test used by the regex models (`\d` in JS regexes). -/
def isDig (c : Char) : Bool := '0' ≤ c && c ≤ '9'

/-- JS regex `\w` character class: ASCII letters, digits and underscore. -/
def isWordChar (c : Char) : Bool :=
  ('a' ≤ c && c ≤ 'z') || ('A' ≤ c && c ≤ 'Z') || isDig c || c = '_'

/-- JS whitespace (`\s` in regexes, and the characters removed by
`String.prototype.trim`): ASCII whitespace plus the Unicode space
separators, NBSP, BOM and the line/paragraph separators. -/
def isJsWs (c : Char) : Bool :=
  c = ' ' || c = '\t' || c = '\n' || c = '\r' || c = '\x0b' || c = '\x0c' ||
  c.val = 0xa0 || c.val = 0x1680 || (0x2000 ≤ c.val && c.val ≤ 0x200a) ||
  c.val = 0x2028 || c.val = 0x2029 || c.val = 0x202f || c.val = 0x205f ||
  c.val = 0x3000 || c.val = 0xfeff

/-- Model of JS `String.prototype.trim`: strip leading and trailing
whitespace. -/
def jsTrim (s : List Char) : List Char :=
  ((s.dropWhile isJsWs).reverse.dropWhile isJsWs).reverse

/-- Does `p` occur at the start of `s`? -/
def startsWith : List Char → List Char → Bool
  | [], _ => true
  | _ :: _, [] => false
  | p :: ps, c :: cs => p = c && startsWith ps cs

/-- Numeric value of an ASCII digit character. -/
def digVal (c : Char) : Nat := c.toNat - '0'.toNat

/-- Decimal value of a digit string (most significant first). -/
def digitsToNat (ds : List Char) : Nat :=
  ds.foldl (fun acc c => 10 * acc + digVal c) 0

/-- ASCII digit character for a value below 10. -/
def digChar (n : Nat) : Char := Char.ofNat ('0'.toNat + n)

/-- A calendar date, as manipulated by the enricher via the JS `Date`
object (year, month 1–12, day 1–31). -/
structure CivilDate where
  year : Nat
  month : Nat
  day : Nat
deriving DecidableEq, Repr

/-- Gregorian leap-year rule (as implemented by JS `Date`). -/
def isLeap (y : Nat) : Bool := (y % 4 = 0 && y % 100 ≠ 0) || y % 400 = 0

/-- Number of days of a month (month 1–12). -/
def daysInMonth (y m : Nat) : Nat :=
  if m = 2 then (if isLeap y then 29 else 28)
  else if m = 4 || m = 6 || m = 9 || m = 11 then 30
  else 31

/-- Exact shape `\d{4}-\d{2}-\d{2}` of an ISO date-only string.  This is
the shape of every start-date string the domain extractor can produce. -/
def isIsoDateShape : List Char → Bool
  | [a, b, c, d, h1, e, f, h2, g, h] =>
    isDig a && isDig b && isDig c && isDig d && h1 = '-' &&
    isDig e && isDig f && h2 = '-' && isDig g && isDig h
  | _ => false

/-- Model of `new Date(s)` followed by the `isNaN(getTime())` validity
check, on ISO `YYYY-MM-DD` date-only strings — the only format the
start-date extractor produces (it matches `\d{4}-\d{2}-\d{2}`).  JS
parses such a string as a UTC calendar date and yields an invalid date
when the month or day component is out of calendar range.  Strings of
any other shape are mapped to `none` (the model does not cover the
implementation-defined non-ISO fallback formats, which the application
never feeds to the enricher). -/
def jsDateParse (s : List Char) : Option CivilDate :=
  match s with
  | [a, b, c, d, h1, e, f, h2, g, h] =>
    if isDig a && isDig b && isDig c && isDig d && h1 = '-' &&
       isDig e && isDig f && h2 = '-' && isDig g && isDig h then
      let y := digitsToNat [a, b, c, d]
      let m := digitsToNat [e, f]
      let dd := digitsToNat [g, h]
      if 1 ≤ m && m ≤ 12 && 1 ≤ dd && dd ≤ daysInMonth y m then
        some ⟨y, m, dd⟩
      else none
    else none
  | _ => none

/-- The next calendar day (what `currentDate.setDate(currentDate.getDate()
+ 1)` computes; per the specification's non-goals, date arithmetic is
calendar-day based and timezone effects are out of scope). -/
def nextDay (d : CivilDate) : CivilDate :=
  if d.day < daysInMonth d.year d.month then ⟨d.year, d.month, d.day + 1⟩
  else if d.month < 12 then ⟨d.year, d.month + 1, 1⟩
  else ⟨d.year + 1, 1, 1⟩

/-- Advance a calendar date by `n` days. -/
def addDays (d : CivilDate) : Nat → CivilDate
  | 0 => d
  | n + 1 => addDays (nextDay d) n

/-- Two-digit zero-padded decimal rendering (for values below 100). -/
def pad2 (n : Nat) : List Char := [digChar (n / 10 % 10), digChar (n % 10)]

/-- Four-digit zero-padded decimal rendering (for values below 10000). -/
def pad4 (n : Nat) : List Char :=
  [digChar (n / 1000 % 10), digChar (n / 100 % 10),
   digChar (n / 10 % 10), digChar (n % 10)]

/-- The `YYYY-MM-DD` prefix of `Date.prototype.toISOString` — what
`currentDate.toISOString().split('T')[0]` evaluates to. -/
def toIsoDate (d : CivilDate) : List Char :=
  pad4 d.year ++ '-' :: pad2 d.month ++ '-' :: pad2 d.day

/-- A decimal numeric literal as read by `JSON.parse`.  The token is kept
as written (sign, integer digits, fraction digits, optional exponent);
conversion to a binary floating-point value is outside the embedding and
never needed: the application only carries the numbers around. -/
structure JsonNumber where
  neg : Bool
  intDigits : List Char
  fracDigits : List Char
  hasExp : Bool
  expNeg : Bool
  expDigits : List Char
deriving DecidableEq, Repr

/-- JSON values, the result type of the `JSON.parse` model.  Object
fields keep their textual order (as JS objects do). -/
inductive Json where
  | null : Json
  | bool (b : Bool) : Json
  | num (n : JsonNumber) : Json
  | str (s : List Char) : Json
  | arr (items : List Json) : Json
  | obj (fields : List (List Char × Json)) : Json
deriving Repr

mutual
/-- Decidable equality of JSON values (hand-rolled: the derive handler
does not support the nested lists). -/
def jsonDecEq : (a b : Json) → Decidable (a = b)
  | .null, .null => isTrue rfl
  | .bool a, .bool b =>
    if h : a = b then isTrue (by rw [h]) else isFalse (fun hh => h (Json.bool.inj hh))
  | .num a, .num b =>
    if h : a = b then isTrue (by rw [h]) else isFalse (fun hh => h (Json.num.inj hh))
  | .str a, .str b =>
    if h : a = b then isTrue (by rw [h]) else isFalse (fun hh => h (Json.str.inj hh))
  | .arr a, .arr b =>
    match jsonListDecEq a b with
    | isTrue h => isTrue (by rw [h])
    | isFalse h => isFalse (fun hh => h (Json.arr.inj hh))
  | .obj a, .obj b =>
    match jsonFieldsDecEq a b with
    | isTrue h => isTrue (by rw [h])
    | isFalse h => isFalse (fun hh => h (Json.obj.inj hh))
  | .null, .bool _ => isFalse (fun h => Json.noConfusion h)
  | .null, .num _ => isFalse (fun h => Json.noConfusion h)
  | .null, .str _ => isFalse (fun h => Json.noConfusion h)
  | .null, .arr _ => isFalse (fun h => Json.noConfusion h)
  | .null, .obj _ => isFalse (fun h => Json.noConfusion h)
  | .bool _, .null => isFalse (fun h => Json.noConfusion h)
  | .bool _, .num _ => isFalse (fun h => Json.noConfusion h)
  | .bool _, .str _ => isFalse (fun h => Json.noConfusion h)
  | .bool _, .arr _ => isFalse (fun h => Json.noConfusion h)
  | .bool _, .obj _ => isFalse (fun h => Json.noConfusion h)
  | .num _, .null => isFalse (fun h => Json.noConfusion h)
  | .num _, .bool _ => isFalse (fun h => Json.noConfusion h)
  | .num _, .str _ => isFalse (fun h => Json.noConfusion h)
  | .num _, .arr _ => isFalse (fun h => Json.noConfusion h)
  | .num _, .obj _ => isFalse (fun h => Json.noConfusion h)
  | .str _, .null => isFalse (fun h => Json.noConfusion h)
  | .str _, .bool _ => isFalse (fun h => Json.noConfusion h)
  | .str _, .num _ => isFalse (fun h => Json.noConfusion h)
  | .str _, .arr _ => isFalse (fun h => Json.noConfusion h)
  | .str _, .obj _ => isFalse (fun h => Json.noConfusion h)
  | .arr _, .null => isFalse (fun h => Json.noConfusion h)
  | .arr _, .bool _ => isFalse (fun h => Json.noConfusion h)
  | .arr _, .num _ => isFalse (fun h => Json.noConfusion h)
  | .arr _, .str _ => isFalse (fun h => Json.noConfusion h)
  | .arr _, .obj _ => isFalse (fun h => Json.noConfusion h)
  | .obj _, .null => isFalse (fun h => Json.noConfusion h)
  | .obj _, .bool _ => isFalse (fun h => Json.noConfusion h)
  | .obj _, .num _ => isFalse (fun h => Json.noConfusion h)
  | .obj _, .str _ => isFalse (fun h => Json.noConfusion h)
  | .obj _, .arr _ => isFalse (fun h => Json.noConfusion h)

/-- Decidable equality of JSON value lists. -/
def jsonListDecEq : (a b : List Json) → Decidable (a = b)
  | [], [] => isTrue rfl
  | [], _ :: _ => isFalse (fun h => List.noConfusion h)
  | _ :: _, [] => isFalse (fun h => List.noConfusion h)
  | a :: as, b :: bs =>
    match jsonDecEq a b with
    | isFalse h => isFalse (fun hh => h (List.cons.inj hh).1)
    | isTrue h1 =>
      match jsonListDecEq as bs with
      | isTrue h2 => isTrue (by rw [h1, h2])
      | isFalse h => isFalse (fun hh => h (List.cons.inj hh).2)

/-- Decidable equality of JSON object field lists. -/
def jsonFieldsDecEq : (a b : List (List Char × Json)) → Decidable (a = b)
  | [], [] => isTrue rfl
  | [], _ :: _ => isFalse (fun h => List.noConfusion h)
  | _ :: _, [] => isFalse (fun h => List.noConfusion h)
  | (k1, v1) :: as, (k2, v2) :: bs =>
    if hk : k1 = k2 then
      match jsonDecEq v1 v2 with
      | isFalse h =>
        isFalse (fun hh => h (congrArg Prod.snd (List.cons.inj hh).1))
      | isTrue h1 =>
        match jsonFieldsDecEq as bs with
        | isTrue h2 => isTrue (by rw [hk, h1, h2])
        | isFalse h => isFalse (fun hh => h (List.cons.inj hh).2)
    else
      isFalse (fun hh => hk (congrArg Prod.fst (List.cons.inj hh).1))
end

instance : DecidableEq Json := jsonDecEq

/-- JSON insignificant whitespace (per the JSON grammar used by
`JSON.parse`): space, tab, line feed, carriage return. -/
def jsonWs (c : Char) : Bool :=
  c = ' ' || c = '\t' || c = '\n' || c = '\r'

/-- Skip JSON whitespace. -/
def skipWs (s : List Char) : List Char := s.dropWhile jsonWs

/-- Longest digit prefix and the remainder. -/
def splitDigits (s : List Char) : List Char × List Char :=
  (s.takeWhile isDig, s.dropWhile isDig)

/-- Integer-part token of a JSON number: `0`, or a nonzero digit followed
by digits. -/
def parseIntPart (s : List Char) : Option (List Char × List Char) :=
  if s.head? = some '0' then some (['0'], s.tail)
  else
    let p := splitDigits s
    if p.1 = [] then none else some p

/-- Optional fraction part `.digits` of a JSON number. -/
def parseFracPart (s : List Char) : Option (List Char × List Char) :=
  if s.head? = some '.' then
    let p := splitDigits s.tail
    if p.1 = [] then none else some p
  else some ([], s)

/-- Optional exponent part of a JSON number; returns
(present, negative, digits). -/
def parseExpPart (s : List Char) : Option ((Bool × Bool × List Char) × List Char) :=
  if s.head? = some 'e' || s.head? = some 'E' then
    let r := s.tail
    if r.head? = some '-' then
      let p := splitDigits r.tail
      if p.1 = [] then none else some ((true, true, p.1), p.2)
    else if r.head? = some '+' then
      let p := splitDigits r.tail
      if p.1 = [] then none else some ((true, false, p.1), p.2)
    else
      let p := splitDigits r
      if p.1 = [] then none else some ((true, false, p.1), p.2)
  else some ((false, false, []), s)

/-- Unsigned part of the JSON number literal parser (`sgn` records the
already-consumed sign). -/
def parseNumberCore (sgn : Bool) (s : List Char) :
    Option (JsonNumber × List Char) :=
  match parseIntPart s with
  | none => none
  | some (ip, r1) =>
    match parseFracPart r1 with
    | none => none
    | some (fp, r2) =>
      match parseExpPart r2 with
      | none => none
      | some ((he, en, ed), r3) =>
        some ({ neg := sgn, intDigits := ip, fracDigits := fp,
                hasExp := he, expNeg := en, expDigits := ed }, r3)

/-- JSON number literal parser. -/
def parseNumber (s : List Char) : Option (JsonNumber × List Char) :=
  if s.head? = some '-' then parseNumberCore true s.tail
  else parseNumberCore false s

/-- Value of a hexadecimal digit. -/
def hexVal (c : Char) : Option Nat :=
  let n := c.toNat
  if 48 ≤ n && n ≤ 57 then some (n - 48)
  else if 97 ≤ n && n ≤ 102 then some (n - 87)
  else if 65 ≤ n && n ≤ 70 then some (n - 55)
  else none

/-- JSON string body parser (the opening quote is already consumed):
handles the escape sequences `JSON.parse` accepts and rejects raw
control characters.  (A `\u` escape naming an unpaired surrogate is
outside the `Char` type and maps to the null character.) -/
def parseJString : List Char → Option (List Char × List Char)
  | [] => none
  | c :: r =>
    if c = '"' then some ([], r)
    else if c = '\\' then
      match r with
      | [] => none
      | e :: r2 =>
        if e = '"' then (parseJString r2).map (fun p => ('"' :: p.1, p.2))
        else if e = '\\' then (parseJString r2).map (fun p => ('\\' :: p.1, p.2))
        else if e = '/' then (parseJString r2).map (fun p => ('/' :: p.1, p.2))
        else if e = 'b' then (parseJString r2).map (fun p => ('\x08' :: p.1, p.2))
        else if e = 'f' then (parseJString r2).map (fun p => ('\x0c' :: p.1, p.2))
        else if e = 'n' then (parseJString r2).map (fun p => ('\n' :: p.1, p.2))
        else if e = 'r' then (parseJString r2).map (fun p => ('\r' :: p.1, p.2))
        else if e = 't' then (parseJString r2).map (fun p => ('\t' :: p.1, p.2))
        else if e = 'u' then
          match r2 with
          | a :: b :: c2 :: d :: r3 =>
            match hexVal a, hexVal b, hexVal c2, hexVal d with
            | some x, some y, some z, some w =>
              (parseJString r3).map
                (fun p => (Char.ofNat (((x * 16 + y) * 16 + z) * 16 + w) :: p.1, p.2))
            | _, _, _, _ => none
          | _ => none
        else none
    else if c.val < 0x20 then none
    else (parseJString r).map (fun p => (c :: p.1, p.2))

mutual
/-- Fueled recursive-descent JSON value parser (the model of `JSON.parse`
applies it with ample fuel; the fuel only bounds nesting recursion). -/
def parseValue : Nat → List Char → Option (Json × List Char)
  | 0, _ => none
  | fuel + 1, s =>
    match skipWs s with
    | [] => none
    | c :: r =>
      if c = '{' then
        if (skipWs r).head? = some '}' then some (.obj [], (skipWs r).tail)
        else
          match parseMembers fuel (skipWs r) with
          | some (fs, r3) => some (.obj fs, r3)
          | none => none
      else if c = '[' then
        if (skipWs r).head? = some ']' then some (.arr [], (skipWs r).tail)
        else
          match parseItems fuel (skipWs r) with
          | some (vs, r3) => some (.arr vs, r3)
          | none => none
      else if c = '"' then (parseJString r).map (fun p => (.str p.1, p.2))
      else if startsWith "true".data (c :: r) then some (.bool true, r.drop 3)
      else if startsWith "false".data (c :: r) then some (.bool false, r.drop 4)
      else if startsWith "null".data (c :: r) then some (.null, r.drop 3)
      else (parseNumber (c :: r)).map (fun p => (.num p.1, p.2))

/-- Array items: one or more comma-separated values up to `]`. -/
def parseItems : Nat → List Char → Option (List Json × List Char)
  | 0, _ => none
  | fuel + 1, s =>
    match parseValue fuel s with
    | none => none
    | some (v, rest) =>
      if (skipWs rest).head? = some ',' then
        match parseItems fuel (skipWs rest).tail with
        | some (vs, r3) => some (v :: vs, r3)
        | none => none
      else if (skipWs rest).head? = some ']' then some ([v], (skipWs rest).tail)
      else none

/-- Object members: one or more `"key": value` pairs up to `}` (the
leading whitespace is already skipped). -/
def parseMembers : Nat → List Char →
    Option (List (List Char × Json) × List Char)
  | 0, _ => none
  | fuel + 1, s =>
    if s.head? = some '"' then
      match parseJString s.tail with
      | none => none
      | some (k, r1) =>
        if (skipWs r1).head? = some ':' then
          match parseValue fuel (skipWs r1).tail with
          | none => none
          | some (v, r3) =>
            if (skipWs r3).head? = some ',' then
              match parseMembers fuel (skipWs (skipWs r3).tail) with
              | some (fs, r5) => some ((k, v) :: fs, r5)
              | none => none
            else if (skipWs r3).head? = some '}' then
              some ([(k, v)], (skipWs r3).tail)
            else none
        else none
    else none
end

/-- Model of `JSON.parse`: parse one value, allow trailing whitespace,
reject trailing garbage; a syntax error is the value `none` (the callers
in the source wrap the call in try/catch). -/
def jsonParse (s : List Char) : Option Json :=
  match parseValue (2 * s.length + 2) s with
  | some (v, rest) => if skipWs rest = [] then some v else none
  | none => none

/-- Render a JSON number token back to text. -/
def renderNumber (n : JsonNumber) : List Char :=
  (if n.neg then ['-'] else []) ++ n.intDigits ++
  (if n.fracDigits = [] then [] else '.' :: n.fracDigits) ++
  (if n.hasExp then 'e' :: ((if n.expNeg then ['-'] else []) ++ n.expDigits)
   else [])

/-- Render a JSON string literal (used for escape-free contents). -/
def renderString (s : List Char) : List Char := '"' :: s ++ ['"']

mutual
/-- Canonical (whitespace-free) rendering of a JSON value.  Inverse of
the parser on well-formed values (`wfJson`). -/
def render : Json → List Char
  | .null => 'n' :: 'u' :: 'l' :: 'l' :: []
  | .bool true => 't' :: 'r' :: 'u' :: 'e' :: []
  | .bool false => 'f' :: 'a' :: 'l' :: 's' :: 'e' :: []
  | .num n => renderNumber n
  | .str s => renderString s
  | .arr xs => '[' :: renderItems xs ++ [']']
  | .obj fs => '{' :: renderFields fs ++ ['}']

/-- Comma-separated renderings of array items. -/
def renderItems : List Json → List Char
  | [] => []
  | [x] => render x
  | x :: xs => render x ++ ',' :: renderItems xs

/-- Comma-separated renderings of object fields. -/
def renderFields : List (List Char × Json) → List Char
  | [] => []
  | [(k, v)] => renderString k ++ ':' :: render v
  | (k, v) :: fs => renderString k ++ ':' :: render v ++ ',' :: renderFields fs
end

/-- A string content that renders literally: no quote, no backslash, no
raw control characters (so no escaping is needed). -/
def wfString (s : List Char) : Bool :=
  s.all (fun c => c ≠ '"' && c ≠ '\\' && !(c.val < 0x20))

/-- A canonical number token: nonempty digit strings, no leading zero on
a multi-digit integer part, exponent fields only when present. -/
def wfNumber (n : JsonNumber) : Bool :=
  n.intDigits ≠ [] && n.intDigits.all isDig &&
  (n.intDigits.head? ≠ some '0' || n.intDigits.length = 1) &&
  n.fracDigits.all isDig &&
  (if n.hasExp then n.expDigits ≠ [] && n.expDigits.all isDig
   else n.expNeg = false && n.expDigits = [])

mutual
/-- Values whose canonical rendering parses back to the value itself. -/
def wfJson : Json → Bool
  | .null => true
  | .bool _ => true
  | .num n => wfNumber n
  | .str s => wfString s
  | .arr xs => wfList xs
  | .obj fs => wfFields fs

/-- All items well-formed. -/
def wfList : List Json → Bool
  | [] => true
  | x :: xs => wfJson x && wfList xs

/-- All keys and values well-formed. -/
def wfFields : List (List Char × Json) → Bool
  | [] => true
  | (k, v) :: fs => wfString k && wfJson v && wfFields fs
end

mutual
/-- Parser fuel sufficient for a value (one unit per `parseValue` /
`parseItems` / `parseMembers` activation). -/
def fuelFor : Json → Nat
  | .null => 1
  | .bool _ => 1
  | .num _ => 1
  | .str _ => 1
  | .arr xs => 1 + fuelForItems xs
  | .obj fs => 1 + fuelForFields fs

/-- Fuel for an item list. -/
def fuelForItems : List Json → Nat
  | [] => 0
  | x :: xs => 1 + max (fuelFor x) (fuelForItems xs)

/-- Fuel for a field list. -/
def fuelForFields : List (List Char × Json) → Nat
  | [] => 0
  | (_, v) :: fs => 1 + max (fuelFor v) (fuelForFields fs)
end

/-- One attempted match of the first repair regex
`([\x7b,]\s*)(\w+)\s*:` at the current position (`c` is the current
character, `cs` the remainder).  On a match, returns the replacement
text `$1"$2":` and the number of characters of `cs` consumed by the
match.  Greedy `\s*`/`\w+` runs followed by a required literal admit no
backtracking, so maximal-run matching is exact. -/
def tryQK (c : Char) (cs : List Char) : Option (List Char × Nat) :=
  if c = '{' || c = ',' then
    let w := cs.takeWhile isJsWs
    let cs1 := cs.dropWhile isJsWs
    let k := cs1.takeWhile isWordChar
    if k = [] then none
    else
      let cs2 := cs1.dropWhile isWordChar
      let w2 := cs2.takeWhile isJsWs
      let cs3 := cs2.dropWhile isJsWs
      match cs3 with
      | ':' :: _ =>
        some (c :: w ++ '"' :: (k ++ '"' :: [':']),
              w.length + k.length + w2.length + 1)
      | _ => none
  else none

/-- Model of the global `String.prototype.replace` with the first repair
regex: scan left to right, emit each match's replacement and resume
after the matched span (replacements are not rescanned).  The fuel
argument only enables structural recursion; one unit is spent per
position and a match always consumes at least one character, so any
fuel above the input length is ample. -/
def qkAux : Nat → List Char → List Char
  | 0, s => s
  | _ + 1, [] => []
  | fuel + 1, c :: cs =>
    match tryQK c cs with
    | some (rep, n) => rep ++ qkAux fuel (cs.drop n)
    | none => c :: qkAux fuel cs

/-- First textual repair of `parseAndCleanJson`: quote bare identifier
keys (`.replace(/([\x7b,]\s*)(\w+)\s*:/g, ...)`). -/
def quoteKeys (s : List Char) : List Char := qkAux (s.length + 1) s

/-- One attempted match of the second repair regex `,\s*([\x7d\]])` at
the current position; returns the replacement `$1` and the consumed
count of the remainder. -/
def tryTC (c : Char) (cs : List Char) : Option (List Char × Nat) :=
  if c = ',' then
    let w := cs.takeWhile isJsWs
    let cs1 := cs.dropWhile isJsWs
    match cs1 with
    | b :: _ => if b = '}' || b = ']' then some ([b], w.length + 1) else none
    | [] => none
  else none

/-- Scan for the second repair regex, as for `qkAux`. -/
def tcAux : Nat → List Char → List Char
  | 0, s => s
  | _ + 1, [] => []
  | fuel + 1, c :: cs =>
    match tryTC c cs with
    | some (rep, n) => rep ++ tcAux fuel (cs.drop n)
    | none => c :: tcAux fuel cs

/-- Second textual repair of `parseAndCleanJson`: drop commas that
directly precede a closing bracket or brace
(`.replace(/,\s*([\x7d\]])/g, ...)`). -/
def stripTrailingCommas (s : List Char) : List Char := tcAux (s.length + 1) s

/-- The last-resort extraction `jsonString.match(/(\[.*\])/s)`: the span
from the first `[` to the last `]`, when such a span exists. -/
def extractSpan (s : List Char) : Option (List Char) :=
  let fromBrack := s.dropWhile (fun c => c ≠ '[')
  let r := (fromBrack.reverse.dropWhile (fun c => c ≠ ']')).reverse
  if r = [] then none else some r

/-- Model of `parseAndCleanJson` (App.tsx): strict `JSON.parse` first;
on failure apply the two textual repairs in order and retry; on failure
strictly parse the first-`[`-to-last-`]` span; `none` when all three
attempts fail.  Each JS try/catch corresponds to a `none` branch; the
function is total, so nothing escapes this boundary. -/
def parseAndCleanJson (s : List Char) : Option Json :=
  match jsonParse s with
  | some v => some v
  | none =>
    match jsonParse (stripTrailingCommas (quoteKeys s)) with
    | some v => some v
    | none =>
      match extractSpan s with
      | some sub => jsonParse sub
      | none => none

/-- Scan for the first match of `START_DATE:\s*(\d{4}-\d{2}-\d{2})`,
returning the captured date string.  At each position the literal label,
a greedy whitespace run and the fixed-width digit pattern are tried; on
failure the scan advances one character, exactly as the JS regex engine
does. -/
def scanStartDate : List Char → Option (List Char)
  | [] => none
  | ch :: cs =>
    if startsWith "START_DATE:".data (ch :: cs) then
      let rest := ((ch :: cs).drop 11).dropWhile isJsWs
      match rest with
      | a :: b :: c :: d :: h1 :: e :: f :: h2 :: g :: h :: _ =>
        if isDig a && isDig b && isDig c && isDig d && h1 = '-' &&
           isDig e && isDig f && h2 = '-' && isDig g && isDig h then
          some [a, b, c, d, h1, e, f, h2, g, h]
        else scanStartDate cs
      | _ => scanStartDate cs
    else scanStartDate cs

/-- Model of `parseStartDateFromResponse`. -/
def parseStartDateFromResponse (text : List Char) : Option (List Char) :=
  scanStartDate text

/-- The characters up to and including the first `]` (the lazy `.*?`
with the `s` flag), or `none` when no `]` follows. -/
def takeThroughRBrack : List Char → Option (List Char)
  | [] => none
  | ']' :: _ => some [']']
  | c :: cs => (takeThroughRBrack cs).map (fun t => c :: t)

/-- Scan for the first match of `LABEL\s*(\[.*?\])` (with the `s` flag):
at each occurrence of the label followed by optional whitespace and `[`,
capture through the first `]`; otherwise keep scanning. -/
def scanLabelArray (lbl : List Char) : List Char → Option (List Char)
  | [] => none
  | ch :: cs =>
    if startsWith lbl (ch :: cs) then
      match ((ch :: cs).drop lbl.length).dropWhile isJsWs with
      | '[' :: r =>
        match takeThroughRBrack r with
        | some body => some ('[' :: body)
        | none => scanLabelArray lbl cs
      | _ => scanLabelArray lbl cs
    else scanLabelArray lbl cs

/-- JS `key in item` on a parsed JSON object's field list. -/
def hasKey (fs : List (List Char × Json)) (k : List Char) : Bool :=
  fs.any (fun f => f.1 = k)

/-- The per-element shape check of `parseWaypointsFromResponse`:
`typeof item === 'object' && item !== null && 'name' in item && 'lat' in
item && 'lng' in item`.  A parsed JSON array also has typeof `object`
but never carries these string keys, so only objects can pass. -/
def waypointShaped : Json → Bool
  | .obj fs => hasKey fs "name".data && hasKey fs "lat".data && hasKey fs "lng".data
  | _ => false

/-- The error message recorded when waypoint extraction fails. -/
def waypointsError : List Char :=
  "Failed to parse waypoints from AI response or data was invalid.".data

/-- Model of `parseWaypointsFromResponse`: locate the labelled array
region, run the repair parser, validate the shape.  Returns the
extracted elements together with the error recorded via `setError`
(`none` when no error is recorded); parse or validation failure yields
the empty list plus the recorded error, and no failure escapes. -/
def parseWaypointsFromResponse (text : List Char) :
    List Json × Option (List Char) :=
  match scanLabelArray "WAYPOINTS:".data text with
  | none => ([], none)
  | some captured =>
    match parseAndCleanJson captured with
    | none => ([], some waypointsError)
    | some v =>
      match v with
      | .arr items =>
        if items.all waypointShaped then (items, none)
        else ([], some waypointsError)
      | _ => ([], some waypointsError)

/-- The per-element shape check of `parsePoisFromResponse`. -/
def poiShaped : Json → Bool
  | .obj fs =>
    hasKey fs "name".data && hasKey fs "address".data &&
    hasKey fs "lat".data && hasKey fs "lng".data
  | _ => false

/-- The error message recorded when POI extraction fails. -/
def poisError : List Char :=
  "Failed to parse points of interest from AI response or data was invalid.".data

/-- Model of `parsePoisFromResponse`, symmetric to the waypoint
extractor. -/
def parsePoisFromResponse (text : List Char) :
    List Json × Option (List Char) :=
  match scanLabelArray "POIS:".data text with
  | none => ([], none)
  | some captured =>
    match parseAndCleanJson captured with
    | none => ([], some poisError)
    | some v =>
      match v with
      | .arr items =>
        if items.all poiShaped then (items, none)
        else ([], some poisError)
      | _ => ([], some poisError)

/-- A character the JS regex dot matches (everything except the four
line terminators). -/
def notLineTerm (c : Char) : Bool :=
  c ≠ '\n' && c ≠ '\r' && c.val ≠ 0x2028 && c.val ≠ 0x2029

/-- One attempted match of `## Day \d+:.*` at the current position:
the literal, a nonempty greedy digit run, a colon and the greedy
rest-of-line.  Returns the matched heading text and its length. -/
def tryHeading (s : List Char) : Option (List Char × Nat) :=
  if startsWith "## Day ".data s then
    let r := s.drop 7
    let ds := r.takeWhile isDig
    if ds = [] then none
    else
      match r.dropWhile isDig with
      | ':' :: r2 =>
        let tail := r2.takeWhile notLineTerm
        some ("## Day ".data ++ ds ++ ':' :: tail,
              7 + ds.length + 1 + tail.length)
      | _ => none
  else none

/-- Scan for all non-overlapping matches of `/(## Day \d+:.*)/g` in
document order, resuming after each match, as
`itineraryText.matchAll(dayRegex)` does.  Fuel for structural recursion;
a match consumes at least one character. -/
def findDayHeadingsAux : Nat → List Char → List (List Char)
  | 0, _ => []
  | _ + 1, [] => []
  | fuel + 1, c :: cs =>
    match tryHeading (c :: cs) with
    | some (h, n) => h :: findDayHeadingsAux fuel ((c :: cs).drop n)
    | none => findDayHeadingsAux fuel cs

/-- The day headings of an itinerary text (`[...matchAll(/(## Day \d+:.*)/g)]`,
first capture of each match). -/
def findDayHeadings (s : List Char) : List (List Char) :=
  findDayHeadingsAux (s.length + 1) s

/-- The backquote character (code point 96). -/
def backquoteChar : Char := Char.ofNat 96

/-- The apostrophe character (code point 39). -/
def squoteChar : Char := Char.ofNat 39

/-- JS `GetSubstitution` applied to a replacement text, for a plain
string search pattern (so there are no capture groups): `$$` yields a
single dollar, `$&` the matched text, a dollar followed by a backquote
the portion of the subject preceding the match, a dollar followed by an
apostrophe the portion following the match; any other `$` (including a
trailing one and `$`+digit, as the match has no captures) is copied
literally. -/
def getSubstitution (matched pre post : List Char) : List Char → List Char
  | [] => []
  | [c] => [c]
  | c :: c2 :: r =>
    if c = '$' then
      if c2 = '$' then '$' :: getSubstitution matched pre post r
      else if c2 = '&' then matched ++ getSubstitution matched pre post r
      else if c2 = backquoteChar then pre ++ getSubstitution matched pre post r
      else if c2 = squoteChar then post ++ getSubstitution matched pre post r
      else '$' :: c2 :: getSubstitution matched pre post r
    else c :: getSubstitution matched pre post (c2 :: r)

/-- Scanning core of `replaceFirst`: `pre` accumulates the already
scanned text, in reverse, to supply the dollar-backquote substitution
with the text preceding the match. -/
def replaceFirstAux (pat rep : List Char) : List Char → List Char → List Char
  | _, [] => []
  | pre, c :: cs =>
    if startsWith pat (c :: cs) then
      getSubstitution pat pre.reverse ((c :: cs).drop pat.length) rep ++
        (c :: cs).drop pat.length
    else c :: replaceFirstAux pat rep (c :: pre) cs

/-- Model of `String.prototype.replace` with a plain string pattern:
rewrite the first occurrence of `pat`, expanding the JS `$`-substitution
patterns of the replacement (`GetSubstitution`) against the matched
text and its surrounding context; identity when the pattern does not
occur. -/
def replaceFirst (s pat rep : List Char) : List Char :=
  match s with
  | [] => if pat = [] then getSubstitution pat [] [] rep else []
  | c :: cs => replaceFirstAux pat rep [] (c :: cs)

/-- JS truthiness of a parsed JSON value (`null`, `false`, `0`, `""`
are falsy; every object and array is truthy). -/
def jsTruthy : Json → Bool
  | .null => false
  | .bool b => b
  | .num n => !(digitsToNat n.intDigits = 0 && digitsToNat n.fracDigits = 0)
  | .str s => s ≠ []
  | .arr _ => true
  | .obj _ => true

/-- JS property access `v[k]` on a parsed JSON value: the last binding
of the key on an object (as `JSON.parse` keeps the last duplicate),
`undefined` (= `none`) otherwise. -/
def jField (v : Json) (k : List Char) : Option Json :=
  match v with
  | .obj fs => (fs.reverse.find? (fun f => f.1 = k)).map (fun f => f.2)
  | _ => none

/-- The representative location of heading `i`:
`waypoints[i + 1] || waypoints[waypoints.length - 1]` (an out-of-range
index is `undefined`, which is falsy). -/
def locationFor (ws : List Json) (i : Nat) : Option Json :=
  match ws.get? (i + 1) with
  | some v => if jsTruthy v then some v else ws.getLast?
  | none => ws.getLast?

/-- JS `a || b` for an optional string (both `null` and the empty
string are falsy). -/
def jsOrStr (o : Option (List Char)) (fb : List Char) : List Char :=
  match o with
  | some w => if w = [] then fb else w
  | none => fb

/-- The fallback marker spliced when the gateway yields no forecast. -/
def unavailableMarker : List Char := "❓ Forecast unavailable".data

/-- A forecast gateway: takes the accessed `location.lat` and
`location.lng` values (`none` = `undefined`) and the ISO date string,
returns the forecast string or `none`.  `getWeatherForecast` never
throws, so an arbitrary total function is the exact boundary model. -/
def Gateway : Type := Option Json → Option Json → List Char → Option (List Char)

/-- The text block inserted after a heading for display string `disp`. -/
def weatherInsert (disp : List Char) : List Char :=
  '\n' :: '\n' :: "**Weather Forecast:** ".data ++ disp

/-- The enrichment loop of `addWeatherToItinerary`: for each heading in
order, resolve the location, request the forecast for the current date,
splice the forecast line after the heading, and advance the date cursor
once per heading regardless of the outcome.  Returns the updated text
and the request log (one entry per issued gateway call, in order). -/
def enrichLoop (W : Gateway) (ws : List Json) :
    List (List Char) → Nat → CivilDate → List Char →
    List Char × List (Option Json × Option Json × List Char)
  | [], _, _, text => (text, [])
  | h :: hs, i, date, text =>
    match locationFor ws i with
    | some loc =>
      if jsTruthy loc then
        let dateStr := toIsoDate date
        let latv := jField loc "lat".data
        let lngv := jField loc "lng".data
        let disp := jsOrStr (W latv lngv dateStr) unavailableMarker
        let text2 := replaceFirst text h (h ++ weatherInsert disp)
        let r := enrichLoop W ws hs (i + 1) (nextDay date) text2
        (r.1, (latv, lngv, dateStr) :: r.2)
      else enrichLoop W ws hs (i + 1) (nextDay date) text
    | none => enrichLoop W ws hs (i + 1) (nextDay date) text

/-- Model of `addWeatherToItinerary`: parse the start date (soft-fail to
the unchanged text with no requests), collect the day headings, then run
the enrichment loop from the start date. -/
def addWeatherToItinerary (W : Gateway) (itineraryText : List Char)
    (waypoints : List Json) (startDateStr : List Char) :
    List Char × List (Option Json × Option Json × List Char) :=
  match jsDateParse startDateStr with
  | none => (itineraryText, [])
  | some d => enrichLoop W waypoints (findDayHeadings itineraryText) 0 d itineraryText

/-- WMO weather-code table of the weather service (description, icon). -/
def wmoMap (code : Int) : Option (List Char × List Char) :=
  if code = 0 then some ("Clear sky".data, "☀️".data)
  else if code = 1 then some ("Mainly clear".data, "🌤️".data)
  else if code = 2 then some ("Partly cloudy".data, "⛅️".data)
  else if code = 3 then some ("Overcast".data, "☁️".data)
  else if code = 45 then some ("Fog".data, "🌫️".data)
  else if code = 48 then some ("Depositing rime fog".data, "🌫️".data)
  else if code = 51 then some ("Light drizzle".data, "🌦️".data)
  else if code = 53 then some ("Moderate drizzle".data, "🌦️".data)
  else if code = 55 then some ("Dense drizzle".data, "🌦️".data)
  else if code = 56 then some ("Light freezing drizzle".data, "🌨️".data)
  else if code = 57 then some ("Dense freezing drizzle".data, "🌨️".data)
  else if code = 61 then some ("Slight rain".data, "🌧️".data)
  else if code = 63 then some ("Moderate rain".data, "🌧️".data)
  else if code = 65 then some ("Heavy rain".data, "🌧️".data)
  else if code = 66 then some ("Light freezing rain".data, "🌨️".data)
  else if code = 67 then some ("Heavy freezing rain".data, "🌨️".data)
  else if code = 71 then some ("Slight snow fall".data, "❄️".data)
  else if code = 73 then some ("Moderate snow fall".data, "❄️".data)
  else if code = 75 then some ("Heavy snow fall".data, "❄️".data)
  else if code = 77 then some ("Snow grains".data, "❄️".data)
  else if code = 80 then some ("Slight rain showers".data, "🌦️".data)
  else if code = 81 then some ("Moderate rain showers".data, "🌦️".data)
  else if code = 82 then some ("Violent rain showers".data, "⛈️".data)
  else if code = 85 then some ("Slight snow showers".data, "🌨️".data)
  else if code = 86 then some ("Heavy snow showers".data, "🌨️".data)
  else if code = 95 then some ("Thunderstorm".data, "⛈️".data)
  else if code = 96 then some ("Thunderstorm with slight hail".data, "⛈️".data)
  else if code = 99 then some ("Thunderstorm with heavy hail".data, "⛈️".data)
  else none

/-- Decimal digits of a natural number (fuel-based so the kernel can
evaluate it; fuel above the number is ample). -/
def natToDigits : Nat → Nat → List Char
  | 0, _ => []
  | fuel + 1, n =>
    if n < 10 then [digChar n]
    else natToDigits fuel (n / 10) ++ [digChar (n % 10)]

/-- JS number-to-string rendering of an integer (`${n}` in a template
literal). -/
def intToDec (i : Int) : List Char :=
  if i < 0 then '-' :: natToDigits (i.natAbs + 1) i.natAbs
  else natToDigits (i.toNat + 1) i.toNat

/-- JS `Math.round` on a temperature given in tenths of a degree (the
provider reports one decimal place; the exact decimal value is
`tenths / 10`).  `Math.round(x)` is `floor(x + 1/2)`, rounding halves
towards positive infinity. -/
def jsRound (tenths : Int) : Int := Int.fdiv (tenths + 5) 10

/-- A well-shaped daily payload of the forecast provider (code plus
max/min temperature in tenths of a degree). -/
structure DailyOk where
  code : Int
  tmaxTenths : Int
  tminTenths : Int
deriving DecidableEq, Repr

/-- The observable outcomes of the `fetch` to the forecast provider:
network error (the JS catch), a non-ok HTTP status, a JSON body without
`daily.weathercode`, or a well-shaped daily payload. -/
inductive FetchOutcome where
  | netError : FetchOutcome
  | httpError : FetchOutcome
  | okBad : FetchOutcome
  | okDaily (d : DailyOk) : FetchOutcome
deriving DecidableEq, Repr

/-- Model of `getWeatherForecast` (weatherService.ts): every failure
path — thrown fetch error, non-ok response, missing daily data — is
caught and becomes `null` (= `none`); a well-shaped payload is formatted
as icon, description and rounded temperature range, with a generic
fallback entry for unknown codes.  The function never throws past this
boundary. -/
def getWeatherForecast (o : FetchOutcome) : Option (List Char) :=
  match o with
  | .netError => none
  | .httpError => none
  | .okBad => none
  | .okDaily d =>
    let wi := (wmoMap d.code).getD ("Weather".data, "🌡️".data)
    some (wi.2 ++ ' ' :: wi.1 ++ ", ".data ++
      intToDec (jsRound d.tminTenths) ++ "°C to ".data ++
      intToDec (jsRound d.tmaxTenths) ++ "°C".data)

/-- Chat message roles. -/
inductive Role where
  | user : Role
  | assistant : Role
deriving DecidableEq, Repr

/-- A chat message. -/
structure Message where
  role : Role
  content : List Char
deriving DecidableEq, Repr

/-- Shorthand for a user message. -/
def userMsg (content : List Char) : Message := ⟨.user, content⟩

/-- Shorthand for an assistant message. -/
def assistantMsg (content : List Char) : Message := ⟨.assistant, content⟩

/-- The welcome message the app starts with and that clearing history
restores. -/
def initialMessage : Message :=
  assistantMsg ("Welcome! Please describe your dream campervan trip in Taiwan. **Crucially, include the start and end dates** so I can provide weather forecasts. For example: \"Plan a 7-day trip from Taipei to Kaohsiung, starting July 22nd, 2024, focusing on coastal views and seafood.\"".data)

/-- A device position; the coordinates are decimal number tokens (they
are only interpolated into provider requests, never computed with). -/
structure Position where
  latitude : JsonNumber
  longitude : JsonNumber
deriving DecidableEq, Repr

/-- The fixed fallback location (Taipei: 25.0330, 121.5654). -/
def taipeiDefault : Position :=
  ⟨⟨false, ['2', '5'], ['0', '3', '3', '0'], false, false, []⟩,
   ⟨false, ['1', '2', '1'], ['5', '6', '5', '4'], false, false, []⟩⟩

/-- Model of `getCurrentPosition` (App.tsx): when the geolocation
capability is absent the promise is rejected with an error; otherwise it
resolves with the granted coordinates, or with the fixed Taipei default
when the permission callback reports an error (denial). -/
def getCurrentPosition (supported : Bool) (outcome : Option Position) :
    Except (List Char) Position :=
  if supported then
    match outcome with
    | some p => .ok p
    | none => .ok taipeiDefault
  else .error "Geolocation is not supported by your browser.".data

/-- The mutable state owned by the conversation state machine. -/
structure AppState where
  messages : List Message
  prompt : List Char
  isLoading : Bool
  error : Option (List Char)
  waypoints : List Json
  pois : List Json
deriving DecidableEq, Repr

/-- The environment one submission round observes: geolocation support
and permission outcome, and the generative provider's reply (or thrown
error message). -/
structure SubmitEnv where
  geoSupported : Bool
  geoOutcome : Option Position
  provider : Except (List Char) (List Char)
deriving Repr

/-- The data captured by the background-enrichment continuation created
at the end of a successful round (the arguments of the
`addWeatherToItinerary(...).then(...)` call). -/
structure PendingEnrich where
  raw : List Char
  waypoints : List Json
  startDate : List Char
deriving DecidableEq, Repr

/-- Result of the synchronous part of one submission round: the state
when the handler finishes (after its `finally`), the pending enrichment
continuation if one was scheduled, and the provider requests issued. -/
structure SubmitResult where
  state : AppState
  pending : Option PendingEnrich
  providerCalls : List (List Char × Position)
deriving DecidableEq, Repr

/-- Model of `handleSubmit` up to (not including) the asynchronous
enrichment resolution.  An empty trimmed prompt or an in-flight round is
a complete no-op.  Otherwise: clear error, set loading, append the user
message, clear waypoints/POIs; then obtain the location and call the
provider; a rejection of either is caught, surfaced as an error banner
plus an appended assistant message, and ends the round.  On provider
success the extractors run, state is updated, the raw reply is rendered
immediately, and the enrichment continuation is scheduled only when a
start date was extracted (a nonempty string, by JS truthiness) and at
least one waypoint was extracted.  The `finally` clears the loading
flag and resets the prompt. -/
def handleSubmit (st : AppState) (env : SubmitEnv) : SubmitResult :=
  if jsTrim st.prompt = [] || st.isLoading then ⟨st, none, []⟩
  else
    let base : AppState :=
      { st with error := none, isLoading := true,
                messages := st.messages ++ [userMsg st.prompt],
                waypoints := [], pois := [] }
    match getCurrentPosition env.geoSupported env.geoOutcome with
    | .error msg =>
      let stErr : AppState :=
        { base with error := some msg,
                    messages := base.messages ++
                      [assistantMsg ("Sorry, I ran into an error: ".data ++ msg)],
                    isLoading := false, prompt := [] }
      ⟨stErr, none, []⟩
    | .ok pos =>
      match env.provider with
      | .error msg =>
        let stErr : AppState :=
          { base with error := some msg,
                      messages := base.messages ++
                        [assistantMsg ("Sorry, I ran into an error: ".data ++ msg)],
                      isLoading := false, prompt := [] }
        ⟨stErr, none, [(st.prompt, pos)]⟩
      | .ok raw =>
        let startDate := parseStartDateFromResponse raw
        let wres := parseWaypointsFromResponse raw
        let pres := parsePoisFromResponse raw
        let st2 : AppState :=
          { base with
            waypoints := wres.1, pois := pres.1,
            error := pres.2 <|> wres.2,
            messages := base.messages ++ [assistantMsg raw],
            isLoading := false, prompt := [] }
        let pend : Option PendingEnrich :=
          match startDate with
          | some sd =>
            if sd ≠ [] && wres.1.length > 0 then some ⟨raw, wres.1, sd⟩
            else none
          | none => none
        ⟨st2, pend, [(st.prompt, pos)]⟩

/-- The asynchronous resolution of a scheduled enrichment: replace the
last message of the history current at resolution time
(`prev.slice(0, -1)` plus the enriched assistant message). -/
def resolveEnrichment (W : Gateway) (p : PendingEnrich)
    (msgs : List Message) : List Message :=
  msgs.dropLast ++
    [assistantMsg (addWeatherToItinerary W p.raw p.waypoints p.startDate).1]

/-- The forecast-gateway requests a round's enrichment issues (none when
no enrichment was scheduled). -/
def roundForecastRequests (W : Gateway) (pending : Option PendingEnrich) :
    List (Option Json × Option Json × List Char) :=
  match pending with
  | none => []
  | some p => (addWeatherToItinerary W p.raw p.waypoints p.startDate).2

/-- Model of `handleClearHistory`: reset the history to the single
welcome message and clear waypoints, POIs and the error banner. -/
def handleClearHistory (st : AppState) : AppState :=
  { st with messages := [initialMessage], waypoints := [], pois := [],
            error := none }

/-- Is the value a parsed JSON object (a waypoint-style record)? -/
def isObjJson : Json → Bool
  | .obj _ => true
  | _ => false

/-- The location the claim text assigns to heading `k`:
`waypoints[k+1]` when that index is valid, else the last waypoint
(meaningful for nonempty waypoint lists). -/
def claimLocation (ws : List Json) (k : Nat) : Json :=
  match ws.get? (k + 1) with
  | some v => v
  | none =>
    match ws.getLast? with
    | some v => v
    | none => .null

/-- The gateway-request triple issued for heading `k` of a run anchored
at date `d`: the accessed `lat`/`lng` fields of the representative
location and the ISO rendering of the start date plus `k` days. -/
def requestArgs (ws : List Json) (d : CivilDate) (k : Nat) :
    Option Json × Option Json × List Char :=
  (jField (claimLocation ws k) "lat".data,
   jField (claimLocation ws k) "lng".data,
   toIsoDate (addDays d k))

/-- The display string spliced for heading `k`: the gateway's answer, or
the unavailable marker when the gateway yields nothing (or an empty
string). -/
def dayDisplay (W : Gateway) (ws : List Json) (d : CivilDate) (k : Nat) :
    List Char :=
  jsOrStr (W (requestArgs ws d k).1 (requestArgs ws d k).2.1
             (requestArgs ws d k).2.2) unavailableMarker

/-- A concrete provider reply used by concrete scenarios below. -/
def demoRaw : List Char :=
  "START_DATE: 2024-07-22\n## Day 1: Taipei to Yilan\ntext\nWAYPOINTS: [\x7b\"name\":\"Taipei\",\"lat\":25,\"lng\":121\x7d,\x7b\"name\":\"Yilan\",\"lat\":24,\"lng\":122\x7d]".data

/-- The first waypoint record embedded in `demoRaw`. -/
def demoWp1 : Json :=
  .obj [("name".data, .str "Taipei".data),
        ("lat".data, .num ⟨false, ['2', '5'], [], false, false, []⟩),
        ("lng".data, .num ⟨false, ['1', '2', '1'], [], false, false, []⟩)]

/-- The second waypoint record embedded in `demoRaw`. -/
def demoWp2 : Json :=
  .obj [("name".data, .str "Yilan".data),
        ("lat".data, .num ⟨false, ['2', '4'], [], false, false, []⟩),
        ("lng".data, .num ⟨false, ['1', '2', '2'], [], false, false, []⟩)]

/-- App state before the concrete round: fresh app plus a typed prompt. -/
def demoState : AppState :=
  ⟨[initialMessage], "plan a trip".data, false, none, [], []⟩

/-- Environment of the concrete round: geolocation denied (falls back to
Taipei), provider replies with `demoRaw`. -/
def demoEnv : SubmitEnv := ⟨true, none, .ok demoRaw⟩

/-- A gateway that always has a forecast. -/
def demoGateway : Gateway := fun _ _ _ => some "☀️ Clear sky, 20°C to 28°C".data

/-- The enrichment continuation the concrete round schedules. -/
def demoPending : PendingEnrich :=
  ⟨demoRaw, [demoWp1, demoWp2], "2024-07-22".data⟩

/-- Apply the per-heading splices in order: each step inserts the
heading's weather block after the first occurrence of the heading. -/
def enrichSplice : List Char → List (List Char × List Char) → List Char
  | text, [] => text
  | text, (h, disp) :: rest =>
    enrichSplice (replaceFirst text h (h ++ weatherInsert disp)) rest

/-- The request triples the loop issues for a heading list starting at
index `i` and date `date`. -/
def reqList (ws : List Json) : List (List Char) → Nat → CivilDate →
    List (Option Json × Option Json × List Char)
  | [], _, _ => []
  | _ :: hs, i, date =>
    (jField (claimLocation ws i) "lat".data,
     jField (claimLocation ws i) "lng".data, toIsoDate date) ::
    reqList ws hs (i + 1) (nextDay date)

/-- The (heading, display) pairs the loop splices, starting at index
`i` and date `date`. -/
def dispList (W : Gateway) (ws : List Json) :
    List (List Char) → Nat → CivilDate → List (List Char × List Char)
  | [], _, _ => []
  | h :: hs, i, date =>
    (h, jsOrStr (W (jField (claimLocation ws i) "lat".data)
                   (jField (claimLocation ws i) "lng".data)
                   (toIsoDate date)) unavailableMarker) ::
    dispList W ws hs (i + 1) (nextDay date)

/-- The three demo waypoints of the claimed concrete example. -/
def wpA : Json :=
  .obj [("name".data, .str "A".data),
        ("lat".data, .num ⟨false, ['1'], [], false, false, []⟩),
        ("lng".data, .num ⟨false, ['1', '0'], [], false, false, []⟩)]

/-- Second demo waypoint. -/
def wpB : Json :=
  .obj [("name".data, .str "B".data),
        ("lat".data, .num ⟨false, ['2'], [], false, false, []⟩),
        ("lng".data, .num ⟨false, ['2', '0'], [], false, false, []⟩)]

/-- Third demo waypoint. -/
def wpC : Json :=
  .obj [("name".data, .str "C".data),
        ("lat".data, .num ⟨false, ['3'], [], false, false, []⟩),
        ("lng".data, .num ⟨false, ['3', '0'], [], false, false, []⟩)]

/-- An itinerary text with headings for Day 1 and Day 2. -/
def c1Text : List Char := "## Day 1: out\nblah\n## Day 2: back\nend".data

/-- Replace day `j`'s display by the unavailable marker, keeping its
heading and every other entry. -/
def markDay : Nat → List (List Char × List Char) → List (List Char × List Char)
  | _, [] => []
  | 0, p :: ps => (p.1, unavailableMarker) :: ps
  | n + 1, p :: ps => p :: markDay n ps

/-- An itinerary whose Day-1 heading contains the JS replacement
pattern `$$`. -/
def c10Text : List Char := "## Day 1: a$$b\nend".data

/-- An itinerary whose Day-2 heading ends in a dollar immediately
followed by a backquote — the JS replacement pattern that copies the
text preceding the match. -/
def c6Text : List Char :=
  "## Day 1: go\n## Day 2: back$".data ++ [backquoteChar] ++ "x".data

/-- A gateway failing exactly on the first day's date. -/
def c6FailGateway : Gateway := fun _ _ date =>
  if date = "2024-07-22".data then none
  else some "☀️ Clear sky, 20°C to 28°C".data

/-- The lines of a text (split on the newline character). -/
def linesOf : List Char → List (List Char)
  | [] => [[]]
  | c :: cs =>
    if c = '\n' then [] :: linesOf cs
    else
      match linesOf cs with
      | [] => [[c]]
      | l :: ls => (c :: l) :: ls

/-- Does a day-heading match start at this position (the
`## Day \d+:` core; the greedy `.*` tail always succeeds)? -/
def coreAt (s : List Char) : Bool :=
  startsWith "## Day ".data s &&
  decide ((s.drop 7).takeWhile isDig ≠ []) &&
  (match (s.drop 7).dropWhile isDig with
   | ':' :: _ => true
   | _ => false)

/-- Does the text contain a day-heading match at any position?  A line
for which this is false is "not a day heading". -/
def hasHeadingCore : List Char → Bool
  | [] => false
  | c :: cs => coreAt (c :: cs) || hasHeadingCore cs

/-- The exact anatomy of a scanned day heading: the literal, a nonempty
digit run, the colon, and a line-terminator-free tail. -/
def HeadingShape (h : List Char) : Prop :=
  ∃ ds tl, h = "## Day ".data ++ ds ++ ':' :: tl ∧ ds ≠ [] ∧
    (∀ c ∈ ds, isDig c = true) ∧ (∀ c ∈ tl, notLineTerm c = true)

/-- A continuation that cannot extend a number literal. -/
def GoodRest (rest : List Char) : Prop :=
  ∀ c, rest.head? = some c →
    isDig c = false ∧ c ≠ '.' ∧ c ≠ 'e' ∧ c ≠ 'E' ∧ c ≠ '-'

/-- The unsigned body of a canonical number render. -/
def renderNumBody (n : JsonNumber) : List Char :=
  n.intDigits ++
  (if n.fracDigits = [] then [] else '.' :: n.fracDigits) ++
  (if n.hasExp then 'e' :: ((if n.expNeg then ['-'] else []) ++ n.expDigits)
   else [])

/-- JSON values carrying the two documented malformations of the repair
parser: unquoted object keys (the per-field flag) and trailing commas
in arrays and objects (the per-node flag). -/
inductive JsonD where
  | null : JsonD
  | bool (b : Bool) : JsonD
  | num (n : JsonNumber) : JsonD
  | str (s : List Char) : JsonD
  | arr (xs : List JsonD) (trail : Bool) : JsonD
  | obj (fs : List (Bool × List Char × JsonD)) (trail : Bool) : JsonD

mutual
/-- The well-formed equivalent: drop the defect flags. -/
def eraseD : JsonD → Json
  | .null => .null
  | .bool b => .bool b
  | .num n => .num n
  | .str s => .str s
  | .arr xs _ => .arr (eraseItemsD xs)
  | .obj fs _ => .obj (eraseFieldsD fs)

/-- Erase a defective item list. -/
def eraseItemsD : List JsonD → List Json
  | [] => []
  | x :: xs => eraseD x :: eraseItemsD xs

/-- Erase a defective field list. -/
def eraseFieldsD : List (Bool × List Char × JsonD) → List (List Char × Json)
  | [] => []
  | (_, k, v) :: fs => (k, eraseD v) :: eraseFieldsD fs
end

/-- Render an object key, bare when the unquoted-defect flag is set. -/
def renderKeyD (unq : Bool) (k : List Char) : List Char :=
  if unq then k else '"' :: k ++ ['"']

mutual
/-- Render a defective value to text, materialising the defects:
unquoted keys appear bare and trailing-comma flags emit a `,` right
before the closing bracket or brace. -/
def renderD : JsonD → List Char
  | .null => 'n' :: 'u' :: 'l' :: 'l' :: []
  | .bool true => 't' :: 'r' :: 'u' :: 'e' :: []
  | .bool false => 'f' :: 'a' :: 'l' :: 's' :: 'e' :: []
  | .num n => renderNumber n
  | .str s => '"' :: s ++ ['"']
  | .arr xs trail =>
    '[' :: (renderItemsD xs ++ (if trail then ',' :: [']'] else [']']))
  | .obj fs trail =>
    '{' :: (renderFieldsD fs ++ (if trail then ',' :: ['}'] else ['}']))

/-- Render a defective item list, comma separated. -/
def renderItemsD : List JsonD → List Char
  | [] => []
  | [x] => renderD x
  | x :: xs => renderD x ++ ',' :: renderItemsD xs

/-- Render a defective field list, comma separated. -/
def renderFieldsD : List (Bool × List Char × JsonD) → List Char
  | [] => []
  | [(unq, k, v)] => renderKeyD unq k ++ ':' :: renderD v
  | (unq, k, v) :: fs =>
    renderKeyD unq k ++ ':' :: (renderD v ++ ',' :: renderFieldsD fs)
end

mutual
/-- Does the value carry at least one materialised defect? -/
def hasDefectD : JsonD → Bool
  | .null => false
  | .bool _ => false
  | .num _ => false
  | .str _ => false
  | .arr xs trail => trail || hasDefectItemsD xs
  | .obj fs trail => trail || hasDefectFieldsD fs

/-- Any defect in an item list. -/
def hasDefectItemsD : List JsonD → Bool
  | [] => false
  | x :: xs => hasDefectD x || hasDefectItemsD xs

/-- Any defect in a field list. -/
def hasDefectFieldsD : List (Bool × List Char × JsonD) → Bool
  | [] => false
  | (unq, _, v) :: fs => unq || hasDefectD v || hasDefectFieldsD fs
end

mutual
/-- Clear every unquoted-key flag (the effect of the first repair),
keeping the trailing-comma flags. -/
def clearUnqD : JsonD → JsonD
  | .null => .null
  | .bool b => .bool b
  | .num n => .num n
  | .str s => .str s
  | .arr xs trail => .arr (clearUnqItemsD xs) trail
  | .obj fs trail => .obj (clearUnqFieldsD fs) trail

/-- Clear unquoted-key flags in an item list. -/
def clearUnqItemsD : List JsonD → List JsonD
  | [] => []
  | x :: xs => clearUnqD x :: clearUnqItemsD xs

/-- Clear unquoted-key flags in a field list. -/
def clearUnqFieldsD : List (Bool × List Char × JsonD) →
    List (Bool × List Char × JsonD)
  | [] => []
  | (_, k, v) :: fs => (false, k, clearUnqD v) :: clearUnqFieldsD fs
end

mutual
/-- No unquoted-key flag anywhere. -/
def noUnqD : JsonD → Bool
  | .null => true
  | .bool _ => true
  | .num _ => true
  | .str _ => true
  | .arr xs _ => noUnqItemsD xs
  | .obj fs _ => noUnqFieldsD fs

/-- No unquoted-key flag in an item list. -/
def noUnqItemsD : List JsonD → Bool
  | [] => true
  | x :: xs => noUnqD x && noUnqItemsD xs

/-- No unquoted-key flag in a field list. -/
def noUnqFieldsD : List (Bool × List Char × JsonD) → Bool
  | [] => true
  | (unq, _, v) :: fs => !unq && noUnqD v && noUnqFieldsD fs
end

/-- A string content on which neither repair regex can start a match:
no `\x7b` and no `,` (brace and comma are the only trigger characters
of the two repair patterns, and a match never crosses the enclosing
quotes because `\x22` is neither a word nor a whitespace character). -/
def cleanStr (s : List Char) : Bool := s.all (fun c => c ≠ '{' && c ≠ ',')

mutual
/-- Well-formed defective values: the erased value is well-formed
canonical JSON, string contents and quoted keys are repair-inert,
bare keys are nonempty identifier runs, and a trailing-comma flag only
dangles on a nonempty list. -/
def wfDJ : JsonD → Bool
  | .null => true
  | .bool _ => true
  | .num n => wfNumber n
  | .str s => wfString s && cleanStr s
  | .arr xs trail => (!trail || !xs.isEmpty) && wfItemsD xs
  | .obj fs trail => (!trail || !fs.isEmpty) && wfFieldsD fs

/-- Well-formed defective item list. -/
def wfItemsD : List JsonD → Bool
  | [] => true
  | x :: xs => wfDJ x && wfItemsD xs

/-- Well-formed defective field list. -/
def wfFieldsD : List (Bool × List Char × JsonD) → Bool
  | [] => true
  | (unq, k, v) :: fs =>
    (if unq then !k.isEmpty && k.all isWordChar
     else wfString k && cleanStr k) && wfDJ v && wfFieldsD fs
end

set_option maxRecDepth 100000

example : jsDateParse "2024-07-22".data = some ⟨2024, 7, 22⟩ := by decide

example : jsDateParse "2024-13-05".data = none := by decide

example : jsDateParse "2024-02-30".data = none := by decide

example : toIsoDate (addDays ⟨2024, 7, 22⟩ 1) = "2024-07-23".data := by decide

example : toIsoDate (addDays ⟨2024, 12, 31⟩ 1) = "2025-01-01".data := by decide

example :
    jsonParse "[1, 2]".data =
      some (.arr [.num ⟨false, ['1'], [], false, false, []⟩,
                  .num ⟨false, ['2'], [], false, false, []⟩]) := by decide

example :
    jsonParse "\x7b\"a\": true\x7d".data =
      some (.obj [("a".data, .bool true)]) := by decide

example : jsonParse "[1,]".data = none := by decide

example : jsonParse "\x7ba: 1\x7d".data = none := by decide

example : jsonParse " [\"x,]\"] ".data = some (.arr [.str "x,]".data]) := by decide

example : render (.arr [.num ⟨false, ['1'], [], false, false, []⟩,
    .str "ab".data]) = "[1,\"ab\"]".data := by decide

example :
    parseAndCleanJson "[\x7ba:1,\x7d]".data =
      some (.arr [.obj [("a".data, .num ⟨false, ['1'], [], false, false, []⟩)]]) := by
  decide

example :
    parseAndCleanJson "[\"x,]\",]".data = some (.arr [.str "x]".data]) := by
  decide

example : jsonParse "[\"x,]\"]".data = some (.arr [.str "x,]".data]) := by decide

example :
    parseStartDateFromResponse "blah START_DATE: 2024-07-22 more".data =
      some "2024-07-22".data := by decide

example :
    parseWaypointsFromResponse
      "text WAYPOINTS: [\x7b\"name\":\"A\",\"lat\":1,\"lng\":2\x7d] tail".data =
      ([.obj [("name".data, .str "A".data),
              ("lat".data, .num ⟨false, ['1'], [], false, false, []⟩),
              ("lng".data, .num ⟨false, ['2'], [], false, false, []⟩)]], none) := by
  decide

example :
    getWeatherForecast (.okDaily ⟨0, 282, 198⟩) =
      some "☀️ Clear sky, 20°C to 28°C".data := by decide

example :
    findDayHeadings "intro\n## Day 1: A to B\nstuff\n## Day 2: C\nend".data =
      ["## Day 1: A to B".data, "## Day 2: C".data] := by decide

example : jsTrim "  \t hello \n".data = "hello".data := by decide

/-- Claim C5: for every itinerary text and waypoint list, when the
start-date string (of the ISO shape the extractor produces) does not
parse to a valid calendar date, the enricher returns the input text
unchanged, issues no forecast requests, and raises nothing (the model
is total and takes the explicit soft-fail branch). -/
theorem claim_C5 (W : Gateway) (text : List Char) (ws : List Json)
    (s : List Char) (hshape : isIsoDateShape s = true)
    (hparse : jsDateParse s = none) :
    addWeatherToItinerary W text ws s = (text, []) := by
  unfold addWeatherToItinerary
  rw [hparse]

/-- Witness for C5 at a concrete invalid date (month 13, day 40). -/
theorem claim_C5_witness :
    isIsoDateShape "2024-13-40".data = true ∧
    jsDateParse "2024-13-40".data = none ∧
    addWeatherToItinerary (fun _ _ _ => none) "## Day 1: A\nrest".data
        [.obj [("name".data, .str "A".data)]] "2024-13-40".data =
      ("## Day 1: A\nrest".data, []) :=
  ⟨by decide, by decide,
   claim_C5 (fun _ _ _ => none) _ _ _ (by decide) (by decide)⟩

/-- Claim C7 counterexample: when the geolocation capability is absent,
`getCurrentPosition` produces an error (the promise is rejected), so the
location operation does not resolve with the fixed default and the round
does not proceed — contradicting the claim that it never errors. -/
theorem claim_C7_counterexample :
    getCurrentPosition false none =
      Except.error "Geolocation is not supported by your browser.".data := rfl

/-- Claim C7 (amended): when the capability is present the location
operation never errors — it resolves with the granted coordinates or,
on permission denial, with the fixed Taipei default; when the
capability is absent it rejects with an error (and the round fails). -/
theorem claim_C7_amended (outcome : Option Position) :
    getCurrentPosition true outcome = .ok (outcome.getD taipeiDefault) ∧
    getCurrentPosition false outcome =
      .error "Geolocation is not supported by your browser.".data := by
  cases outcome <;> simp [getCurrentPosition]

/-- Claim C9: a submission with an empty or whitespace-only prompt, or
one made while a round is in flight, is a complete no-op: the state is
unchanged (no message appended, no waypoint/POI/error change), no
enrichment is scheduled and no provider request is issued. -/
theorem claim_C9 (st : AppState) (env : SubmitEnv)
    (h : jsTrim st.prompt = [] ∨ st.isLoading = true) :
    handleSubmit st env = ⟨st, none, []⟩ := by
  unfold handleSubmit
  rcases h with h | h
  · simp [h]
  · simp [h]

/-- Witness for C9 at a whitespace-only prompt. -/
theorem claim_C9_witness :
    (jsTrim " \t ".data = [] ∨ (false : Bool) = true) ∧
    handleSubmit ⟨[initialMessage], " \t ".data, false, none, [], []⟩
        ⟨true, none, .ok "x".data⟩ =
      ⟨⟨[initialMessage], " \t ".data, false, none, [], []⟩, none, []⟩ :=
  ⟨Or.inl (by decide), claim_C9 _ _ (Or.inl (by decide))⟩

/-- Every start date the extractor returns is the ten-character
`\d{4}-\d{2}-\d{2}` capture (hence in particular nonempty, so the JS
truthiness test in `handleSubmit` coincides with option-presence). -/
theorem scanStartDate_length :
    ∀ (t s : List Char), scanStartDate t = some s → s.length = 10 := by
  intro t
  induction t with
  | nil => intro s h; simp [scanStartDate] at h
  | cons c cs ih =>
    intro s h
    unfold scanStartDate at h
    split at h
    · dsimp only at h
      split at h
      · split at h
        · cases h; rfl
        · exact ih s h
      · exact ih s h
    · exact ih s h

/-- With the capability present, the location promise always resolves:
granted coordinates, or the Taipei default on denial. -/
theorem getCurrentPosition_ok (outcome : Option Position) :
    getCurrentPosition true outcome = .ok (outcome.getD taipeiDefault) := by
  cases outcome <;> simp [getCurrentPosition]

/-- Reduction of `handleSubmit` for a round that passes the guard,
obtains a location and receives a provider reply. -/
theorem handleSubmit_success (st : AppState) (env : SubmitEnv)
    (raw : List Char) (pos : Position)
    (hp : jsTrim st.prompt ≠ []) (hl : st.isLoading = false)
    (hgeo : getCurrentPosition env.geoSupported env.geoOutcome = .ok pos)
    (hprov : env.provider = .ok raw) :
    handleSubmit st env =
      ⟨{ messages := st.messages ++ [userMsg st.prompt, assistantMsg raw],
         prompt := [], isLoading := false,
         error := (parsePoisFromResponse raw).2 <|> (parseWaypointsFromResponse raw).2,
         waypoints := (parseWaypointsFromResponse raw).1,
         pois := (parsePoisFromResponse raw).1 },
       (match parseStartDateFromResponse raw with
        | some sd =>
          if (decide (sd ≠ []) &&
              decide ((parseWaypointsFromResponse raw).1.length > 0)) = true then
            some ⟨raw, (parseWaypointsFromResponse raw).1, sd⟩
          else none
        | none => none),
       [(st.prompt, pos)]⟩ := by
  unfold handleSubmit
  rw [if_neg, hgeo, hprov]
  · dsimp only
    rw [List.append_assoc]
    rfl
  · simp [hp, hl]

/-- Claim C8: in a round that passes the submission guard, obtains a
location and receives a provider reply, background enrichment is
scheduled if and only if a start date was extracted and at least one
waypoint was extracted; when it is not scheduled the round issues no
forecast-gateway request, and the raw rendered assistant message is the
last message of the history the round produces (no replacement). -/
theorem claim_C8 (W : Gateway) (st : AppState) (env : SubmitEnv)
    (raw : List Char) (pos : Position)
    (hp : jsTrim st.prompt ≠ []) (hl : st.isLoading = false)
    (hgeo : getCurrentPosition env.geoSupported env.geoOutcome = .ok pos)
    (hprov : env.provider = .ok raw) :
    ((handleSubmit st env).pending.isSome = true ↔
      ((parseStartDateFromResponse raw).isSome = true ∧
       (parseWaypointsFromResponse raw).1 ≠ [])) ∧
    ((handleSubmit st env).pending = none →
      roundForecastRequests W (handleSubmit st env).pending = []) ∧
    (handleSubmit st env).state.messages =
      st.messages ++ [userMsg st.prompt, assistantMsg raw] := by
  rw [handleSubmit_success st env raw pos hp hl hgeo hprov]
  refine ⟨?_, ?_, rfl⟩
  · cases hsd : parseStartDateFromResponse raw with
    | none => simp
    | some sd =>
      have hne : sd ≠ [] := by
        have hlen := scanStartDate_length raw sd hsd
        intro hh; rw [hh] at hlen; simp at hlen
      cases hws : (parseWaypointsFromResponse raw).1 with
      | nil => simp [hne]
      | cons w rest => simp [hne]
  · intro hpend; rw [hpend]; rfl

/-- Witness for C8: a reply with a start date but no waypoint block
schedules no enrichment. -/
theorem claim_C8_witness :
    (jsTrim "plan me a trip".data ≠ [] ∧
     getCurrentPosition true none = .ok taipeiDefault ∧
     (parseWaypointsFromResponse "START_DATE: 2024-07-22 itinerary only".data).1 = []) ∧
    (((handleSubmit
        ⟨[initialMessage], "plan me a trip".data, false, none, [], []⟩
        ⟨true, none, .ok "START_DATE: 2024-07-22 itinerary only".data⟩).pending.isSome = true ↔
      ((parseStartDateFromResponse "START_DATE: 2024-07-22 itinerary only".data).isSome = true ∧
       (parseWaypointsFromResponse "START_DATE: 2024-07-22 itinerary only".data).1 ≠ [])) ∧
    ((handleSubmit
        ⟨[initialMessage], "plan me a trip".data, false, none, [], []⟩
        ⟨true, none, .ok "START_DATE: 2024-07-22 itinerary only".data⟩).pending = none →
      roundForecastRequests (fun _ _ _ => none)
        (handleSubmit
          ⟨[initialMessage], "plan me a trip".data, false, none, [], []⟩
          ⟨true, none, .ok "START_DATE: 2024-07-22 itinerary only".data⟩).pending = []) ∧
    (handleSubmit
        ⟨[initialMessage], "plan me a trip".data, false, none, [], []⟩
        ⟨true, none, .ok "START_DATE: 2024-07-22 itinerary only".data⟩).state.messages =
      [initialMessage] ++ [userMsg "plan me a trip".data,
        assistantMsg "START_DATE: 2024-07-22 itinerary only".data]) :=
  ⟨⟨by decide, rfl, by decide⟩,
   claim_C8 (fun _ _ _ => none) _ _ _ taipeiDefault (by decide) rfl
     rfl rfl⟩

/-- Claim C2 counterexample: the concrete round schedules an enrichment;
if the history is cleared while it is in flight, its resolution still
runs `prev.slice(0, -1)` + append on the cleared history, so the
history does not stay at the single welcome message — the stale
enriched message resurrects. -/
theorem claim_C2_counterexample :
    (handleSubmit demoState demoEnv).pending = some demoPending ∧
    resolveEnrichment demoGateway demoPending
        (handleClearHistory (handleSubmit demoState demoEnv).state).messages ≠
      [initialMessage] := by
  constructor
  · decide
  · decide

/-- Claim C2 (amended): clearing history while a round's enrichment is
in flight does not make the resolution a no-op — the resolution
unconditionally replaces the last message of the current history, so
after a clear the welcome message is dropped and the history becomes
exactly the single stale enriched message. -/
theorem claim_C2_amended (W : Gateway) (st : AppState) (env : SubmitEnv)
    (p : PendingEnrich)
    (h : (handleSubmit st env).pending = some p) :
    resolveEnrichment W p
        (handleClearHistory (handleSubmit st env).state).messages =
      [assistantMsg (addWeatherToItinerary W p.raw p.waypoints p.startDate).1] := by
  simp [resolveEnrichment, handleClearHistory]

/-- Witness for the amended C2 at the concrete round. -/
theorem claim_C2_amended_witness :
    (handleSubmit demoState demoEnv).pending = some demoPending ∧
    resolveEnrichment demoGateway demoPending
        (handleClearHistory (handleSubmit demoState demoEnv).state).messages =
      [assistantMsg (addWeatherToItinerary demoGateway demoPending.raw
        demoPending.waypoints demoPending.startDate).1] :=
  ⟨by decide, claim_C2_amended demoGateway demoState demoEnv demoPending (by decide)⟩

/-- Objects are truthy. -/
theorem isObjJson_truthy (v : Json) (h : isObjJson v = true) :
    jsTruthy v = true := by
  cases v <;> simp_all [isObjJson, jsTruthy]

/-- For a nonempty list of object waypoints, the `||`-and-truthiness
dance of the source collapses to the claim's location choice. -/
theorem locationFor_eq (ws : List Json) (hws : ws ≠ [])
    (hobj : ∀ v ∈ ws, isObjJson v = true) (i : Nat) :
    locationFor ws i = some (claimLocation ws i) ∧
    jsTruthy (claimLocation ws i) = true := by
  unfold locationFor claimLocation
  cases hg : ws.get? (i + 1) with
  | some v =>
    have hv : v ∈ ws := List.get?_mem hg
    have ht := isObjJson_truthy v (hobj v hv)
    simp [ht]
  | none =>
    cases hl : ws.getLast? with
    | none =>
      exact absurd (List.getLast?_eq_none_iff.mp hl) hws
    | some l =>
      have hval := List.getLast?_eq_getLast_of_ne_nil hws
      rw [hl] at hval
      have hv : l ∈ ws := by
        rw [Option.some_inj.mp hval]
        exact List.getLast_mem hws
      have ht := isObjJson_truthy l (hobj l hv)
      simp [ht]

/-- The enrichment loop, for a nonempty list of object waypoints, is the
per-heading splice of the display list paired with the request list. -/
theorem enrichLoop_eq (W : Gateway) (ws : List Json) (hws : ws ≠ [])
    (hobj : ∀ v ∈ ws, isObjJson v = true) :
    ∀ (hs : List (List Char)) (i : Nat) (date : CivilDate) (text : List Char),
      enrichLoop W ws hs i date text =
        (enrichSplice text (dispList W ws hs i date), reqList ws hs i date) := by
  intro hs
  induction hs with
  | nil => intro i date text; rfl
  | cons h hs ih =>
    intro i date text
    obtain ⟨hloc, htr⟩ := locationFor_eq ws hws hobj i
    unfold enrichLoop
    rw [hloc]
    simp only [htr, if_true]
    rw [ih]
    rfl

/-- The request list has one entry per heading. -/
theorem reqList_length (ws : List Json) :
    ∀ (hs : List (List Char)) (i : Nat) (date : CivilDate),
      (reqList ws hs i date).length = hs.length := by
  intro hs
  induction hs with
  | nil => intro i date; rfl
  | cons h hs ih => intro i date; simp [reqList, ih]

/-- The `k`-th request of the loop started at index `i` and date `date`
targets location `i + k` and the date advanced by `k` days. -/
theorem reqList_get? (ws : List Json) :
    ∀ (hs : List (List Char)) (i : Nat) (date : CivilDate) (k : Nat),
      k < hs.length →
      (reqList ws hs i date).get? k =
        some (jField (claimLocation ws (i + k)) "lat".data,
              jField (claimLocation ws (i + k)) "lng".data,
              toIsoDate (addDays date k)) := by
  intro hs
  induction hs with
  | nil => intro i date k hk; simp at hk
  | cons h hs ih =>
    intro i date k hk
    cases k with
    | zero => simp [reqList, addDays]
    | succ k' =>
      have hk' : k' < hs.length := by
        simp at hk; omega
      have := ih (i + 1) (nextDay date) k' hk'
      simp only [reqList, List.get?_cons_succ]
      rw [this]
      have harith : i + 1 + k' = i + (k' + 1) := by omega
      rw [harith]
      rfl

/-- Claim C1: for every itinerary text, nonempty waypoint-record list
and parsable start date, the enricher issues exactly one forecast
request per day heading; the `k`-th request reads `waypoints[k+1]` when
that index is valid (else the last waypoint) and carries the ISO
rendering of the start date plus `k` calendar days — the cursor
advances once per heading, independent of the request's outcome (the
request list does not depend on the gateway's answers). -/
theorem claim_C1 (W : Gateway) (text : List Char) (ws : List Json)
    (s : List Char) (d : CivilDate)
    (hws : ws ≠ []) (hobj : ∀ v ∈ ws, isObjJson v = true)
    (hd : jsDateParse s = some d) :
    (addWeatherToItinerary W text ws s).2.length =
      (findDayHeadings text).length ∧
    ∀ k, k < (findDayHeadings text).length →
      (addWeatherToItinerary W text ws s).2.get? k =
        some (requestArgs ws d k) := by
  unfold addWeatherToItinerary
  rw [hd]
  dsimp only
  rw [enrichLoop_eq W ws hws hobj]
  constructor
  · exact reqList_length ws (findDayHeadings text) 0 d
  · intro k hk
    have := reqList_get? ws (findDayHeadings text) 0 d k hk
    rw [this]
    simp [requestArgs]

/-- Witness for C1 at the claim's concrete example: start 2024-07-22
and waypoints [A, B, C]; Day 1's request reads B on 2024-07-22 and
Day 2's reads C on 2024-07-23. -/
theorem claim_C1_witness :
    ([wpA, wpB, wpC] ≠ ([] : List Json) ∧
     jsDateParse "2024-07-22".data = some ⟨2024, 7, 22⟩ ∧
     (addWeatherToItinerary (fun _ _ _ => none) c1Text [wpA, wpB, wpC]
        "2024-07-22".data).2 =
       [(jField wpB "lat".data, jField wpB "lng".data, "2024-07-22".data),
        (jField wpC "lat".data, jField wpC "lng".data, "2024-07-23".data)]) ∧
    ((addWeatherToItinerary (fun _ _ _ => none) c1Text [wpA, wpB, wpC]
        "2024-07-22".data).2.length = (findDayHeadings c1Text).length ∧
     ∀ k, k < (findDayHeadings c1Text).length →
       (addWeatherToItinerary (fun _ _ _ => none) c1Text [wpA, wpB, wpC]
          "2024-07-22".data).2.get? k =
         some (requestArgs [wpA, wpB, wpC] ⟨2024, 7, 22⟩ k)) :=
  ⟨⟨by decide, by decide, by decide⟩,
   claim_C1 (fun _ _ _ => none) c1Text [wpA, wpB, wpC] "2024-07-22".data
     ⟨2024, 7, 22⟩ (by decide) (by decide) (by decide)⟩

/-- `startsWith` is prefix-existence. -/
theorem startsWith_iff :
    ∀ (p s : List Char), startsWith p s = true ↔ ∃ t, s = p ++ t := by
  intro p
  induction p with
  | nil => intro s; simp [startsWith]
  | cons x xs ih =>
    intro s
    cases s with
    | nil => simp [startsWith]
    | cons c cs =>
      simp only [startsWith, Bool.and_eq_true, decide_eq_true_eq, ih,
        List.cons_append, List.cons.injEq]
      constructor
      · rintro ⟨rfl, t, rfl⟩; exact ⟨t, rfl, rfl⟩
      · rintro ⟨t, rfl, rfl⟩; exact ⟨rfl, t, rfl⟩

/-- A replacement text containing no dollar sign is copied verbatim by
the `$`-substitution. -/
theorem getSubstitution_clean (m pre post : List Char) :
    ∀ rep : List Char, (∀ c ∈ rep, c ≠ '$') →
      getSubstitution m pre post rep = rep := by
  intro rep
  induction rep with
  | nil => intro _; rfl
  | cons c rest ih =>
    intro h
    have hc : c ≠ '$' := h c (List.mem_cons_self c rest)
    cases rest with
    | nil => rfl
    | cons c2 r =>
      have hstep : getSubstitution m pre post (c :: c2 :: r) =
          if c = '$' then
            if c2 = '$' then '$' :: getSubstitution m pre post r
            else if c2 = '&' then m ++ getSubstitution m pre post r
            else if c2 = backquoteChar then pre ++ getSubstitution m pre post r
            else if c2 = squoteChar then post ++ getSubstitution m pre post r
            else '$' :: c2 :: getSubstitution m pre post r
          else c :: getSubstitution m pre post (c2 :: r) := rfl
      rw [hstep, if_neg hc,
        ih (fun d hd => h d (List.mem_cons_of_mem c hd))]

/-- The scanning core either leaves the text unchanged (pattern absent)
or rewrites exactly the first occurrence, substituting the replacement
against the full context (accumulated prefix included). -/
theorem replaceFirstAux_cases (pat rep : List Char) :
    ∀ (s pre : List Char),
      replaceFirstAux pat rep pre s = s ∨
      ∃ a b, s = a ++ pat ++ b ∧
        replaceFirstAux pat rep pre s =
          a ++ getSubstitution pat (pre.reverse ++ a) b rep ++ b := by
  intro s
  induction s with
  | nil => intro pre; exact Or.inl rfl
  | cons c cs ih =>
    intro pre
    by_cases hsw : startsWith pat (c :: cs) = true
    · obtain ⟨t, ht⟩ := (startsWith_iff pat (c :: cs)).mp hsw
      refine Or.inr ⟨[], t, by simpa using ht, ?_⟩
      have hstep : replaceFirstAux pat rep pre (c :: cs) =
          getSubstitution pat pre.reverse ((c :: cs).drop pat.length) rep ++
            (c :: cs).drop pat.length := by
        simp [replaceFirstAux, hsw]
      rw [hstep, ht, List.drop_left]
      simp
    · have hstep : replaceFirstAux pat rep pre (c :: cs) =
          c :: replaceFirstAux pat rep (c :: pre) cs := by
        simp [replaceFirstAux, hsw]
      rcases ih (c :: pre) with h | ⟨a, b, hab, hres⟩
      · exact Or.inl (by rw [hstep, h])
      · refine Or.inr ⟨c :: a, b, by simp [hab], ?_⟩
        rw [hstep, hres,
          show (c :: pre).reverse ++ a = pre.reverse ++ (c :: a) by simp]
        simp

/-- `replaceFirst` either leaves the text unchanged (pattern absent) or
rewrites exactly the first occurrence, expanding the `$`-substitution
against the match context. -/
theorem replaceFirst_cases :
    ∀ (s pat rep : List Char),
      replaceFirst s pat rep = s ∨
      ∃ a b, s = a ++ pat ++ b ∧
        replaceFirst s pat rep = a ++ getSubstitution pat a b rep ++ b := by
  intro s pat rep
  cases s with
  | nil =>
    cases hp : pat with
    | nil =>
      refine Or.inr ⟨[], [], rfl, ?_⟩
      simp [replaceFirst]
    | cons x xs => exact Or.inl (by simp [replaceFirst])
  | cons c cs =>
    have hrf : replaceFirst (c :: cs) pat rep =
        replaceFirstAux pat rep [] (c :: cs) := rfl
    rcases replaceFirstAux_cases pat rep (c :: cs) [] with h | ⟨a, b, hab, hres⟩
    · exact Or.inl (by rw [hrf, h])
    · refine Or.inr ⟨a, b, hab, ?_⟩
      rw [hrf, hres]
      simp

/-- For a dollar-free replacement, `replaceFirst` is the plain literal
first-occurrence rewrite. -/
theorem replaceFirst_clean (s pat rep : List Char)
    (hrep : ∀ c ∈ rep, c ≠ '$') :
    replaceFirst s pat rep = s ∨
    ∃ a b, s = a ++ pat ++ b ∧ replaceFirst s pat rep = a ++ rep ++ b := by
  rcases replaceFirst_cases s pat rep with h | ⟨a, b, hab, hres⟩
  · exact Or.inl h
  · exact Or.inr ⟨a, b, hab,
      by rw [hres, getSubstitution_clean pat a b rep hrep]⟩

/-- Rewriting an occurrence of `pat` into `pat ++ ins` preserves the
original text as a sublist (insertion-only), provided the replacement
contains no dollar sign. -/
theorem replaceFirst_sublist (t pat ins : List Char)
    (hclean : ∀ c ∈ pat ++ ins, c ≠ '$') :
    List.Sublist t (replaceFirst t pat (pat ++ ins)) := by
  rcases replaceFirst_clean t pat (pat ++ ins) hclean with h | ⟨a, b, hab, hres⟩
  · rw [h]
  · rw [hres, hab]
    have hb : List.Sublist b (ins ++ b) := List.sublist_append_right ins b
    have := hb.append_left (a ++ pat)
    simpa [List.append_assoc] using this

/-- The splice loop preserves the original text as a sublist, provided
no spliced heading or insert contains a dollar sign. -/
theorem enrichSplice_sublist :
    ∀ (ps : List (List Char × List Char)) (text : List Char),
      (∀ p ∈ ps, ∀ c ∈ p.1 ++ weatherInsert p.2, c ≠ '$') →
      List.Sublist text (enrichSplice text ps) := by
  intro ps
  induction ps with
  | nil => intro text _; exact List.Sublist.refl text
  | cons p ps ih =>
    intro text hclean
    exact (replaceFirst_sublist text p.1 (weatherInsert p.2)
        (hclean p (List.mem_cons_self p ps))).trans
      (ih (replaceFirst text p.1 (p.1 ++ weatherInsert p.2))
        (fun q hq => hclean q (List.mem_cons_of_mem p hq)))

/-- A text always has at least one (possibly empty) line. -/
theorem linesOf_ne_nil : ∀ s : List Char, linesOf s ≠ [] := by
  intro s
  induction s with
  | nil => simp [linesOf]
  | cons c cs ih =>
    unfold linesOf
    split
    · simp
    · split
      · simp
      · simp

/-- Unfolding equation of `linesOf` on a cons cell. -/
theorem linesOf_cons (c : Char) (cs : List Char) :
    linesOf (c :: cs) =
      if c = '\n' then [] :: linesOf cs
      else
        match linesOf cs with
        | [] => [[c]]
        | l :: ls => (c :: l) :: ls := rfl

/-- Splitting a concatenation: the last line of `a` and the first line
of `b` fuse into the junction line. -/
theorem linesOf_append :
    ∀ (a b : List Char), ∃ A la lb B,
      linesOf a = A ++ [la] ∧ linesOf b = lb :: B ∧
      linesOf (a ++ b) = A ++ (la ++ lb) :: B := by
  intro a
  induction a with
  | nil =>
    intro b
    cases hb : linesOf b with
    | nil => exact absurd hb (linesOf_ne_nil b)
    | cons l ls =>
      exact ⟨[], [], l, ls, rfl, rfl, by simpa using hb⟩
  | cons c cs ih =>
    intro b
    obtain ⟨A, la, lb, B, h1, h2, h3⟩ := ih b
    by_cases hc : c = '\n'
    · subst hc
      refine ⟨[] :: A, la, lb, B, ?_, h2, ?_⟩
      · rw [show linesOf ('\n' :: cs) = [] :: linesOf cs from rfl, h1]
        rfl
      · rw [List.cons_append,
            show linesOf ('\n' :: (cs ++ b)) = [] :: linesOf (cs ++ b) from rfl,
            h3]
        rfl
    · cases A with
      | nil =>
        rw [List.nil_append] at h1 h3
        refine ⟨[], c :: la, lb, B, ?_, h2, ?_⟩
        · rw [linesOf_cons, if_neg hc, h1]
          rfl
        · rw [List.cons_append, linesOf_cons, if_neg hc, h3]
          rfl
      | cons x A1 =>
        rw [List.cons_append] at h1 h3
        refine ⟨(c :: x) :: A1, la, lb, B, ?_, h2, ?_⟩
        · rw [linesOf_cons, if_neg hc, h1]
          rfl
        · rw [List.cons_append, linesOf_cons, if_neg hc, h3]
          rfl

/-- takeWhile/dropWhile through a satisfied block up to a failing
element. -/
theorem takeWhile_middle (p : Char → Bool) :
    ∀ (xs : List Char) (y : Char) (ys : List Char),
      (∀ c ∈ xs, p c = true) → p y = false →
      (xs ++ y :: ys).takeWhile p = xs ∧
      (xs ++ y :: ys).dropWhile p = y :: ys := by
  intro xs
  induction xs with
  | nil =>
    intro y ys _ hy
    simp [List.takeWhile, List.dropWhile, hy]
  | cons x xs ih =>
    intro y ys hxs hy
    have hx : p x = true := hxs x (by simp)
    obtain ⟨h1, h2⟩ := ih y ys (fun c hc => hxs c (by simp [hc])) hy
    simp [List.takeWhile, List.dropWhile, hx, h1, h2]

/-- A shaped heading, with anything appended, still matches the core at
position 0. -/
theorem coreAt_shape_append (h y : List Char) (hh : HeadingShape h) :
    coreAt (h ++ y) = true := by
  obtain ⟨ds, tl, rfl, hds, hdig, _⟩ := hh
  have hlit : "## Day ".data ++ ds ++ ':' :: tl ++ y =
      "## Day ".data ++ (ds ++ ':' :: (tl ++ y)) := by
    simp [List.append_assoc]
  unfold coreAt
  rw [hlit]
  have hsw : startsWith "## Day ".data
      ("## Day ".data ++ (ds ++ ':' :: (tl ++ y))) = true :=
    (startsWith_iff _ _).mpr ⟨_, rfl⟩
  have hdrop : ("## Day ".data ++ (ds ++ ':' :: (tl ++ y))).drop 7 =
      ds ++ ':' :: (tl ++ y) := by
    have : ("## Day ".data).length = 7 := by decide
    rw [← this, List.drop_left]
  obtain ⟨ht, hd⟩ := takeWhile_middle isDig ds ':' (tl ++ y) hdig (by decide)
  rw [hsw, hdrop, ht, hd]
  simp [hds]

/-- Core detection survives prepending text. -/
theorem hasHeadingCore_append (s' : List Char) (hs : coreAt s' = true) :
    ∀ x : List Char, hasHeadingCore (x ++ s') = true := by
  intro x
  induction x with
  | nil =>
    cases s' with
    | nil => simp [coreAt, startsWith] at hs
    | cons c cs => simp [hasHeadingCore, hs]
  | cons c cs ih =>
    simp [hasHeadingCore, ih]

/-- A line that contains a shaped heading is detected as a heading
line. -/
theorem hasHeadingCore_of_contains (x h y : List Char)
    (hh : HeadingShape h) : hasHeadingCore (x ++ h ++ y) = true := by
  rw [List.append_assoc]
  exact hasHeadingCore_append (h ++ y) (coreAt_shape_append h y hh) x

/-- A newline-free text is one single line. -/
theorem linesOf_single (s : List Char) (hs : ∀ c ∈ s, c ≠ '\n') :
    linesOf s = [s] := by
  induction s with
  | nil => rfl
  | cons c cs ih =>
    have hc : c ≠ '\n' := hs c (by simp)
    rw [linesOf_cons, if_neg hc, ih (fun d hd => hs d (by simp [hd]))]

/-- A shaped heading contains no newline. -/
theorem HeadingShape_no_newline (h : List Char) (hh : HeadingShape h) :
    ∀ c ∈ h, c ≠ '\n' := by
  obtain ⟨ds, tl, rfl, _, hdig, htl⟩ := hh
  have hlit : ∀ d ∈ "## Day ".data, d ≠ '\n' := by decide
  intro c hc
  rcases List.mem_append.mp hc with h1 | h1
  · rcases List.mem_append.mp h1 with h2 | h2
    · exact hlit c h2
    · intro he
      subst he
      have := hdig _ h2
      simp [isDig] at this
  · rcases List.mem_cons.mp h1 with h3 | h3
    · subst h3; decide
    · intro he
      subst he
      have := htl _ h3
      simp [notLineTerm] at this

/-- A singleton equals `A ++ [y]` only trivially. -/
theorem single_eq_append (A : List (List Char)) (x y : List Char)
    (h : [x] = A ++ [y]) : A = [] ∧ x = y := by
  cases A with
  | nil => simp at h; exact ⟨rfl, h⟩
  | cons a A' =>
    have := congrArg List.length h
    simp at this

/-- Splicing a weather block (which starts with two newlines) right
after an occurrence of a shaped heading preserves every line that is
not a heading line. -/
theorem mem_linesOf_splice (t h mid L : List Char)
    (hh : HeadingShape h) (hL : L ∈ linesOf t)
    (hfree : hasHeadingCore L = false)
    (hclean : ∀ c ∈ h ++ ('\n' :: '\n' :: mid), c ≠ '$') :
    L ∈ linesOf (replaceFirst t h (h ++ ('\n' :: '\n' :: mid))) := by
  rcases replaceFirst_clean t h (h ++ ('\n' :: '\n' :: mid)) hclean with
    heq | ⟨a, b, hab, hres⟩
  · rw [heq]; exact hL
  · rw [hres]
    rw [hab] at hL
    have hsingle : linesOf h = [h] :=
      linesOf_single h (HeadingShape_no_newline h hh)
    -- lines of the original text
    obtain ⟨A, la, lhb, B1, ha, hhb, ht⟩ := linesOf_append a (h ++ b)
    obtain ⟨A2, la2, lb2, B2, hA2, hb2, h2⟩ := linesOf_append h b
    have hx2 : [h] = A2 ++ [la2] := by rw [← hsingle, hA2]
    obtain ⟨hA2n, hla2⟩ := single_eq_append A2 h la2 hx2
    subst hA2n; subst hla2
    simp only [List.nil_append] at h2
    rw [h2] at hhb
    injection hhb with hlhb hB1
    subst hlhb; subst hB1
    rw [List.append_assoc, ht] at hL
    -- lines of the spliced text
    have hins : linesOf (('\n' :: '\n' :: mid) ++ b) =
        [] :: [] :: linesOf (mid ++ b) := rfl
    obtain ⟨M, lm, lb3, B3, hM, hb3, hmb⟩ := linesOf_append mid b
    rw [hb2] at hb3
    injection hb3 with he1 he2
    subst he1; subst he2
    obtain ⟨A4, la4, lb4, B4, hA4, hib, h4⟩ :=
      linesOf_append h (('\n' :: '\n' :: mid) ++ b)
    have hx4 : [h] = A4 ++ [la4] := by rw [← hsingle, hA4]
    obtain ⟨hA4n, hla4⟩ := single_eq_append A4 h la4 hx4
    subst hA4n; subst hla4
    rw [hins] at hib
    injection hib with hi1 hi2
    subst hi1; subst hi2
    simp only [List.nil_append] at h4
    obtain ⟨A5, la5, lb5, B5, hA5, hhi, h5⟩ :=
      linesOf_append a (h ++ (('\n' :: '\n' :: mid) ++ b))
    rw [ha] at hA5
    obtain ⟨hA5e, hla5e⟩ := List.append_inj' hA5 rfl
    subst hA5e
    have hla5 : la = la5 := (List.cons.inj hla5e).1
    subst hla5
    rw [h4] at hhi
    injection hhi with hh1 hh2
    subst hh1; subst hh2
    have hgoal : linesOf (a ++ (h ++ ('\n' :: '\n' :: mid)) ++ b) =
        A ++ (la ++ (h ++ [])) :: [] :: linesOf (mid ++ b) := by
      rw [show a ++ (h ++ ('\n' :: '\n' :: mid)) ++ b =
            a ++ (h ++ (('\n' :: '\n' :: mid) ++ b)) by
        simp [List.append_assoc]]
      exact h5
    rw [hgoal]
    -- membership transfer
    rcases List.mem_append.mp hL with hA' | hmid2
    · exact List.mem_append_left _ hA'
    · rcases List.mem_cons.mp hmid2 with hLeq | hB2
      · exfalso
        have hcontains : hasHeadingCore (la ++ h ++ lb2) = true :=
          hasHeadingCore_of_contains la h lb2 hh
        rw [List.append_assoc] at hcontains
        rw [← hLeq] at hcontains
        rw [hfree] at hcontains
        exact Bool.false_ne_true hcontains
      · refine List.mem_append_right _ ?_
        refine List.mem_cons_of_mem _ ?_
        refine List.mem_cons_of_mem _ ?_
        rw [hmb]
        exact List.mem_append_right _ (List.mem_cons_of_mem _ hB2)

/-- The weather block always starts with two newlines. -/
theorem weatherInsert_shape (disp : List Char) :
    weatherInsert disp =
      '\n' :: '\n' :: ("**Weather Forecast:** ".data ++ disp) := rfl

/-- The splice loop preserves non-heading lines, provided every spliced
pattern is a shaped heading and no spliced heading or insert contains a
dollar sign. -/
theorem enrichSplice_lines :
    ∀ (ps : List (List Char × List Char)) (text L : List Char),
      (∀ p ∈ ps, HeadingShape p.1) →
      (∀ p ∈ ps, ∀ c ∈ p.1 ++ weatherInsert p.2, c ≠ '$') →
      L ∈ linesOf text → hasHeadingCore L = false →
      L ∈ linesOf (enrichSplice text ps) := by
  intro ps
  induction ps with
  | nil => intro text L _ _ hL _; exact hL
  | cons p ps ih =>
    intro text L hps hclean hL hfree
    have hstep :
        L ∈ linesOf (replaceFirst text p.1 (p.1 ++ weatherInsert p.2)) := by
      rw [weatherInsert_shape]
      exact mem_linesOf_splice text p.1 _ L (hps p (by simp)) hL hfree
        (by
          have := hclean p (by simp)
          rw [weatherInsert_shape] at this
          exact this)
    exact ih _ L (fun q hq => hps q (by simp [hq]))
      (fun q hq => hclean q (by simp [hq])) hstep hfree

/-- A scanned heading has the shaped anatomy. -/
theorem tryHeading_shape (s h : List Char) (n : Nat)
    (hth : tryHeading s = some (h, n)) : HeadingShape h := by
  unfold tryHeading at hth
  split at hth
  · set r := s.drop 7 with hr
    by_cases hds : r.takeWhile isDig = []
    · rw [if_pos hds] at hth
      exact absurd hth (by simp)
    · rw [if_neg hds] at hth
      split at hth
      · rename_i x r2 heq
        injection hth with hpair
        injection hpair with hh hn
        exact ⟨r.takeWhile isDig, r2.takeWhile notLineTerm, hh.symm, hds,
          fun c hc => List.mem_takeWhile_imp hc,
          fun c hc => List.mem_takeWhile_imp hc⟩
      · exact absurd hth (by simp)
  · exact absurd hth (by simp)

/-- Every heading the scanner returns is shaped. -/
theorem findDayHeadingsAux_shape :
    ∀ (fuel : Nat) (s : List Char) (h : List Char),
      h ∈ findDayHeadingsAux fuel s → HeadingShape h := by
  intro fuel
  induction fuel with
  | zero => intro s h hh; simp [findDayHeadingsAux] at hh
  | succ fuel ih =>
    intro s h hh
    cases s with
    | nil => simp [findDayHeadingsAux] at hh
    | cons c cs =>
      unfold findDayHeadingsAux at hh
      split at hh
      · rcases List.mem_cons.mp hh with rfl | hh'
        · rename_i heq
          exact tryHeading_shape _ _ _ heq
        · exact ih _ h hh'
      · exact ih _ h hh

/-- Every heading `matchAll` finds is shaped. -/
theorem findDayHeadings_shape (t h : List Char)
    (hh : h ∈ findDayHeadings t) : HeadingShape h :=
  findDayHeadingsAux_shape _ t h hh

/-- The patterns of the display list are exactly the headings. -/
theorem dispList_fst (W : Gateway) (ws : List Json) :
    ∀ (hs : List (List Char)) (i : Nat) (date : CivilDate) (p : List Char × List Char),
      p ∈ dispList W ws hs i date → p.1 ∈ hs := by
  intro hs
  induction hs with
  | nil => intro i date p hp; simp [dispList] at hp
  | cons h hs ih =>
    intro i date p hp
    unfold dispList at hp
    rcases List.mem_cons.mp hp with rfl | hp'
    · simp
    · exact List.mem_cons_of_mem _ (ih (i + 1) (nextDay date) p hp')


/-- A heading scanned from a dollar-free text is dollar-free (the
literal, the digits and the colon never are; the tail's characters come
from the text). -/
theorem tryHeading_no_dollar (s h : List Char) (n : Nat)
    (hth : tryHeading s = some (h, n)) (hs : ∀ c ∈ s, c ≠ '$') :
    ∀ c ∈ h, c ≠ '$' := by
  unfold tryHeading at hth
  split at hth
  · set r := s.drop 7 with hr
    by_cases hds : r.takeWhile isDig = []
    · rw [if_pos hds] at hth
      exact absurd hth (by simp)
    · rw [if_neg hds] at hth
      split at hth
      · rename_i x r2 heq
        injection hth with hpair
        injection hpair with hh hn
        intro c hc
        rw [← hh] at hc
        rcases List.mem_append.mp hc with hc1 | hc2
        · rcases List.mem_append.mp hc1 with hlit | hdig
          · have hlits : ∀ c ∈ "## Day ".data, c ≠ '$' := by decide
            exact hlits c hlit
          · have hd := List.mem_takeWhile_imp hdig
            intro he
            rw [he] at hd
            exact absurd hd (by decide)
        · rcases List.mem_cons.mp hc2 with rfl | hc3
          · decide
          · have h1 : c ∈ r2 := (List.takeWhile_sublist _).subset hc3
            have h2 : c ∈ r.dropWhile isDig := by
              rw [heq]
              exact List.mem_cons_of_mem _ h1
            have h3 : c ∈ r := (List.dropWhile_sublist _).subset h2
            have h4 : c ∈ s := by
              rw [hr] at h3
              exact (List.drop_sublist _ _).subset h3
            exact hs c h4
      · exact absurd hth (by simp)
  · exact absurd hth (by simp)

/-- Every heading the scanner returns from a dollar-free text is
dollar-free. -/
theorem findDayHeadingsAux_no_dollar :
    ∀ (fuel : Nat) (s : List Char), (∀ c ∈ s, c ≠ '$') →
      ∀ h ∈ findDayHeadingsAux fuel s, ∀ c ∈ h, c ≠ '$' := by
  intro fuel
  induction fuel with
  | zero => intro s _ h hh; simp [findDayHeadingsAux] at hh
  | succ fuel ih =>
    intro s hs h hh
    cases s with
    | nil => simp [findDayHeadingsAux] at hh
    | cons c cs =>
      unfold findDayHeadingsAux at hh
      split at hh
      · rcases List.mem_cons.mp hh with rfl | hh'
        · rename_i heq
          exact tryHeading_no_dollar _ _ _ heq hs
        · refine ih _ ?_ h hh'
          intro d hd
          exact hs d ((List.drop_sublist _ _).subset hd)
      · exact ih _ (fun d hd => hs d (List.mem_cons_of_mem c hd)) h hh

/-- Every heading `matchAll` finds in a dollar-free text is
dollar-free. -/
theorem findDayHeadings_no_dollar (t h : List Char)
    (hh : h ∈ findDayHeadings t) (ht : ∀ c ∈ t, c ≠ '$') :
    ∀ c ∈ h, c ≠ '$' :=
  findDayHeadingsAux_no_dollar _ t ht h hh

/-- The weather block of a dollar-free display is dollar-free. -/
theorem weatherInsert_clean (disp : List Char)
    (hd : ∀ c ∈ disp, c ≠ '$') : ∀ c ∈ weatherInsert disp, c ≠ '$' := by
  intro c hc
  rw [weatherInsert_shape] at hc
  rcases List.mem_cons.mp hc with rfl | hc1
  · decide
  · rcases List.mem_cons.mp hc1 with rfl | hc2
    · decide
    · rcases List.mem_append.mp hc2 with hlit | hdisp
      · have hlits : ∀ c ∈ "**Weather Forecast:** ".data, c ≠ '$' := by decide
        exact hlits c hlit
      · exact hd c hdisp

/-- If every forecast string the gateway can return is dollar-free,
every display of the display list is dollar-free (the unavailable
marker is). -/
theorem dispList_snd_clean (W : Gateway) (ws : List Json)
    (hW : ∀ a b c r, W a b c = some r → ∀ ch ∈ r, ch ≠ '$') :
    ∀ (hs : List (List Char)) (i : Nat) (date : CivilDate)
      (p : List Char × List Char), p ∈ dispList W ws hs i date →
      ∀ c ∈ p.2, c ≠ '$' := by
  intro hs
  induction hs with
  | nil => intro i date p hp; simp [dispList] at hp
  | cons h hs ih =>
    intro i date p hp
    unfold dispList at hp
    rcases List.mem_cons.mp hp with rfl | hp'
    · show ∀ c ∈ jsOrStr (W (jField (claimLocation ws i) "lat".data)
          (jField (claimLocation ws i) "lng".data) (toIsoDate date))
          unavailableMarker, c ≠ '$'
      cases hw : W (jField (claimLocation ws i) "lat".data)
          (jField (claimLocation ws i) "lng".data) (toIsoDate date) with
      | none => decide
      | some w =>
        by_cases hwe : w = []
        · rw [hwe]; decide
        · rw [show jsOrStr (some w) unavailableMarker = w by
            simp [jsOrStr, hwe]]
          exact hW _ _ _ w hw
    · exact ih (i + 1) (nextDay date) p hp'

/-- With a dollar-free text and dollar-free gateway answers, every
splice of the display list has a dollar-free pattern and replacement. -/
theorem dispList_splice_clean (W : Gateway) (ws : List Json)
    (text : List Char) (d : CivilDate)
    (htext : ∀ c ∈ text, c ≠ '$')
    (hW : ∀ a b c r, W a b c = some r → ∀ ch ∈ r, ch ≠ '$') :
    ∀ p ∈ dispList W ws (findDayHeadings text) 0 d,
      ∀ c ∈ p.1 ++ weatherInsert p.2, c ≠ '$' := by
  intro p hp c hc
  rcases List.mem_append.mp hc with hc1 | hc2
  · exact findDayHeadings_no_dollar text p.1
      (dispList_fst W ws _ 0 d p hp) htext c hc1
  · exact weatherInsert_clean p.2
      (dispList_snd_clean W ws hW _ 0 d p hp) c hc2

/-- Claim C10 (amended): with a parsable start date and a nonempty list
of object waypoints, and provided neither the itinerary text nor any
forecast string the gateway returns contains a dollar sign, enrichment
is insertion-only — the input text survives, in order, as a (character)
sublist of the output, and every input line containing no day-heading
match appears unchanged among the output's lines.  The dollar-freeness
proviso is necessary: `String.prototype.replace` expands
`$`-substitution patterns in the replacement string, which is built
from the matched heading itself, so a heading containing `$$` loses a
character (see the counterexample). -/
theorem claim_C10_amended (W : Gateway) (text : List Char) (ws : List Json)
    (s : List Char) (d : CivilDate)
    (hws : ws ≠ []) (hobj : ∀ v ∈ ws, isObjJson v = true)
    (hd : jsDateParse s = some d)
    (htext : ∀ c ∈ text, c ≠ '$')
    (hW : ∀ a b c r, W a b c = some r → ∀ ch ∈ r, ch ≠ '$') :
    List.Sublist text (addWeatherToItinerary W text ws s).1 ∧
    ∀ L ∈ linesOf text, hasHeadingCore L = false →
      L ∈ linesOf (addWeatherToItinerary W text ws s).1 := by
  unfold addWeatherToItinerary
  rw [hd]
  dsimp only
  rw [enrichLoop_eq W ws hws hobj]
  dsimp only
  constructor
  · exact enrichSplice_sublist _ text
      (dispList_splice_clean W ws text d htext hW)
  · intro L hL hfree
    refine enrichSplice_lines _ text L ?_
      (dispList_splice_clean W ws text d htext hW) hL hfree
    intro p hp
    exact findDayHeadings_shape text p.1 (dispList_fst W ws _ 0 d p hp)

/-- Witness for the amended C10 at the two-day concrete itinerary. -/
theorem claim_C10_amended_witness :
    ([wpA, wpB, wpC] ≠ ([] : List Json) ∧
     jsDateParse "2024-07-22".data = some ⟨2024, 7, 22⟩ ∧
     (∀ c ∈ c1Text, c ≠ '$')) ∧
    (List.Sublist c1Text
        (addWeatherToItinerary demoGateway c1Text [wpA, wpB, wpC]
          "2024-07-22".data).1 ∧
     ∀ L ∈ linesOf c1Text, hasHeadingCore L = false →
       L ∈ linesOf (addWeatherToItinerary demoGateway c1Text [wpA, wpB, wpC]
         "2024-07-22".data).1) :=
  ⟨⟨by decide, by decide, by decide⟩,
   claim_C10_amended demoGateway c1Text [wpA, wpB, wpC] "2024-07-22".data
     ⟨2024, 7, 22⟩ (by decide) (by decide) (by decide) (by decide)
     (by
       intro a b c r hr
       injection hr with hr'
       rw [← hr']
       decide)⟩

/-- Counterexample to C10 as stated: the claim's domain quantifies over
every itinerary text, but with a Day-1 heading containing `$$` the JS
`$`-substitution collapses the two dollars to one in the spliced
replacement, so the input is not a subsequence of the output (the
output has one `$` where the input has two, although the run is in the
claim's domain: nonempty object waypoints and a parsable date). -/
theorem claim_C10_counterexample :
    [wpA, wpB, wpC] ≠ ([] : List Json) ∧
    (∀ v ∈ [wpA, wpB, wpC], isObjJson v = true) ∧
    jsDateParse "2024-07-22".data = some ⟨2024, 7, 22⟩ ∧
    ¬ List.Sublist c10Text
        (addWeatherToItinerary demoGateway c10Text [wpA, wpB, wpC]
          "2024-07-22".data).1 :=
  ⟨by decide, by decide, by decide,
   fun hsub => absurd (hsub.count_le '$') (by decide)⟩

/-- Two gateways agreeing on every issued request produce the same
display list. -/
theorem dispList_congr (W W' : Gateway) (ws : List Json) :
    ∀ (hs : List (List Char)) (i : Nat) (date : CivilDate),
      (∀ k, k < hs.length →
        W (jField (claimLocation ws (i + k)) "lat".data)
          (jField (claimLocation ws (i + k)) "lng".data)
          (toIsoDate (addDays date k)) =
        W' (jField (claimLocation ws (i + k)) "lat".data)
           (jField (claimLocation ws (i + k)) "lng".data)
           (toIsoDate (addDays date k))) →
      dispList W ws hs i date = dispList W' ws hs i date := by
  intro hs
  induction hs with
  | nil => intro i date _; rfl
  | cons h hs ih =>
    intro i date hag
    have h0 := hag 0 (Nat.succ_pos _)
    rw [Nat.add_zero, show addDays date 0 = date from rfl] at h0
    unfold dispList
    rw [h0]
    exact congrArg _ (ih (i + 1) (nextDay date) (by
      intro k hk
      have hstep := hag (k + 1) (Nat.succ_lt_succ hk)
      have harith : i + (k + 1) = i + 1 + k := by omega
      rw [harith] at hstep
      exact hstep))

/-- A run whose gateway fails on day `j` and agrees with a second
gateway on every other day has the display list of the second run with
day `j`'s display replaced by the unavailable marker. -/
theorem dispList_markDay (W W' : Gateway) (ws : List Json) :
    ∀ (hs : List (List Char)) (i : Nat) (date : CivilDate) (j : Nat),
      j < hs.length →
      jsOrStr (W (jField (claimLocation ws (i + j)) "lat".data)
                 (jField (claimLocation ws (i + j)) "lng".data)
                 (toIsoDate (addDays date j))) unavailableMarker =
        unavailableMarker →
      (∀ k, k < hs.length → k ≠ j →
        W (jField (claimLocation ws (i + k)) "lat".data)
          (jField (claimLocation ws (i + k)) "lng".data)
          (toIsoDate (addDays date k)) =
        W' (jField (claimLocation ws (i + k)) "lat".data)
           (jField (claimLocation ws (i + k)) "lng".data)
           (toIsoDate (addDays date k))) →
      dispList W ws hs i date = markDay j (dispList W' ws hs i date) := by
  intro hs
  induction hs with
  | nil => intro i date j hj _ _; simp at hj
  | cons h hs ih =>
    intro i date j hj hfail hag
    cases j with
    | zero =>
      rw [Nat.add_zero, show addDays date 0 = date from rfl] at hfail
      unfold dispList
      rw [show markDay 0 ((h, jsOrStr (W' (jField (claimLocation ws i) "lat".data)
          (jField (claimLocation ws i) "lng".data) (toIsoDate date))
          unavailableMarker) :: dispList W' ws hs (i + 1) (nextDay date)) =
          (h, unavailableMarker) :: dispList W' ws hs (i + 1) (nextDay date)
        from rfl]
      rw [hfail]
      exact congrArg _ (dispList_congr W W' ws hs (i + 1) (nextDay date) (by
        intro k hk
        have hstep := hag (k + 1) (Nat.succ_lt_succ hk) (Nat.succ_ne_zero k)
        have harith : i + (k + 1) = i + 1 + k := by omega
        rw [harith] at hstep
        exact hstep))
    | succ j' =>
      have hj' : j' < hs.length := Nat.lt_of_succ_lt_succ hj
      have h0 := hag 0 (Nat.succ_pos _) (Nat.succ_ne_zero j').symm
      rw [Nat.add_zero, show addDays date 0 = date from rfl] at h0
      unfold dispList
      rw [show markDay (j' + 1) ((h, jsOrStr (W' (jField (claimLocation ws i) "lat".data)
          (jField (claimLocation ws i) "lng".data) (toIsoDate date))
          unavailableMarker) :: dispList W' ws hs (i + 1) (nextDay date)) =
          (h, jsOrStr (W' (jField (claimLocation ws i) "lat".data)
            (jField (claimLocation ws i) "lng".data) (toIsoDate date))
            unavailableMarker) ::
          markDay j' (dispList W' ws hs (i + 1) (nextDay date)) from rfl]
      rw [h0]
      refine congrArg _ (ih (i + 1) (nextDay date) j' hj' ?_ ?_)
      · have harith : i + (j' + 1) = i + 1 + j' := by omega
        rw [harith] at hfail
        exact hfail
      · intro k hk hkj
        have hstep := hag (k + 1) (Nat.succ_lt_succ hk)
          (fun he => hkj (Nat.succ_injective he))
        have harith : i + (k + 1) = i + 1 + k := by omega
        rw [harith] at hstep
        exact hstep

/-- Claim C6 (amended): under a parsable start date and nonempty object
waypoints, compare a run whose gateway `W` fails (returns `none`) on
day `j` with a run under `W'` that agrees on every other day's request.
The failing run still processes every heading (one request per heading,
and the request lists of the two runs coincide — a failure never aborts
the remaining days); day `j`'s spliced display is exactly the
`❓ Forecast unavailable` marker; every other day's spliced display is
the one of the failure-free run — the failing run's display list is the
failure-free run's with day `j`'s display replaced by the marker — and
both outputs are the per-heading splices of those display lists onto
the same text.  (The gateway itself, `getWeatherForecast`, is total:
every failure outcome is the value `none`, never an exception.)  The
spliced text of another day is nonetheless not always byte-identical to
the failure-free run's: the `$`-substitution of
`String.prototype.replace` can copy surrounding text — including the
failing day's marker — into a later day's heading (see the
counterexample). -/
theorem claim_C6_amended (W W' : Gateway) (text : List Char) (ws : List Json)
    (s : List Char) (d : CivilDate) (j : Nat)
    (hws : ws ≠ []) (hobj : ∀ v ∈ ws, isObjJson v = true)
    (hd : jsDateParse s = some d)
    (hj : j < (findDayHeadings text).length)
    (hfail : W (requestArgs ws d j).1 (requestArgs ws d j).2.1
               (requestArgs ws d j).2.2 = none)
    (hagree : ∀ k, k < (findDayHeadings text).length → k ≠ j →
      W (requestArgs ws d k).1 (requestArgs ws d k).2.1
          (requestArgs ws d k).2.2 =
        W' (requestArgs ws d k).1 (requestArgs ws d k).2.1
          (requestArgs ws d k).2.2) :
    (addWeatherToItinerary W text ws s).2.length =
      (findDayHeadings text).length ∧
    (addWeatherToItinerary W text ws s).2 =
      (addWeatherToItinerary W' text ws s).2 ∧
    dayDisplay W ws d j = unavailableMarker ∧
    (∀ k, k < (findDayHeadings text).length → k ≠ j →
      dayDisplay W ws d k = dayDisplay W' ws d k) ∧
    dispList W ws (findDayHeadings text) 0 d =
      markDay j (dispList W' ws (findDayHeadings text) 0 d) ∧
    (addWeatherToItinerary W text ws s).1 =
      enrichSplice text (dispList W ws (findDayHeadings text) 0 d) ∧
    (addWeatherToItinerary W' text ws s).1 =
      enrichSplice text (dispList W' ws (findDayHeadings text) 0 d) := by
  have hW := enrichLoop_eq W ws hws hobj (findDayHeadings text) 0 d text
  have hW' := enrichLoop_eq W' ws hws hobj (findDayHeadings text) 0 d text
  unfold addWeatherToItinerary
  rw [hd]
  dsimp only
  rw [hW, hW']
  refine ⟨reqList_length ws _ 0 d, rfl, ?_, ?_, ?_, rfl, rfl⟩
  · unfold dayDisplay
    rw [hfail]
    rfl
  · intro k hk hkj
    unfold dayDisplay
    rw [hagree k hk hkj]
  · refine dispList_markDay W W' ws (findDayHeadings text) 0 d j hj ?_ ?_
    · rw [Nat.zero_add]
      show jsOrStr (W (requestArgs ws d j).1 (requestArgs ws d j).2.1
          (requestArgs ws d j).2.2) unavailableMarker = unavailableMarker
      rw [hfail]
      rfl
    · intro k hk hkj
      rw [Nat.zero_add]
      show W (requestArgs ws d k).1 (requestArgs ws d k).2.1
          (requestArgs ws d k).2.2 =
        W' (requestArgs ws d k).1 (requestArgs ws d k).2.1
          (requestArgs ws d k).2.2
      exact hagree k hk hkj

/-- Witness for the amended C6: two headings; the gateway fails on day
1 (index 1) and agrees with the failure-free gateway on day 0. -/
theorem claim_C6_amended_witness :
    ((fun lat lng date =>
        if date = "2024-07-23".data then none
        else some "☀️ Clear sky, 20°C to 28°C".data : Gateway)
       (requestArgs [wpA, wpB, wpC] ⟨2024, 7, 22⟩ 1).1
       (requestArgs [wpA, wpB, wpC] ⟨2024, 7, 22⟩ 1).2.1
       (requestArgs [wpA, wpB, wpC] ⟨2024, 7, 22⟩ 1).2.2 = none) ∧
    ((addWeatherToItinerary
        (fun lat lng date =>
          if date = "2024-07-23".data then none
          else some "☀️ Clear sky, 20°C to 28°C".data)
        c1Text [wpA, wpB, wpC] "2024-07-22".data).2.length =
      (findDayHeadings c1Text).length ∧
     (addWeatherToItinerary
        (fun lat lng date =>
          if date = "2024-07-23".data then none
          else some "☀️ Clear sky, 20°C to 28°C".data)
        c1Text [wpA, wpB, wpC] "2024-07-22".data).2 =
      (addWeatherToItinerary
        (fun _ _ _ => some "☀️ Clear sky, 20°C to 28°C".data)
        c1Text [wpA, wpB, wpC] "2024-07-22".data).2 ∧
     dayDisplay
        (fun lat lng date =>
          if date = "2024-07-23".data then none
          else some "☀️ Clear sky, 20°C to 28°C".data)
        [wpA, wpB, wpC] ⟨2024, 7, 22⟩ 1 = unavailableMarker ∧
     (∀ k, k < (findDayHeadings c1Text).length → k ≠ 1 →
       dayDisplay
          (fun lat lng date =>
            if date = "2024-07-23".data then none
            else some "☀️ Clear sky, 20°C to 28°C".data)
          [wpA, wpB, wpC] ⟨2024, 7, 22⟩ k =
         dayDisplay (fun _ _ _ => some "☀️ Clear sky, 20°C to 28°C".data)
          [wpA, wpB, wpC] ⟨2024, 7, 22⟩ k) ∧
     dispList
        (fun lat lng date =>
          if date = "2024-07-23".data then none
          else some "☀️ Clear sky, 20°C to 28°C".data)
        [wpA, wpB, wpC] (findDayHeadings c1Text) 0 ⟨2024, 7, 22⟩ =
      markDay 1 (dispList
        (fun _ _ _ => some "☀️ Clear sky, 20°C to 28°C".data)
        [wpA, wpB, wpC] (findDayHeadings c1Text) 0 ⟨2024, 7, 22⟩) ∧
     (addWeatherToItinerary
        (fun lat lng date =>
          if date = "2024-07-23".data then none
          else some "☀️ Clear sky, 20°C to 28°C".data)
        c1Text [wpA, wpB, wpC] "2024-07-22".data).1 =
      enrichSplice c1Text
        (dispList
          (fun lat lng date =>
            if date = "2024-07-23".data then none
            else some "☀️ Clear sky, 20°C to 28°C".data)
          [wpA, wpB, wpC] (findDayHeadings c1Text) 0 ⟨2024, 7, 22⟩) ∧
     (addWeatherToItinerary
        (fun _ _ _ => some "☀️ Clear sky, 20°C to 28°C".data)
        c1Text [wpA, wpB, wpC] "2024-07-22".data).1 =
      enrichSplice c1Text
        (dispList (fun _ _ _ => some "☀️ Clear sky, 20°C to 28°C".data)
          [wpA, wpB, wpC] (findDayHeadings c1Text) 0 ⟨2024, 7, 22⟩)) :=
  ⟨by decide,
   claim_C6_amended _ _ c1Text [wpA, wpB, wpC] "2024-07-22".data
     ⟨2024, 7, 22⟩ 1 (by decide) (by decide) (by decide) (by decide)
     (by decide) (by decide)⟩

/-- Counterexample to C6 as stated: "every other day's output is
produced exactly as if that failure had not occurred" fails in the
program.  With a Day-2 heading ending in a dollar-backquote pair, the
`$`-substitution of `String.prototype.replace` copies the text
preceding the match — which contains the failing Day 1's spliced
marker — into Day 2's heading: the failing run's output carries the
`❓` marker twice (the claim predicts it for the failing day only)
while the failure-free run's output carries it nowhere, so Day 2's
section differs between the runs beyond Day 1's display. -/
theorem claim_C6_counterexample :
    c6FailGateway (requestArgs [wpA, wpB, wpC] ⟨2024, 7, 22⟩ 0).1
        (requestArgs [wpA, wpB, wpC] ⟨2024, 7, 22⟩ 0).2.1
        (requestArgs [wpA, wpB, wpC] ⟨2024, 7, 22⟩ 0).2.2 = none ∧
    (∀ k, k < (findDayHeadings c6Text).length → k ≠ 0 →
      c6FailGateway (requestArgs [wpA, wpB, wpC] ⟨2024, 7, 22⟩ k).1
          (requestArgs [wpA, wpB, wpC] ⟨2024, 7, 22⟩ k).2.1
          (requestArgs [wpA, wpB, wpC] ⟨2024, 7, 22⟩ k).2.2 =
        demoGateway (requestArgs [wpA, wpB, wpC] ⟨2024, 7, 22⟩ k).1
          (requestArgs [wpA, wpB, wpC] ⟨2024, 7, 22⟩ k).2.1
          (requestArgs [wpA, wpB, wpC] ⟨2024, 7, 22⟩ k).2.2) ∧
    List.count '❓'
      (addWeatherToItinerary c6FailGateway c6Text [wpA, wpB, wpC]
        "2024-07-22".data).1 = 2 ∧
    List.count '❓'
      (addWeatherToItinerary demoGateway c6Text [wpA, wpB, wpC]
        "2024-07-22".data).1 = 0 :=
  ⟨by decide, by decide, by decide, by decide⟩

/-- takeWhile/dropWhile distribute over a fully-satisfying prefix. -/
theorem takedrop_append_all (p : Char → Bool) :
    ∀ (x z : List Char), (∀ c ∈ x, p c = true) →
      (x ++ z).takeWhile p = x ++ z.takeWhile p ∧
      (x ++ z).dropWhile p = z.dropWhile p := by
  intro x
  induction x with
  | nil => intro z _; simp
  | cons c cs ih =>
    intro z hx
    have hc : p c = true := hx c (by simp)
    obtain ⟨h1, h2⟩ := ih z (fun d hd => hx d (by simp [hd]))
    simp [List.takeWhile, List.dropWhile, hc, h1, h2]

/-- `splitDigits` of a digit block followed by a non-digit boundary. -/
theorem splitDigits_exact (ds rest : List Char)
    (hds : ∀ c ∈ ds, isDig c = true)
    (hrest : ∀ c, rest.head? = some c → isDig c = false) :
    splitDigits (ds ++ rest) = (ds, rest) := by
  cases rest with
  | nil =>
    obtain ⟨h1, h2⟩ := takedrop_append_all isDig ds [] hds
    simp only [splitDigits, h1, h2]
    simp
  | cons y ys =>
    obtain ⟨h1, h2⟩ := takeWhile_middle isDig ds y ys hds (hrest y rfl)
    simp [splitDigits, h1, h2]

/-- JSON whitespace characters are not digits (and none of the
characters a render can start with). -/
theorem jsonWs_not_render_head (c : Char) (h : jsonWs c = true) :
    isDig c = false ∧ c ≠ '-' ∧ c ≠ '"' ∧ c ≠ '[' ∧ c ≠ '{' ∧
    c ≠ 't' ∧ c ≠ 'f' ∧ c ≠ 'n' := by
  simp only [jsonWs, Bool.or_eq_true, decide_eq_true_eq] at h
  rcases h with ((h | h) | h) | h <;> subst h <;> exact ⟨by decide, by decide,
    by decide, by decide, by decide, by decide, by decide, by decide⟩

/-- `skipWs` is the identity on text starting with a non-whitespace
character. -/
theorem skipWs_cons_neg (c : Char) (cs : List Char)
    (h : jsonWs c = false) : skipWs (c :: cs) = c :: cs := by
  simp [skipWs, List.dropWhile, h]

/-- Round-trip of the string-body parser on escape-free contents. -/
theorem parseJString_render (s : List Char) (hs : wfString s = true) :
    ∀ rest, parseJString (s ++ '"' :: rest) = some (s, rest) := by
  induction s with
  | nil =>
    intro rest
    simp only [List.nil_append]
    unfold parseJString
    simp
  | cons c cs ih =>
    intro rest
    simp only [wfString, List.all_cons, Bool.and_eq_true] at hs
    obtain ⟨⟨⟨h1, h2⟩, h3⟩, htail⟩ := hs
    have hq : c ≠ '"' := of_decide_eq_true h1
    have hbs : c ≠ '\\' := of_decide_eq_true h2
    have hctl : ¬(c.val < 0x20) := by
      rw [Bool.not_eq_true'] at h3
      exact of_decide_eq_false h3
    have hrec := ih (by simpa [wfString] using htail) rest
    rw [List.cons_append, parseJString.eq_def]
    dsimp only
    rw [if_neg hq, if_neg hbs, if_neg hctl, hrec]
    rfl

/-- Round-trip of the integer-part parser. -/
theorem parseIntPart_render (ds rest : List Char) (hne : ds ≠ [])
    (hdig : ∀ c ∈ ds, isDig c = true)
    (hlead : ds.head? = some '0' → ds = ['0'])
    (hrest : ∀ c, rest.head? = some c → isDig c = false) :
    parseIntPart (ds ++ rest) = some (ds, rest) := by
  cases ds with
  | nil => exact absurd rfl hne
  | cons d ds' =>
    by_cases hd : d = '0'
    · subst hd
      have h0 := hlead rfl
      injection h0 with _ h0'
      subst h0'
      simp [parseIntPart]
    · have hh : (d :: ds' ++ rest).head? ≠ some '0' := by
        simp only [List.cons_append, List.head?_cons, ne_eq, Option.some.injEq]
        exact hd
      rw [parseIntPart, if_neg hh]
      rw [splitDigits_exact (d :: ds') rest hdig hrest]
      simp

/-- Round-trip of the fraction-part parser when a fraction is present. -/
theorem parseFracPart_dot (fr rest : List Char) (hne : fr ≠ [])
    (hdig : ∀ c ∈ fr, isDig c = true)
    (hrest : ∀ c, rest.head? = some c → isDig c = false) :
    parseFracPart ('.' :: (fr ++ rest)) = some (fr, rest) := by
  rw [parseFracPart, if_pos (by simp)]
  simp only [List.tail_cons]
  rw [splitDigits_exact fr rest hdig hrest]
  simp [hne]

/-- The fraction-part parser is the identity when no dot follows. -/
theorem parseFracPart_none (s : List Char)
    (h : s.head? ≠ some '.') : parseFracPart s = some ([], s) := by
  rw [parseFracPart, if_neg h]

/-- The exponent-part parser is the identity when no `e`/`E` follows. -/
theorem parseExpPart_none (s : List Char)
    (h1 : s.head? ≠ some 'e') (h2 : s.head? ≠ some 'E') :
    parseExpPart s = some ((false, false, []), s) := by
  rw [parseExpPart, if_neg (by simp [h1, h2])]

/-- The first character of a digit string is a digit, hence none of the
`-`/`+` markers. -/
theorem digits_head_not (ed rest : List Char) (hne : ed ≠ [])
    (hdig : ∀ c ∈ ed, isDig c = true) :
    (ed ++ rest).head? ≠ some '-' ∧ (ed ++ rest).head? ≠ some '+' := by
  cases ed with
  | nil => exact absurd rfl hne
  | cons d ds =>
    have hd := hdig d (by simp)
    constructor
    · simp only [List.cons_append, List.head?_cons, ne_eq, Option.some.injEq]
      intro he; rw [he] at hd; simp [isDig] at hd
    · simp only [List.cons_append, List.head?_cons, ne_eq, Option.some.injEq]
      intro he; rw [he] at hd; simp [isDig] at hd

/-- Round-trip of the exponent-part parser (canonical `e`, optional
minus). -/
theorem parseExpPart_render (neg : Bool) (ed rest : List Char)
    (hne : ed ≠ []) (hdig : ∀ c ∈ ed, isDig c = true)
    (hrest : ∀ c, rest.head? = some c → isDig c = false) :
    parseExpPart ('e' :: ((if neg then ['-'] else []) ++ (ed ++ rest))) =
      some ((true, neg, ed), rest) := by
  obtain ⟨hm, hp⟩ := digits_head_not ed rest hne hdig
  cases neg with
  | true =>
    simp only [if_true, List.cons_append, List.singleton_append]
    rw [parseExpPart, if_pos (by simp)]
    simp only [List.tail_cons, List.head?_cons, if_pos rfl, List.nil_append]
    rw [splitDigits_exact ed rest hdig hrest]
    simp
    exact hne
  | false =>
    simp only [Bool.false_eq_true, if_false, List.nil_append]
    rw [parseExpPart, if_pos (by simp)]
    simp only [List.tail_cons]
    rw [if_neg hm, if_neg hp]
    rw [splitDigits_exact ed rest hdig hrest]
    simp
    exact hne

/-- The render is the sign plus the unsigned body. -/
theorem renderNumber_split (n : JsonNumber) :
    renderNumber n = (if n.neg then ['-'] else []) ++ renderNumBody n := by
  simp [renderNumber, renderNumBody, List.append_assoc]

/-- Heads of an explicit cons classify. -/
theorem head_blocked (x : Char) (xs : List Char) (hx : isDig x = false) :
    ∀ c, (x :: xs).head? = some c → isDig c = false := by
  intro c hc
  rw [List.head?_cons] at hc
  injection hc with h
  rw [← h]
  exact hx

/-- The useful consequences of `GoodRest` at the head option. -/
theorem goodRest_facts (rest : List Char) (h : GoodRest rest) :
    rest.head? ≠ some '.' ∧ rest.head? ≠ some 'e' ∧ rest.head? ≠ some 'E' ∧
    (∀ c, rest.head? = some c → isDig c = false) := by
  cases hr : rest.head? with
  | none => simp
  | some c =>
    obtain ⟨hd, hdot, he, hE, hm⟩ := h c hr
    refine ⟨by simp [hdot], by simp [he], by simp [hE], ?_⟩
    intro d hdd
    injection hdd with hdd2
    rw [← hdd2]
    exact hd

/-- Explicit-cons heads differ from other literals. -/
theorem head_cons_ne (x y : Char) (xs : List Char) (hxy : x ≠ y) :
    (x :: xs).head? ≠ some y := by simp [hxy]

/-- Round-trip of the unsigned number parser on a canonical body. -/
theorem parseNumberCore_render (sgn : Bool) (n : JsonNumber)
    (hsgn : n.neg = sgn) (hn : wfNumber n = true)
    (rest : List Char) (hrest : GoodRest rest) :
    parseNumberCore sgn (renderNumBody n ++ rest) = some (n, rest) := by
  obtain ⟨neg, ints, fracs, hasE, expN, expD⟩ := n
  simp only at hsgn
  subst hsgn
  simp only [wfNumber, Bool.and_eq_true] at hn
  obtain ⟨⟨⟨⟨h1, h2⟩, h3⟩, h4⟩, h5⟩ := hn
  have hne : ints ≠ [] := of_decide_eq_true h1
  have hdig : ∀ c ∈ ints, isDig c = true := fun c hc => List.all_eq_true.mp h2 c hc
  have hfr : ∀ c ∈ fracs, isDig c = true := fun c hc => List.all_eq_true.mp h4 c hc
  have hlead : ints.head? = some '0' → ints = ['0'] := by
    intro hh
    have h3' : ints.head? ≠ some '0' ∨ ints.length = 1 := by simpa using h3
    rcases h3' with hx | hx
    · exact absurd hh hx
    · cases ints with
      | nil => simp at hh
      | cons a t =>
        cases t with
        | nil =>
          simp only [List.head?_cons, Option.some.injEq] at hh
          rw [hh]
        | cons b t2 => simp at hx
  obtain ⟨hgdot, hge, hgE, hgd⟩ := goodRest_facts rest hrest
  by_cases hf : fracs = [] <;> by_cases hhe : hasE = true
  · -- no fraction, exponent present
    subst hf
    rw [hhe] at h5 ⊢
    simp at h5
    obtain ⟨hedne, heddig⟩ := h5
    rw [show renderNumBody ⟨neg, ints, [], true, expN, expD⟩ ++ rest =
        ints ++ ('e' :: ((if expN then ['-'] else []) ++ (expD ++ rest))) from by
      simp [renderNumBody, List.append_assoc]]
    rw [parseNumberCore,
      parseIntPart_render ints _ hne hdig hlead (head_blocked 'e' _ (by decide))]
    dsimp only
    rw [parseFracPart_none _ (head_cons_ne 'e' '.' _ (by decide))]
    dsimp only
    rw [parseExpPart_render expN expD rest hedne heddig hgd]
  · -- no fraction, no exponent
    subst hf
    have hf2 : hasE = false := by
      cases hasE with
      | false => rfl
      | true => exact absurd rfl hhe
    rw [hf2] at h5 ⊢
    simp at h5
    obtain ⟨hen, hed⟩ := h5
    rw [hen, hed]
    rw [show renderNumBody ⟨neg, ints, [], false, false, []⟩ ++ rest =
        ints ++ rest from by simp [renderNumBody]]
    rw [parseNumberCore,
      parseIntPart_render ints _ hne hdig hlead hgd]
    dsimp only
    rw [parseFracPart_none _ hgdot]
    dsimp only
    rw [parseExpPart_none _ hge hgE]
  · -- fraction present, exponent present
    rw [hhe] at h5 ⊢
    simp at h5
    obtain ⟨hedne, heddig⟩ := h5
    rw [show renderNumBody ⟨neg, ints, fracs, true, expN, expD⟩ ++ rest =
        ints ++ ('.' :: (fracs ++
          ('e' :: ((if expN then ['-'] else []) ++ (expD ++ rest))))) from by
      simp [renderNumBody, hf, List.append_assoc]]
    rw [parseNumberCore,
      parseIntPart_render ints _ hne hdig hlead (head_blocked '.' _ (by decide))]
    dsimp only
    rw [parseFracPart_dot fracs _ hf hfr (head_blocked 'e' _ (by decide))]
    dsimp only
    rw [parseExpPart_render expN expD rest hedne heddig hgd]
  · -- fraction present, no exponent
    have hf2 : hasE = false := by
      cases hasE with
      | false => rfl
      | true => exact absurd rfl hhe
    rw [hf2] at h5 ⊢
    simp at h5
    obtain ⟨hen, hed⟩ := h5
    rw [hen, hed]
    rw [show renderNumBody ⟨neg, ints, fracs, false, false, []⟩ ++ rest =
        ints ++ ('.' :: (fracs ++ rest)) from by
      simp [renderNumBody, hf, List.append_assoc]]
    rw [parseNumberCore,
      parseIntPart_render ints _ hne hdig hlead (head_blocked '.' _ (by decide))]
    dsimp only
    rw [parseFracPart_dot fracs _ hf hfr hgd]
    dsimp only
    rw [parseExpPart_none _ hge hgE]

/-- Round-trip of the number parser on a canonical render. -/
theorem parseNumber_render (n : JsonNumber) (hn : wfNumber n = true)
    (rest : List Char) (hrest : GoodRest rest) :
    parseNumber (renderNumber n ++ rest) = some (n, rest) := by
  have hbody_head : ∀ c, (renderNumBody n ++ rest).head? = some c →
      isDig c = true := by
    intro c hc
    have hne : n.intDigits ≠ [] := by
      simp only [wfNumber, Bool.and_eq_true] at hn
      exact of_decide_eq_true hn.1.1.1.1
    have hdig : ∀ d ∈ n.intDigits, isDig d = true := by
      simp only [wfNumber, Bool.and_eq_true] at hn
      exact fun d hd => List.all_eq_true.mp hn.1.1.1.2 d hd
    cases hi : n.intDigits with
    | nil => exact absurd hi hne
    | cons a t =>
      have hsh : renderNumBody n ++ rest = a :: (t ++
          ((if n.fracDigits = [] then [] else '.' :: n.fracDigits) ++
           ((if n.hasExp then
              'e' :: ((if n.expNeg then ['-'] else []) ++ n.expDigits)
            else []) ++ rest))) := by
        simp [renderNumBody, hi, List.append_assoc]
      rw [hsh, List.head?_cons] at hc
      injection hc with hc2
      rw [← hc2]
      exact hdig a (by simp [hi])
  rw [renderNumber_split, List.append_assoc]
  cases hneg : n.neg with
  | true =>
    rw [if_pos (show (true : Bool) = true from rfl), List.singleton_append,
      parseNumber, if_pos (by simp), List.tail_cons]
    exact parseNumberCore_render true n hneg hn rest hrest
  | false =>
    rw [if_neg (show ¬((false : Bool) = true) from by simp), List.nil_append,
      parseNumber]
    have hnm : (renderNumBody n ++ rest).head? ≠ some '-' := by
      intro hcon
      have := hbody_head '-' hcon
      simp [isDig] at this
    rw [if_neg hnm]
    exact parseNumberCore_render false n hneg hn rest hrest

/-- Parser fuel for a value is positive. -/
theorem fuelFor_pos (v : Json) : 1 ≤ fuelFor v := by
  cases v <;> simp [fuelFor] <;> omega

/-- Parser fuel for a nonempty item list is positive. -/
theorem fuelForItems_pos (l : List Json) (h : l ≠ []) :
    1 ≤ fuelForItems l := by
  cases l with
  | nil => exact absurd rfl h
  | cons x xs => simp [fuelForItems]

/-- Parser fuel for a nonempty field list is positive. -/
theorem fuelForFields_pos (fs : List (List Char × Json)) (h : fs ≠ []) :
    1 ≤ fuelForFields fs := by
  cases fs with
  | nil => exact absurd rfl h
  | cons f fs' =>
    obtain ⟨k, v⟩ := f
    simp [fuelForFields]

/-- The head of the render of a canonical number. -/
theorem renderNumber_head (n : JsonNumber) (hn : wfNumber n = true) :
    ∃ c cs, renderNumber n = c :: cs ∧ (isDig c = true ∨ c = '-') := by
  have hne : n.intDigits ≠ [] := by
    simp only [wfNumber, Bool.and_eq_true] at hn
    exact of_decide_eq_true hn.1.1.1.1
  have hdig : ∀ d ∈ n.intDigits, isDig d = true := by
    simp only [wfNumber, Bool.and_eq_true] at hn
    exact fun d hd => List.all_eq_true.mp hn.1.1.1.2 d hd
  rw [renderNumber_split]
  cases hneg : n.neg with
  | true =>
    exact ⟨'-', renderNumBody n, by simp, Or.inr rfl⟩
  | false =>
    cases hi : n.intDigits with
    | nil => exact absurd hi hne
    | cons a t =>
      refine ⟨a, t ++
        ((if n.fracDigits = [] then [] else '.' :: n.fracDigits) ++
         (if n.hasExp then
            'e' :: ((if n.expNeg then ['-'] else []) ++ n.expDigits)
          else [])), ?_, Or.inl (hdig a (by simp [hi]))⟩
      simp [renderNumBody, hi, List.append_assoc]

/-- The head character of any well-formed render: a structural opener,
a literal opener, a sign or a digit — never whitespace and never a
closer. -/
theorem render_head (v : Json) (hv : wfJson v = true) :
    ∃ c cs, render v = c :: cs ∧ jsonWs c = false ∧ c ≠ ']' ∧ c ≠ '}' ∧
      c ≠ ',' := by
  cases v with
  | null => exact ⟨'n', _, rfl, by decide, by decide, by decide, by decide⟩
  | bool b =>
    cases b with
    | true => exact ⟨'t', _, rfl, by decide, by decide, by decide, by decide⟩
    | false => exact ⟨'f', _, rfl, by decide, by decide, by decide, by decide⟩
  | str s => exact ⟨'"', _, rfl, by decide, by decide, by decide, by decide⟩
  | arr l => exact ⟨'[', _, rfl, by decide, by decide, by decide, by decide⟩
  | obj fs => exact ⟨'{', _, rfl, by decide, by decide, by decide, by decide⟩
  | num n =>
    obtain ⟨c, cs, hcs, hc⟩ := renderNumber_head n (by simpa [wfJson] using hv)
    refine ⟨c, cs, hcs, ?_, ?_, ?_, ?_⟩
    · rcases hc with hd | rfl
      · by_cases hw : jsonWs c = true
        · have hcontr := (jsonWs_not_render_head c hw).1
          rw [hd] at hcontr
          exact absurd hcontr (by simp)
        · simpa using hw
      · decide
    · rcases hc with hd | rfl
      · intro he; rw [he] at hd; simp [isDig] at hd
      · decide
    · rcases hc with hd | rfl
      · intro he; rw [he] at hd; simp [isDig] at hd
      · decide
    · rcases hc with hd | rfl
      · intro he; rw [he] at hd; simp [isDig] at hd
      · decide

/-- `startsWith` is false when the heads differ. -/
theorem startsWith_head_ne (p : Char) (ps : List Char) (c : Char)
    (cs : List Char) (h : p ≠ c) :
    startsWith (p :: ps) (c :: cs) = false := by
  simp [startsWith, h]

/-- A good continuation headed by a literal delimiter. -/
theorem goodRest_lit (c : Char) (xs : List Char)
    (h : isDig c = false ∧ c ≠ '.' ∧ c ≠ 'e' ∧ c ≠ 'E' ∧ c ≠ '-') :
    GoodRest (c :: xs) := by
  intro d hd
  rw [List.head?_cons] at hd
  injection hd with hd2
  rw [← hd2]
  exact h

/-- Character facts for a digit head. -/
theorem dig_head_facts (c : Char) (hd : isDig c = true) :
    c ≠ '{' ∧ c ≠ '[' ∧ c ≠ '"' ∧ c ≠ 't' ∧ c ≠ 'f' ∧ c ≠ 'n' ∧
    jsonWs c = false := by
  refine ⟨?_, ?_, ?_, ?_, ?_, ?_, ?_⟩
  · intro he; rw [he] at hd; exact absurd hd (by decide)
  · intro he; rw [he] at hd; exact absurd hd (by decide)
  · intro he; rw [he] at hd; exact absurd hd (by decide)
  · intro he; rw [he] at hd; exact absurd hd (by decide)
  · intro he; rw [he] at hd; exact absurd hd (by decide)
  · intro he; rw [he] at hd; exact absurd hd (by decide)
  · by_cases hw : jsonWs c = true
    · have hcontr := (jsonWs_not_render_head c hw).1
      rw [hd] at hcontr
      exact absurd hcontr (by simp)
    · simpa using hw

/-- The head of a nonempty well-formed item-list render. -/
theorem renderItems_head (l : List Json) (hl : l ≠ []) (hw : wfList l = true) :
    ∃ c cs, renderItems l = c :: cs ∧ jsonWs c = false ∧ c ≠ ']' := by
  cases l with
  | nil => exact absurd rfl hl
  | cons x xs =>
    have hwx : wfJson x = true := by
      simp only [wfList, Bool.and_eq_true] at hw
      exact hw.1
    obtain ⟨c, cs0, hx, hws, hcl, _, _⟩ := render_head x hwx
    cases xs with
    | nil => exact ⟨c, cs0, by simp [renderItems, hx], hws, hcl⟩
    | cons y ys =>
      exact ⟨c, cs0 ++ ',' :: renderItems (y :: ys),
        by simp [renderItems, hx], hws, hcl⟩

/-- The head of a nonempty field-list render is a quote. -/
theorem renderFields_head (fs : List (List Char × Json)) (h : fs ≠ []) :
    ∃ cs, renderFields fs = '"' :: cs := by
  cases fs with
  | nil => exact absurd rfl h
  | cons f fs' =>
    obtain ⟨k, v⟩ := f
    cases fs' with
    | nil => exact ⟨k ++ '"' :: ':' :: render v, by simp [renderFields, renderString]⟩
    | cons g gs =>
      exact ⟨k ++ '"' :: ':' :: (render v ++ ',' :: renderFields (g :: gs)),
        by simp [renderFields, renderString, List.append_assoc]⟩

/-- Round-trip of the fueled JSON parser on well-formed canonical
renders: values, item lists and field lists, simultaneously by fuel
induction. -/
theorem parse_render : ∀ fuel : Nat,
    (∀ v (rest : List Char), wfJson v = true → fuelFor v ≤ fuel →
      GoodRest rest → parseValue fuel (render v ++ rest) = some (v, rest)) ∧
    (∀ l (rest : List Char), l ≠ [] → wfList l = true →
      fuelForItems l ≤ fuel →
      parseItems fuel (renderItems l ++ ']' :: rest) = some (l, rest)) ∧
    (∀ fs (rest : List Char), fs ≠ [] → wfFields fs = true →
      fuelForFields fs ≤ fuel →
      parseMembers fuel (renderFields fs ++ '}' :: rest) = some (fs, rest)) := by
  intro fuel
  induction fuel with
  | zero =>
    refine ⟨?_, ?_, ?_⟩
    · intro v rest _ hfuel _
      have := fuelFor_pos v
      omega
    · intro l rest hne _ hfuel
      have := fuelForItems_pos l hne
      omega
    · intro fs rest hne _ hfuel
      have := fuelForFields_pos fs hne
      omega
  | succ fuel ih =>
    obtain ⟨ihP, ihQ, ihR⟩ := ih
    have goodComma : ∀ xs : List Char, GoodRest (',' :: xs) :=
      fun xs => goodRest_lit ',' xs (by refine ⟨by decide, by decide, by decide, by decide, by decide⟩)
    have goodRB : ∀ xs : List Char, GoodRest (']' :: xs) :=
      fun xs => goodRest_lit ']' xs (by refine ⟨by decide, by decide, by decide, by decide, by decide⟩)
    have goodCB : ∀ xs : List Char, GoodRest ('}' :: xs) :=
      fun xs => goodRest_lit '}' xs (by refine ⟨by decide, by decide, by decide, by decide, by decide⟩)
    refine ⟨?_, ?_, ?_⟩
    · -- values
      intro v rest hwf hfuel hrest
      cases v with
      | null => rfl
      | bool b => cases b <;> rfl
      | str s =>
        have h : render (.str s) ++ rest = '"' :: (s ++ '"' :: rest) := by
          simp [render, renderString]
        rw [h]
        have hstep : parseValue (fuel + 1) ('"' :: (s ++ '"' :: rest)) =
            (parseJString (s ++ '"' :: rest)).map
              (fun p => (Json.str p.1, p.2)) := rfl
        rw [hstep, parseJString_render s (by simpa [wfJson] using hwf) rest]
        rfl
      | num n =>
        have hwn : wfNumber n = true := by simpa [wfJson] using hwf
        obtain ⟨c, cs, hcs, hcls⟩ := renderNumber_head n hwn
        have h : render (.num n) ++ rest = c :: (cs ++ rest) := by
          simp [render, hcs]
        rw [h]
        have hfacts : c ≠ '{' ∧ c ≠ '[' ∧ c ≠ '"' ∧ c ≠ 't' ∧ c ≠ 'f' ∧
            c ≠ 'n' ∧ jsonWs c = false := by
          rcases hcls with hd | rfl
          · exact dig_head_facts c hd
          · exact ⟨by decide, by decide, by decide, by decide, by decide,
              by decide, by decide⟩
        obtain ⟨hc1, hc2, hc3, hc4, hc5, hc6, hc7⟩ := hfacts
        unfold parseValue
        rw [skipWs_cons_neg c _ hc7]
        dsimp only
        rw [if_neg hc1, if_neg hc2, if_neg hc3]
        rw [startsWith_head_ne 't' _ c _ (fun he => hc4 he.symm)]
        rw [startsWith_head_ne 'f' _ c _ (fun he => hc5 he.symm)]
        rw [startsWith_head_ne 'n' _ c _ (fun he => hc6 he.symm)]
        simp only [Bool.false_eq_true, if_false]
        rw [show c :: (cs ++ rest) = renderNumber n ++ rest from by simp [hcs],
            parseNumber_render n hwn rest hrest]
        rfl
      | arr l =>
        cases l with
        | nil => rfl
        | cons x xs =>
          have hwl : wfList (x :: xs) = true := by simpa [wfJson] using hwf
          have h : render (.arr (x :: xs)) ++ rest =
              '[' :: (renderItems (x :: xs) ++ ']' :: rest) := by
            simp [render, List.append_assoc]
          rw [h]
          obtain ⟨c, cs, hri, hws, hcl⟩ :=
            renderItems_head (x :: xs) (by simp) hwl
          have hstep : parseValue (fuel + 1)
              ('[' :: (renderItems (x :: xs) ++ ']' :: rest)) =
              (if (skipWs (renderItems (x :: xs) ++ ']' :: rest)).head? =
                  some ']' then
                 some (.arr [], (skipWs (renderItems (x :: xs) ++ ']' :: rest)).tail)
               else
                 match parseItems fuel
                     (skipWs (renderItems (x :: xs) ++ ']' :: rest)) with
                 | some (vs, r3) => some (.arr vs, r3)
                 | none => none) := rfl
          rw [hstep]
          rw [show renderItems (x :: xs) ++ ']' :: rest = c :: (cs ++ ']' :: rest)
              from by simp [hri]]
          rw [skipWs_cons_neg c _ hws]
          rw [if_neg (head_cons_ne c ']' _ hcl)]
          rw [show c :: (cs ++ ']' :: rest) = renderItems (x :: xs) ++ ']' :: rest
              from by simp [hri]]
          have hfa : fuelForItems (x :: xs) ≤ fuel := by
            simp only [fuelFor] at hfuel
            omega
          rw [ihQ (x :: xs) rest (by simp) hwl hfa]
      | obj fs =>
        cases fs with
        | nil => rfl
        | cons f fs' =>
          have hwl : wfFields (f :: fs') = true := by simpa [wfJson] using hwf
          have h : render (.obj (f :: fs')) ++ rest =
              '{' :: (renderFields (f :: fs') ++ '}' :: rest) := by
            simp [render, List.append_assoc]
          rw [h]
          obtain ⟨cs, hri⟩ := renderFields_head (f :: fs') (by simp)
          have hstep : parseValue (fuel + 1)
              ('{' :: (renderFields (f :: fs') ++ '}' :: rest)) =
              (if (skipWs (renderFields (f :: fs') ++ '}' :: rest)).head? =
                  some '}' then
                 some (.obj [], (skipWs (renderFields (f :: fs') ++ '}' :: rest)).tail)
               else
                 match parseMembers fuel
                     (skipWs (renderFields (f :: fs') ++ '}' :: rest)) with
                 | some (gs, r3) => some (.obj gs, r3)
                 | none => none) := rfl
          rw [hstep]
          rw [show renderFields (f :: fs') ++ '}' :: rest =
              '"' :: (cs ++ '}' :: rest) from by simp [hri]]
          rw [skipWs_cons_neg '"' _ (by decide)]
          rw [if_neg (head_cons_ne '"' '}' _ (by decide))]
          rw [show '"' :: (cs ++ '}' :: rest) =
              renderFields (f :: fs') ++ '}' :: rest from by simp [hri]]
          have hfa : fuelForFields (f :: fs') ≤ fuel := by
            simp only [fuelFor] at hfuel
            omega
          rw [ihR (f :: fs') rest (by simp) hwl hfa]
    · -- item lists
      intro l rest hne hwl hfuel
      cases l with
      | nil => exact absurd rfl hne
      | cons x xs =>
        have hwx : wfJson x = true := by
          simp only [wfList, Bool.and_eq_true] at hwl
          exact hwl.1
        have hwxs : wfList xs = true := by
          simp only [wfList, Bool.and_eq_true] at hwl
          exact hwl.2
        simp only [fuelForItems] at hfuel
        have hfx : fuelFor x ≤ fuel := by
          have := Nat.le_max_left (fuelFor x) (fuelForItems xs)
          omega
        have hfxs : fuelForItems xs ≤ fuel := by
          have := Nat.le_max_right (fuelFor x) (fuelForItems xs)
          omega
        cases xs with
        | nil =>
          have h : renderItems [x] ++ ']' :: rest = render x ++ ']' :: rest := by
            simp [renderItems]
          rw [h]
          unfold parseItems
          rw [ihP x (']' :: rest) hwx hfx (goodRB rest)]
          dsimp only
          rw [skipWs_cons_neg ']' _ (by decide)]
          simp only [List.head?_cons]
          rw [if_neg (by decide), if_pos trivial]
          rfl
        | cons y ys =>
          have h : renderItems (x :: y :: ys) ++ ']' :: rest =
              render x ++ (',' :: (renderItems (y :: ys) ++ ']' :: rest)) := by
            simp [renderItems, List.append_assoc]
          rw [h]
          unfold parseItems
          rw [ihP x (',' :: (renderItems (y :: ys) ++ ']' :: rest)) hwx hfx
            (goodComma _)]
          dsimp only
          rw [skipWs_cons_neg ',' _ (by decide)]
          simp only [List.head?_cons]
          rw [if_pos trivial]
          simp only [List.tail_cons]
          rw [ihQ (y :: ys) rest (by simp) hwxs hfxs]
    · -- field lists
      intro fs rest hne hwl hfuel
      cases fs with
      | nil => exact absurd rfl hne
      | cons f fs' =>
        obtain ⟨k, v⟩ := f
        have hwk : wfString k = true := by
          simp only [wfFields, Bool.and_eq_true] at hwl
          exact hwl.1.1
        have hwv : wfJson v = true := by
          simp only [wfFields, Bool.and_eq_true] at hwl
          exact hwl.1.2
        have hwfs : wfFields fs' = true := by
          simp only [wfFields, Bool.and_eq_true] at hwl
          exact hwl.2
        simp only [fuelForFields] at hfuel
        have hfv : fuelFor v ≤ fuel := by
          have := Nat.le_max_left (fuelFor v) (fuelForFields fs')
          omega
        have hffs : fuelForFields fs' ≤ fuel := by
          have := Nat.le_max_right (fuelFor v) (fuelForFields fs')
          omega
        cases fs' with
        | nil =>
          have h : renderFields [(k, v)] ++ '}' :: rest =
              '"' :: (k ++ '"' :: (':' :: (render v ++ '}' :: rest))) := by
            simp [renderFields, renderString, List.append_assoc]
          rw [h]
          unfold parseMembers
          rw [if_pos (by simp)]
          simp only [List.tail_cons]
          rw [parseJString_render k hwk (':' :: (render v ++ '}' :: rest))]
          dsimp only
          rw [skipWs_cons_neg ':' _ (by decide)]
          simp only [List.head?_cons]
          rw [if_pos trivial]
          simp only [List.tail_cons]
          rw [ihP v ('}' :: rest) hwv hfv (goodCB rest)]
          dsimp only
          rw [skipWs_cons_neg '}' _ (by decide)]
          simp only [List.head?_cons]
          rw [if_neg (by decide), if_pos trivial]
          rfl
        | cons g gs =>
          have h : renderFields ((k, v) :: g :: gs) ++ '}' :: rest =
              '"' :: (k ++ '"' :: (':' :: (render v ++
                ',' :: (renderFields (g :: gs) ++ '}' :: rest)))) := by
            simp [renderFields, renderString, List.append_assoc]
          rw [h]
          unfold parseMembers
          rw [if_pos (by simp)]
          simp only [List.tail_cons]
          rw [parseJString_render k hwk
            (':' :: (render v ++ ',' :: (renderFields (g :: gs) ++ '}' :: rest)))]
          dsimp only
          rw [skipWs_cons_neg ':' _ (by decide)]
          simp only [List.head?_cons]
          rw [if_pos trivial]
          simp only [List.tail_cons]
          rw [ihP v (',' :: (renderFields (g :: gs) ++ '}' :: rest)) hwv hfv
            (goodComma _)]
          dsimp only
          rw [skipWs_cons_neg ',' _ (by decide)]
          simp only [List.head?_cons]
          rw [if_pos trivial]
          simp only [List.tail_cons]
          obtain ⟨cs2, hg⟩ := renderFields_head (g :: gs) (by simp)
          rw [show renderFields (g :: gs) ++ '}' :: rest =
              '"' :: (cs2 ++ '}' :: rest) from by simp [hg]]
          rw [skipWs_cons_neg '"' _ (by decide)]
          rw [show '"' :: (cs2 ++ '}' :: rest) =
              renderFields (g :: gs) ++ '}' :: rest from by simp [hg]]
          rw [ihR (g :: gs) rest (by simp) hwfs hffs]

mutual
/-- Fuel for a value is at most its render length plus one. -/
theorem fuelFor_le_render : ∀ v : Json, fuelFor v ≤ (render v).length + 1
  | .null => by simp [fuelFor, render]
  | .bool b => by cases b <;> simp [fuelFor, render]
  | .num n => by simp [fuelFor]
  | .str s => by simp [fuelFor]
  | .arr xs => by
    have h := fuelForItems_le_render xs
    simp only [fuelFor, render, List.length_cons, List.length_append]
    omega
  | .obj fs => by
    have h := fuelForFields_le_render fs
    simp only [fuelFor, render, List.length_cons, List.length_append]
    omega

/-- Fuel for an item list is at most its render length plus two. -/
theorem fuelForItems_le_render :
    ∀ l : List Json, fuelForItems l ≤ (renderItems l).length + 2
  | [] => by simp [fuelForItems]
  | [x] => by
    have h1 := fuelFor_le_render x
    rw [show fuelForItems [x] = 1 + max (fuelFor x) 0 from rfl, Nat.max_zero,
      show renderItems [x] = render x from rfl]
    omega
  | x :: y :: ys => by
    have h1 := fuelFor_le_render x
    have h2 := fuelForItems_le_render (y :: ys)
    have hm : max (fuelFor x) (fuelForItems (y :: ys)) ≤
        (render x).length + ((renderItems (y :: ys)).length + 2) :=
      Nat.max_le.mpr ⟨by omega, by omega⟩
    rw [show fuelForItems (x :: y :: ys) =
        1 + max (fuelFor x) (fuelForItems (y :: ys)) from rfl,
      show renderItems (x :: y :: ys) =
        render x ++ ',' :: renderItems (y :: ys) from rfl]
    simp only [List.length_append, List.length_cons]
    omega

/-- Fuel for a field list is at most its render length plus two. -/
theorem fuelForFields_le_render :
    ∀ fs : List (List Char × Json),
      fuelForFields fs ≤ (renderFields fs).length + 2
  | [] => by simp [fuelForFields]
  | [(k, v)] => by
    have h1 := fuelFor_le_render v
    rw [show fuelForFields [(k, v)] = 1 + max (fuelFor v) 0 from rfl,
      Nat.max_zero,
      show renderFields [(k, v)] = renderString k ++ ':' :: render v from rfl]
    simp only [List.length_append, List.length_cons, renderString]
    omega
  | (k, v) :: g :: gs => by
    have h1 := fuelFor_le_render v
    have h2 := fuelForFields_le_render (g :: gs)
    have hm : max (fuelFor v) (fuelForFields (g :: gs)) ≤
        (render v).length + ((renderFields (g :: gs)).length + 2) :=
      Nat.max_le.mpr ⟨by omega, by omega⟩
    rw [show fuelForFields ((k, v) :: g :: gs) =
        1 + max (fuelFor v) (fuelForFields (g :: gs)) from rfl,
      show renderFields ((k, v) :: g :: gs) =
        renderString k ++ ':' :: render v ++ ',' :: renderFields (g :: gs)
        from rfl]
    simp only [List.length_append, List.length_cons, renderString]
    omega
end

/-- `JSON.parse` round-trips on the canonical render of any well-formed
value. -/
theorem jsonParse_render (v : Json) (hwf : wfJson v = true) :
    jsonParse (render v) = some v := by
  have hgr : GoodRest ([] : List Char) := by intro c hc; simp at hc
  have hfuel : fuelFor v ≤ 2 * (render v).length + 2 := by
    have h1 := fuelFor_le_render v
    omega
  have h := (parse_render (2 * (render v).length + 2)).1 v [] hwf hfuel hgr
  rw [List.append_nil] at h
  unfold jsonParse
  rw [h]
  rfl

/-- The lazy capture stops at the first `]`: on text with no earlier
`]`, it takes exactly through the delimiter. -/
theorem takeThroughRBrack_exact :
    ∀ (body post : List Char), ']' ∉ body →
      takeThroughRBrack (body ++ ']' :: post) = some (body ++ [']']) := by
  intro body
  induction body with
  | nil => intro post _; rfl
  | cons c cs ih =>
    intro post h
    have hc : c ≠ ']' := by
      intro he
      exact h (by simp [he])
    have hcs : ']' ∉ cs := fun hm => h (by simp [hm])
    rw [List.cons_append]
    rw [show takeThroughRBrack (c :: (cs ++ ']' :: post)) =
        (takeThroughRBrack (cs ++ ']' :: post)).map (fun t => c :: t) from by
      rw [takeThroughRBrack.eq_def]
      cases hcc : c <;> simp_all]
    rw [ih post hcs]
    rfl

/-- The label scanner skips every position where the label does not
start. -/
theorem scanLabelArray_skip (lbl : List Char) :
    ∀ (pre rest : List Char),
      (∀ i, i < pre.length →
        startsWith lbl ((pre ++ rest).drop i) = false) →
      scanLabelArray lbl (pre ++ rest) = scanLabelArray lbl rest := by
  intro pre
  induction pre with
  | nil => intro rest _; rfl
  | cons p ps ih =>
    intro rest h
    have h0 : startsWith lbl (p :: (ps ++ rest)) = false := by
      have := h 0 (by simp)
      simpa using this
    rw [List.cons_append, scanLabelArray, if_neg (by simp [h0])]
    exact ih rest (fun i hi => by
      have := h (i + 1) (by simp; omega)
      simpa using this)

/-- The label scanner at a label occurrence followed by optional
whitespace and a bracketed span captures through the first `]`. -/
theorem scanLabelArray_hit (lbl mid body post : List Char)
    (hlbl : lbl ≠ []) (hmid : ∀ c ∈ mid, isJsWs c = true)
    (hbody : ']' ∉ body) :
    scanLabelArray lbl (lbl ++ (mid ++ '[' :: (body ++ ']' :: post))) =
      some ('[' :: (body ++ [']'])) := by
  obtain ⟨l0, ls, rfl⟩ : ∃ l0 ls, lbl = l0 :: ls := by
    cases lbl with
    | nil => exact absurd rfl hlbl
    | cons a b => exact ⟨a, b, rfl⟩
  rw [List.cons_append, scanLabelArray]
  rw [if_pos (by
    refine (startsWith_iff _ _).mpr ⟨mid ++ '[' :: (body ++ ']' :: post), ?_⟩
    simp)]
  rw [show (l0 :: (ls ++ (mid ++ '[' :: (body ++ ']' :: post)))).drop
      (l0 :: ls).length =
      mid ++ '[' :: (body ++ ']' :: post) from by
    rw [show l0 :: (ls ++ (mid ++ '[' :: (body ++ ']' :: post))) =
        (l0 :: ls) ++ (mid ++ '[' :: (body ++ ']' :: post)) from rfl]
    exact List.drop_left _ _]
  rw [show (mid ++ '[' :: (body ++ ']' :: post)).dropWhile isJsWs =
      '[' :: (body ++ ']' :: post) from by
    rw [(takedrop_append_all isJsWs mid ('[' :: (body ++ ']' :: post)) hmid).2]
    rw [List.dropWhile_cons_of_neg (by simp [isJsWs])]]
  simp [takeThroughRBrack_exact body post hbody]

/-- Claim C4 counterexample: a valid waypoint-shaped JSON array whose
name contains `]` is embedded under the label, yet extraction fails
with the user-visible error because the lazy capture stops at the first
`]` inside the string content. -/
theorem claim_C4_counterexample :
    jsonParse "[\x7b\"name\": \"a]b\", \"lat\": 1, \"lng\": 2\x7d]".data =
      some (.arr [.obj [("name".data, .str "a]b".data),
        ("lat".data, .num ⟨false, ['1'], [], false, false, []⟩),
        ("lng".data, .num ⟨false, ['2'], [], false, false, []⟩)]]) ∧
    waypointShaped (.obj [("name".data, .str "a]b".data),
        ("lat".data, .num ⟨false, ['1'], [], false, false, []⟩),
        ("lng".data, .num ⟨false, ['2'], [], false, false, []⟩)]) = true ∧
    parseWaypointsFromResponse
      ("Here you go. WAYPOINTS: [\x7b\"name\": \"a]b\", \"lat\": 1, \"lng\": 2\x7d] done".data) =
      ([], some waypointsError) := by
  refine ⟨by decide, by decide, by decide⟩

/-- Claim C4 (amended): extraction round-trips for a waypoint-shaped
JSON array embedded under the first WAYPOINTS label with arbitrary
prose around it, provided the rendered array contains no `]` before its
final closing bracket (the lazy capture stops at the first `]`, so a
`]` inside a string content truncates the capture); and the extractor
is total: it records at most the fixed user-visible error, and whenever
it records that error it returns the empty list. -/
theorem claim_C4_amended (pre mid post : List Char) (items : List Json)
    (hpre : ∀ i, i < pre.length →
      startsWith "WAYPOINTS:".data
        ((pre ++ "WAYPOINTS:".data ++ mid ++ render (.arr items) ++ post).drop i) =
        false)
    (hmid : ∀ c ∈ mid, isJsWs c = true)
    (hwf : wfList items = true)
    (hrb : ']' ∉ renderItems items)
    (hshape : items.all waypointShaped = true) :
    parseWaypointsFromResponse
        (pre ++ "WAYPOINTS:".data ++ mid ++ render (.arr items) ++ post) =
      (items, none) ∧
    (∀ text : List Char, (parseWaypointsFromResponse text).2 = none ∨
      parseWaypointsFromResponse text = ([], some waypointsError)) := by
  constructor
  · have hassoc : pre ++ "WAYPOINTS:".data ++ mid ++ render (.arr items) ++ post =
        pre ++ ("WAYPOINTS:".data ++
          (mid ++ '[' :: (renderItems items ++ ']' :: post))) := by
      simp [render, List.append_assoc]
    have hscan : scanLabelArray "WAYPOINTS:".data
        (pre ++ "WAYPOINTS:".data ++ mid ++ render (.arr items) ++ post) =
        some ('[' :: (renderItems items ++ [']'])) := by
      rw [hassoc]
      rw [scanLabelArray_skip "WAYPOINTS:".data pre _
        (fun i hi => by
          have := hpre i hi
          rw [hassoc] at this
          exact this)]
      exact scanLabelArray_hit "WAYPOINTS:".data mid (renderItems items) post
        (by simp) hmid hrb
    have hcap : ('[' :: (renderItems items ++ [']'])) = render (.arr items) := by
      simp [render]
    unfold parseWaypointsFromResponse
    rw [hscan, hcap]
    dsimp only
    have hparse : parseAndCleanJson (render (.arr items)) =
        some (.arr items) := by
      unfold parseAndCleanJson
      rw [jsonParse_render (.arr items) (by simpa [wfJson] using hwf)]
    rw [hparse]
    simp [hshape]
  · intro text
    unfold parseWaypointsFromResponse
    cases hs : scanLabelArray "WAYPOINTS:".data text with
    | none => left; rfl
    | some cap =>
      dsimp only
      cases hp : parseAndCleanJson cap with
      | none => right; rfl
      | some v =>
        dsimp only
        cases v with
        | arr items2 =>
          by_cases hall : items2.all waypointShaped = true
          · left; simp [hall]
          · right; simp [hall]
        | null => right; rfl
        | bool b => right; rfl
        | num n => right; rfl
        | str s => right; rfl
        | obj fs => right; rfl

/-- Claim C4 amended witness: a concrete embedding with prose on both
sides round-trips to the embedded array with no recorded error. -/
theorem claim_C4_amended_witness :
    parseWaypointsFromResponse
        ("Route: ".data ++ "WAYPOINTS:".data ++ " ".data ++
          render (.arr [.obj [("name".data, .str "Hualien".data),
            ("lat".data, .num ⟨false, ['2','4'], [], false, false, []⟩),
            ("lng".data, .num ⟨false, ['1','2','1'], [], false, false, []⟩)]]) ++
          " bye".data) =
      ([.obj [("name".data, .str "Hualien".data),
        ("lat".data, .num ⟨false, ['2','4'], [], false, false, []⟩),
        ("lng".data, .num ⟨false, ['1','2','1'], [], false, false, []⟩)]], none) :=
  (claim_C4_amended "Route: ".data " ".data " bye".data
    [.obj [("name".data, .str "Hualien".data),
      ("lat".data, .num ⟨false, ['2','4'], [], false, false, []⟩),
      ("lng".data, .num ⟨false, ['1','2','1'], [], false, false, []⟩)]]
    (by decide) (by decide) (by decide) (by decide) (by decide)).1

example :
    renderD (.arr [.obj [(true, "a".data,
      .num ⟨false, ['1'], [], false, false, []⟩)] true] true) =
      "[\x7ba:1,\x7d,]".data := by decide

example :
    eraseD (.arr [.obj [(true, "a".data,
      .num ⟨false, ['1'], [], false, false, []⟩)] true] true) =
      .arr [.obj [("a".data, .num ⟨false, ['1'], [], false, false, []⟩)]] := rfl

/-- Identifier characters lie in the ASCII alphanumeric/underscore code
ranges. -/
theorem word_val (c : Char) (h : isWordChar c = true) :
    (97 ≤ c.val.toNat ∧ c.val.toNat ≤ 122) ∨
    (65 ≤ c.val.toNat ∧ c.val.toNat ≤ 90) ∨
    (48 ≤ c.val.toNat ∧ c.val.toNat ≤ 57) ∨ c.val.toNat = 95 := by
  simp only [isWordChar, isDig, Bool.or_eq_true, Bool.and_eq_true,
    decide_eq_true_eq] at h
  rcases h with ((⟨h1, h2⟩ | ⟨h1, h2⟩) | ⟨h1, h2⟩) | h1
  · exact Or.inl ⟨h1, h2⟩
  · exact Or.inr (Or.inl ⟨h1, h2⟩)
  · exact Or.inr (Or.inr (Or.inl ⟨h1, h2⟩))
  · subst h1; exact Or.inr (Or.inr (Or.inr rfl))

/-- An identifier character is not whitespace, and differs from every
structural JSON character. -/
theorem word_facts (c : Char) (h : isWordChar c = true) :
    isJsWs c = false ∧ jsonWs c = false ∧ c ≠ '"' ∧ c ≠ ':' ∧ c ≠ ',' ∧
    c ≠ '{' ∧ c ≠ '}' ∧ c ≠ ']' ∧ c ≠ '[' := by
  have hv := word_val c h
  refine ⟨?_, ?_, ?_, ?_, ?_, ?_, ?_, ?_, ?_⟩
  · rw [Bool.eq_false_iff]
    intro hcon
    simp only [isJsWs, Bool.or_eq_true, Bool.and_eq_true,
      decide_eq_true_eq] at hcon
    rcases hcon with ((((((((((((((hc | hc) | hc) | hc) | hc) | hc) | hc) | hc) | ⟨hc1, hc2⟩) | hc) | hc) | hc) | hc) | hc) | hc)
    · subst hc; exact absurd hv (by decide)
    · subst hc; exact absurd hv (by decide)
    · subst hc; exact absurd hv (by decide)
    · subst hc; exact absurd hv (by decide)
    · subst hc; exact absurd hv (by decide)
    · subst hc; exact absurd hv (by decide)
    · have hx : c.val.toNat = 160 := by rw [hc]; rfl
      omega
    · have hx : c.val.toNat = 5760 := by rw [hc]; rfl
      omega
    · have hx1 : (8192 : Nat) ≤ c.val.toNat := hc1
      have hx2 : c.val.toNat ≤ 8202 := hc2
      omega
    · have hx : c.val.toNat = 8232 := by rw [hc]; rfl
      omega
    · have hx : c.val.toNat = 8233 := by rw [hc]; rfl
      omega
    · have hx : c.val.toNat = 8239 := by rw [hc]; rfl
      omega
    · have hx : c.val.toNat = 8287 := by rw [hc]; rfl
      omega
    · have hx : c.val.toNat = 12288 := by rw [hc]; rfl
      omega
    · have hx : c.val.toNat = 65279 := by rw [hc]; rfl
      omega
  · rw [Bool.eq_false_iff]
    intro hcon
    simp only [jsonWs, Bool.or_eq_true, decide_eq_true_eq] at hcon
    rcases hcon with ((hc | hc) | hc) | hc <;> (subst hc; exact absurd hv (by decide))
  all_goals (intro he; subst he; exact absurd hv (by decide))

/-- A character that is neither brace nor comma never starts a match of
the key-quoting regex. -/
theorem tryQK_not_trigger (c : Char) (cs : List Char) (h1 : c ≠ '{')
    (h2 : c ≠ ',') : tryQK c cs = none := by
  simp [tryQK, h1, h2]

/-- A non-comma character never starts a match of the trailing-comma
regex. -/
theorem tryTC_not_trigger (c : Char) (cs : List Char) (h : c ≠ ',') :
    tryTC c cs = none := by
  simp [tryTC, h]

/-- The key-quoting scanner on the empty text. -/
theorem qkAux_nil : ∀ f, qkAux f [] = [] := by
  intro f; cases f <;> rfl

/-- The trailing-comma scanner on the empty text. -/
theorem tcAux_nil : ∀ f, tcAux f [] = [] := by
  intro f; cases f <;> rfl

/-- The key-quoting scan result does not depend on the fuel, once the
fuel covers the text length. -/
theorem qkAux_congr : ∀ (k : Nat) (s : List Char) (f g : Nat),
    s.length ≤ k → s.length ≤ f → s.length ≤ g → qkAux f s = qkAux g s := by
  intro k
  induction k with
  | zero =>
    intro s f g hk _ _
    have : s = [] := List.length_eq_zero.mp (by omega)
    rw [this, qkAux_nil, qkAux_nil]
  | succ k ih =>
    intro s f g hk hf hg
    cases s with
    | nil => rw [qkAux_nil, qkAux_nil]
    | cons c cs =>
      simp only [List.length_cons] at hk hf hg
      cases f with
      | zero => omega
      | succ f0 =>
        cases g with
        | zero => omega
        | succ g0 =>
          simp only [qkAux]
          cases htr : tryQK c cs with
          | none =>
            exact congrArg (List.cons c)
              (ih cs f0 g0 (by omega) (by omega) (by omega))
          | some rn =>
            obtain ⟨rep, n⟩ := rn
            refine congrArg (fun t => rep ++ t) (ih (cs.drop n) f0 g0 ?_ ?_ ?_)
            all_goals simp only [List.length_drop]; omega

/-- The trailing-comma scan result does not depend on the fuel, once
the fuel covers the text length. -/
theorem tcAux_congr : ∀ (k : Nat) (s : List Char) (f g : Nat),
    s.length ≤ k → s.length ≤ f → s.length ≤ g → tcAux f s = tcAux g s := by
  intro k
  induction k with
  | zero =>
    intro s f g hk _ _
    have : s = [] := List.length_eq_zero.mp (by omega)
    rw [this, tcAux_nil, tcAux_nil]
  | succ k ih =>
    intro s f g hk hf hg
    cases s with
    | nil => rw [tcAux_nil, tcAux_nil]
    | cons c cs =>
      simp only [List.length_cons] at hk hf hg
      cases f with
      | zero => omega
      | succ f0 =>
        cases g with
        | zero => omega
        | succ g0 =>
          simp only [tcAux]
          cases htr : tryTC c cs with
          | none =>
            exact congrArg (List.cons c)
              (ih cs f0 g0 (by omega) (by omega) (by omega))
          | some rn =>
            obtain ⟨rep, n⟩ := rn
            refine congrArg (fun t => rep ++ t) (ih (cs.drop n) f0 g0 ?_ ?_ ?_)
            all_goals simp only [List.length_drop]; omega

/-- The key-quoting scanner copies a segment at whose positions no
match starts. -/
theorem qkAux_clean (t : List Char) : ∀ (p : List Char) (f : Nat),
    (∀ a c b, p = a ++ c :: b → tryQK c (b ++ t) = none) →
    p.length + t.length ≤ f →
    qkAux f (p ++ t) = p ++ qkAux t.length t := by
  intro p
  induction p with
  | nil =>
    intro f _ hf
    simpa using qkAux_congr f t f t.length (by simpa using hf)
      (by simpa using hf) (le_refl _)
  | cons c cs ih =>
    intro f h hf
    simp only [List.length_cons] at hf
    cases f with
    | zero => omega
    | succ f0 =>
      have h0 : tryQK c (cs ++ t) = none := h [] c cs rfl
      rw [List.cons_append]
      simp only [qkAux, h0]
      rw [ih f0 (fun a c2 b hab => h (c :: a) c2 b (by rw [hab]; rfl))
        (by omega)]
      rfl

/-- The trailing-comma scanner copies a segment at whose positions no
match starts. -/
theorem tcAux_clean (t : List Char) : ∀ (p : List Char) (f : Nat),
    (∀ a c b, p = a ++ c :: b → tryTC c (b ++ t) = none) →
    p.length + t.length ≤ f →
    tcAux f (p ++ t) = p ++ tcAux t.length t := by
  intro p
  induction p with
  | nil =>
    intro f _ hf
    simpa using tcAux_congr f t f t.length (by simpa using hf)
      (by simpa using hf) (le_refl _)
  | cons c cs ih =>
    intro f h hf
    simp only [List.length_cons] at hf
    cases f with
    | zero => omega
    | succ f0 =>
      have h0 : tryTC c (cs ++ t) = none := h [] c cs rfl
      rw [List.cons_append]
      simp only [tcAux, h0]
      rw [ih f0 (fun a c2 b hab => h (c :: a) c2 b (by rw [hab]; rfl))
        (by omega)]
      rfl

/-- A digit is an identifier character. -/
theorem dig_word (c : Char) (h : isDig c = true) : isWordChar c = true := by
  simp [isWordChar, h]

/-- Clean string contents contain no repair-trigger character. -/
theorem cleanStr_chars (s : List Char) (h : cleanStr s = true) :
    ∀ c ∈ s, c ≠ '{' ∧ c ≠ ',' := by
  intro c hc
  have := List.all_eq_true.mp h c hc
  simpa using this

/-- A canonical number renders using only digits, sign, dot and
exponent characters, none of which triggers a repair. -/
theorem renderNumber_chars (n : JsonNumber) (hn : wfNumber n = true) :
    ∀ c ∈ renderNumber n, c ≠ '{' ∧ c ≠ ',' := by
  simp only [wfNumber, Bool.and_eq_true] at hn
  have hint : ∀ d ∈ n.intDigits, isDig d = true :=
    fun d hd => List.all_eq_true.mp hn.1.1.1.2 d hd
  have hfrac : ∀ d ∈ n.fracDigits, isDig d = true :=
    fun d hd => List.all_eq_true.mp hn.1.2 d hd
  have hdig : ∀ d, isDig d = true → d ≠ '{' ∧ d ≠ ',' := by
    intro d hd
    have hw := word_facts d (dig_word d hd)
    exact ⟨hw.2.2.2.2.2.1, hw.2.2.2.2.1⟩
  intro c hc
  simp only [renderNumber, List.mem_append] at hc
  rcases hc with ((hc | hc) | hc) | hc
  · by_cases hne : n.neg = true
    · rw [if_pos hne] at hc
      rcases List.mem_cons.mp hc with hc | hc
      · rw [hc]; exact ⟨by decide, by decide⟩
      · exact absurd hc (List.not_mem_nil c)
    · rw [if_neg hne] at hc
      exact absurd hc (List.not_mem_nil c)
  · exact hdig c (hint c hc)
  · by_cases hfe : n.fracDigits = []
    · rw [if_pos hfe] at hc
      exact absurd hc (List.not_mem_nil c)
    · rw [if_neg hfe] at hc
      rcases List.mem_cons.mp hc with hc | hc
      · rw [hc]; exact ⟨by decide, by decide⟩
      · exact hdig c (hfrac c hc)
  · by_cases hee : n.hasExp = true
    · rw [if_pos hee] at hc
      rcases List.mem_cons.mp hc with hc | hc
      · rw [hc]; exact ⟨by decide, by decide⟩
      · rcases List.mem_append.mp hc with hc | hc
        · by_cases hen : n.expNeg = true
          · rw [if_pos hen] at hc
            rcases List.mem_cons.mp hc with hc | hc
            · rw [hc]; exact ⟨by decide, by decide⟩
            · exact absurd hc (List.not_mem_nil c)
          · rw [if_neg hen] at hc
            exact absurd hc (List.not_mem_nil c)
        · have hexp : isDig c = true := by
            have h2 := hn.2
            rw [if_pos hee] at h2
            simp only [Bool.and_eq_true] at h2
            exact List.all_eq_true.mp h2.2 c hc
          exact hdig c hexp
    · rw [if_neg hee] at hc
      exact absurd hc (List.not_mem_nil c)

/-- The head character of a defective render: nonempty, never
whitespace and never a closing delimiter. -/
theorem renderD_head (d : JsonD) (hd : wfDJ d = true) :
    ∃ c cs, renderD d = c :: cs ∧ isJsWs c = false ∧ jsonWs c = false ∧
      c ≠ ']' ∧ c ≠ '}' := by
  cases d with
  | null => exact ⟨'n', _, rfl, by decide, by decide, by decide, by decide⟩
  | bool b =>
    cases b
    · exact ⟨'f', _, rfl, by decide, by decide, by decide, by decide⟩
    · exact ⟨'t', _, rfl, by decide, by decide, by decide, by decide⟩
  | str s => exact ⟨'"', _, rfl, by decide, by decide, by decide, by decide⟩
  | num n =>
    have hn : wfNumber n = true := by simpa [wfDJ] using hd
    obtain ⟨c, cs, hcs, hcls⟩ := renderNumber_head n hn
    refine ⟨c, cs, by simp [renderD, hcs], ?_, ?_, ?_, ?_⟩
    · rcases hcls with hdg | rfl
      · exact (word_facts c (dig_word c hdg)).1
      · decide
    · rcases hcls with hdg | rfl
      · exact (word_facts c (dig_word c hdg)).2.1
      · decide
    · rcases hcls with hdg | rfl
      · exact (word_facts c (dig_word c hdg)).2.2.2.2.2.2.2.1
      · decide
    · rcases hcls with hdg | rfl
      · exact (word_facts c (dig_word c hdg)).2.2.2.2.2.2.1
      · decide
  | arr xs trail =>
    exact ⟨'[', _, rfl, by decide, by decide, by decide, by decide⟩
  | obj fs trail =>
    exact ⟨'{', _, rfl, by decide, by decide, by decide, by decide⟩

/-- No key-quoting match starts when the text after the trigger begins
with a character that is neither an identifier character nor
whitespace. -/
theorem tryQK_nohead (c h0 : Char) (rest : List Char)
    (hw : isWordChar h0 = false) (hws : isJsWs h0 = false) :
    tryQK c (h0 :: rest) = none := by
  unfold tryQK
  by_cases htr : (c = '{' || c = ',') = true
  · rw [if_pos htr]
    dsimp only
    rw [List.dropWhile_cons_of_neg (by simp [hws]),
        List.takeWhile_cons_of_neg (by simp [hw])]
    rw [if_pos rfl]
  · rw [if_neg htr]

/-- No key-quoting match starts when the identifier run after the
trigger is stopped by a character other than a colon. -/
theorem tryQK_word_stop (c : Char) (L : List Char) (m0 : Char)
    (ms : List Char) (hL : ∀ d ∈ L, isWordChar d = true)
    (hmw : isWordChar m0 = false) (hmws : isJsWs m0 = false)
    (hm : m0 ≠ ':') :
    tryQK c (L ++ m0 :: ms) = none := by
  cases L with
  | nil =>
    rw [List.nil_append]
    exact tryQK_nohead c m0 ms hmw hmws
  | cons l0 ls =>
    unfold tryQK
    by_cases htr : (c = '{' || c = ',') = true
    · rw [if_pos htr]
      dsimp only
      have hall : ∀ d ∈ l0 :: ls, isWordChar d = true := hL
      have h1 : List.dropWhile isJsWs ((l0 :: ls) ++ m0 :: ms) =
          (l0 :: ls) ++ m0 :: ms := by
        rw [List.cons_append]
        exact List.dropWhile_cons_of_neg
          (by simp [(word_facts l0 (hall l0 (by simp))).1])
      have h2 : List.takeWhile isWordChar ((l0 :: ls) ++ m0 :: ms) =
          l0 :: ls := by
        rw [(takedrop_append_all isWordChar (l0 :: ls) (m0 :: ms) hall).1,
          List.takeWhile_cons_of_neg (by simp [hmw])]
        simp
      have h3 : List.dropWhile isWordChar ((l0 :: ls) ++ m0 :: ms) =
          m0 :: ms := by
        rw [(takedrop_append_all isWordChar (l0 :: ls) (m0 :: ms) hall).2,
          List.dropWhile_cons_of_neg (by simp [hmw])]
      rw [h1, h2, if_neg (by simp), h3,
        List.dropWhile_cons_of_neg (by simp [hmws])]
      split
      · next a heq =>
        injection heq with h4 _
        exact absurd h4 hm
      · rfl
    · rw [if_neg htr]

/-- The key-quoting regex at a bare identifier key: the match fires and
rewrites the key to its quoted form, consuming the key and the colon. -/
theorem tryQK_unq (c : Char) (k rest : List Char) (hk : k ≠ [])
    (hkw : ∀ d ∈ k, isWordChar d = true)
    (htr : (c = '{' || c = ',') = true) :
    tryQK c (k ++ ':' :: rest) =
      some (c :: '"' :: (k ++ '"' :: [':']), k.length + 1) := by
  obtain ⟨k0, ks, rfl⟩ : ∃ k0 ks, k = k0 :: ks := by
    cases k with
    | nil => exact absurd rfl hk
    | cons a b => exact ⟨a, b, rfl⟩
  unfold tryQK
  rw [if_pos htr]
  dsimp only
  have h1 : List.takeWhile isJsWs ((k0 :: ks) ++ ':' :: rest) = [] := by
    rw [List.cons_append]
    exact List.takeWhile_cons_of_neg
      (by simp [(word_facts k0 (hkw k0 (by simp))).1])
  have h2 : List.dropWhile isJsWs ((k0 :: ks) ++ ':' :: rest) =
      (k0 :: ks) ++ ':' :: rest := by
    rw [List.cons_append]
    exact List.dropWhile_cons_of_neg
      (by simp [(word_facts k0 (hkw k0 (by simp))).1])
  have h3 : List.takeWhile isWordChar ((k0 :: ks) ++ ':' :: rest) =
      k0 :: ks := by
    rw [(takedrop_append_all isWordChar (k0 :: ks) (':' :: rest) hkw).1,
      List.takeWhile_cons_of_neg (by decide)]
    simp
  have h4 : List.dropWhile isWordChar ((k0 :: ks) ++ ':' :: rest) =
      ':' :: rest := by
    rw [(takedrop_append_all isWordChar (k0 :: ks) (':' :: rest) hkw).2,
      List.dropWhile_cons_of_neg (by decide)]
  rw [h1, h2, h3, if_neg (by simp), h4,
    List.takeWhile_cons_of_neg (by decide),
    List.dropWhile_cons_of_neg (by decide)]
  simp

/-- No trailing-comma match starts when the character after the comma
is neither whitespace nor a closing delimiter. -/
theorem tryTC_nostop (c h0 : Char) (rest : List Char)
    (hws : isJsWs h0 = false) (h1 : h0 ≠ '}') (h2 : h0 ≠ ']') :
    tryTC c (h0 :: rest) = none := by
  unfold tryTC
  by_cases htr : c = ','
  · rw [if_pos htr]
    dsimp only
    rw [List.dropWhile_cons_of_neg (by simp [hws])]
    dsimp only
    rw [if_neg (by simp [h1, h2])]
  · rw [if_neg htr]

/-- The trailing-comma regex right before a closing delimiter: the
match fires and drops the comma. -/
theorem tryTC_close (b : Char) (rest : List Char)
    (hws : isJsWs b = false) (hb : (b = '}' || b = ']') = true) :
    tryTC ',' (b :: rest) = some ([b], 1) := by
  unfold tryTC
  rw [if_pos (by simp)]
  dsimp only
  rw [List.takeWhile_cons_of_neg (by simp [hws]),
    List.dropWhile_cons_of_neg (by simp [hws])]
  dsimp only
  rw [if_pos hb]
  simp

/-- No key-quoting match starts at a comma (or brace) directly followed
by a rendered value and then a structural delimiter: the identifier run
is always stopped by a non-colon character. -/
theorem tryQK_value (c : Char) (x : JsonD) (hx : wfDJ x = true)
    (Y : List Char)
    (hY : Y.head? = some ',' ∨ Y.head? = some ']' ∨ Y.head? = some '}') :
    tryQK c (renderD x ++ Y) = none := by
  obtain ⟨y0, ys, rfl, hy0w, hy0ws, hy0c⟩ :
      ∃ y0 ys, Y = y0 :: ys ∧ isWordChar y0 = false ∧ isJsWs y0 = false ∧
        y0 ≠ ':' := by
    rcases hY with hY | hY | hY <;>
      (cases Y with
       | nil => simp at hY
       | cons a as =>
         injection hY with h2
         exact ⟨a, as, rfl, by rw [h2]; decide, by rw [h2]; decide,
           by rw [h2]; decide⟩)
  cases x with
  | null =>
    exact tryQK_word_stop c ('n' :: 'u' :: 'l' :: 'l' :: []) y0 ys
      (by decide) hy0w hy0ws hy0c
  | bool b =>
    cases b
    · exact tryQK_word_stop c ('f' :: 'a' :: 'l' :: 's' :: 'e' :: []) y0 ys
        (by decide) hy0w hy0ws hy0c
    · exact tryQK_word_stop c ('t' :: 'r' :: 'u' :: 'e' :: []) y0 ys
        (by decide) hy0w hy0ws hy0c
  | str s =>
    rw [show renderD (.str s) ++ y0 :: ys =
      '"' :: ((s ++ ['"']) ++ y0 :: ys) from by simp [renderD]]
    exact tryQK_nohead c '"' _ (by decide) (by decide)
  | arr xs trail =>
    rw [show renderD (.arr xs trail) ++ y0 :: ys =
      '[' :: ((renderItemsD xs ++
        (if trail then ',' :: [']'] else [']'])) ++ y0 :: ys) from by
      simp [renderD]]
    exact tryQK_nohead c '[' _ (by decide) (by decide)
  | obj fs trail =>
    rw [show renderD (.obj fs trail) ++ y0 :: ys =
      '{' :: ((renderFieldsD fs ++
        (if trail then ',' :: ['}'] else ['}'])) ++ y0 :: ys) from by
      simp [renderD]]
    exact tryQK_nohead c '{' _ (by decide) (by decide)
  | num n =>
    have hn : wfNumber n = true := by simpa [wfDJ] using hx
    have hint : ∀ d ∈ n.intDigits, isWordChar d = true := by
      simp only [wfNumber, Bool.and_eq_true] at hn
      exact fun d hd => dig_word d (List.all_eq_true.mp hn.1.1.1.2 d hd)
    rw [show renderD (.num n) = renderNumber n from rfl]
    by_cases hneg : n.neg = true
    · rw [show renderNumber n ++ y0 :: ys =
        '-' :: ((n.intDigits ++
          (if n.fracDigits = [] then [] else '.' :: n.fracDigits) ++
          (if n.hasExp then
            'e' :: ((if n.expNeg then ['-'] else []) ++ n.expDigits)
           else [])) ++ y0 :: ys) from by
        simp [renderNumber, hneg, List.append_assoc]]
      exact tryQK_nohead c '-' _ (by decide) (by decide)
    · by_cases hfr : n.fracDigits = []
      · by_cases hexp : n.hasExp = true
        · have hed : ∀ d ∈ n.expDigits, isWordChar d = true := by
            simp only [wfNumber, Bool.and_eq_true] at hn
            have h2 := hn.2
            rw [if_pos hexp] at h2
            simp only [Bool.and_eq_true] at h2
            exact fun d hd =>
              dig_word d (List.all_eq_true.mp h2.2 d hd)
          by_cases hen : n.expNeg = true
          · rw [show renderNumber n ++ y0 :: ys =
              (n.intDigits ++ ['e']) ++ '-' :: (n.expDigits ++ y0 :: ys)
              from by
              simp [renderNumber, hneg, hfr, hexp, hen, List.append_assoc]]
            refine tryQK_word_stop c _ '-' _ ?_ (by decide) (by decide)
              (by decide)
            intro d hd
            rcases List.mem_append.mp hd with hd | hd
            · exact hint d hd
            · simp only [List.mem_singleton] at hd
              rw [hd]; decide
          · rw [show renderNumber n ++ y0 :: ys =
              (n.intDigits ++ 'e' :: n.expDigits) ++ y0 :: ys from by
              simp [renderNumber, hneg, hfr, hexp, hen, List.append_assoc]]
            refine tryQK_word_stop c _ y0 ys ?_ hy0w hy0ws hy0c
            intro d hd
            rcases List.mem_append.mp hd with hd | hd
            · exact hint d hd
            · rcases List.mem_cons.mp hd with hd | hd
              · rw [hd]; decide
              · exact hed d hd
        · rw [show renderNumber n ++ y0 :: ys =
            n.intDigits ++ y0 :: ys from by
            simp [renderNumber, hneg, hfr, hexp]]
          exact tryQK_word_stop c _ y0 ys hint hy0w hy0ws hy0c
      · rw [show renderNumber n ++ y0 :: ys =
          n.intDigits ++ '.' :: ((n.fracDigits ++
            (if n.hasExp then
              'e' :: ((if n.expNeg then ['-'] else []) ++ n.expDigits)
             else [])) ++ y0 :: ys) from by
          simp [renderNumber, hneg, hfr, List.append_assoc]]
        exact tryQK_word_stop c _ '.' _ hint (by decide) (by decide)
          (by decide)

/-- No trailing-comma match starts at a comma followed by a rendered
value (the value render never begins with a closing delimiter). -/
theorem tryTC_value (c : Char) (x : JsonD) (hx : wfDJ x = true)
    (Y : List Char) : tryTC c (renderD x ++ Y) = none := by
  obtain ⟨h0, hs, heq, hws, _, hrb, hcb⟩ := renderD_head x hx
  rw [show renderD x ++ Y = h0 :: (hs ++ Y) from by rw [heq]; rfl]
  exact tryTC_nostop c h0 _ hws hcb hrb

/-- Positional no-match condition from character-level inertness (for
the key-quoting scan). -/
theorem qk_seg_cond (p t : List Char) (h : ∀ c ∈ p, c ≠ '{' ∧ c ≠ ',') :
    ∀ a c b, p = a ++ c :: b → tryQK c (b ++ t) = none := by
  intro a c b hab
  have hc : c ∈ p := by rw [hab]; simp
  exact tryQK_not_trigger c _ (h c hc).1 (h c hc).2

/-- Positional no-match condition from character-level inertness (for
the trailing-comma scan). -/
theorem tc_seg_cond (p t : List Char) (h : ∀ c ∈ p, c ≠ ',') :
    ∀ a c b, p = a ++ c :: b → tryTC c (b ++ t) = none := by
  intro a c b hab
  have hc : c ∈ p := by rw [hab]; simp
  exact tryTC_not_trigger c _ (h c hc)

/-- Positional no-match condition for a segment whose first character
is discharged explicitly and whose tail is character-level inert. -/
theorem qk_seg_cond_cons (c0 : Char) (p0 t : List Char)
    (h0 : tryQK c0 (p0 ++ t) = none)
    (hp : ∀ c ∈ p0, c ≠ '{' ∧ c ≠ ',') :
    ∀ a c b, (c0 :: p0) = a ++ c :: b → tryQK c (b ++ t) = none := by
  intro a c b hab
  cases a with
  | nil =>
    injection hab with h1 h2
    subst h2
    rw [← h1]
    exact h0
  | cons a0 as =>
    injection hab with h1 h2
    have hc : c ∈ p0 := by rw [h2]; simp
    exact tryQK_not_trigger c _ (hp c hc).1 (hp c hc).2

/-- Positional no-match condition for the trailing-comma scan with an
explicit head discharge. -/
theorem tc_seg_cond_cons (c0 : Char) (p0 t : List Char)
    (h0 : tryTC c0 (p0 ++ t) = none)
    (hp : ∀ c ∈ p0, c ≠ ',') :
    ∀ a c b, (c0 :: p0) = a ++ c :: b → tryTC c (b ++ t) = none := by
  intro a c b hab
  cases a with
  | nil =>
    injection hab with h1 h2
    subst h2
    rw [← h1]
    exact h0
  | cons a0 as =>
    injection hab with h1 h2
    have hc : c ∈ p0 := by rw [h2]; simp
    exact tryTC_not_trigger c _ (hp c hc)

/-- Character-level inertness of a rendered string literal. -/
theorem strseg_chars (s : List Char) (hs : cleanStr s = true) :
    ∀ c ∈ '"' :: (s ++ ['"']), c ≠ '{' ∧ c ≠ ',' := by
  intro c hc
  rcases List.mem_cons.mp hc with h | h
  · rw [h]; exact ⟨by decide, by decide⟩
  · rcases List.mem_append.mp h with h | h
    · exact cleanStr_chars s hs c h
    · simp only [List.mem_singleton] at h
      rw [h]; exact ⟨by decide, by decide⟩

/-- One copying step of the key-quoting scan. -/
theorem qkAux_step_clean (c0 : Char) (rest : List Char) (f : Nat)
    (h0 : tryQK c0 rest = none) (hf : 1 + rest.length ≤ f) :
    qkAux f (c0 :: rest) = c0 :: qkAux rest.length rest := by
  cases f with
  | zero => omega
  | succ f0 =>
    simp only [qkAux, h0]
    exact congrArg (List.cons c0)
      (qkAux_congr f0 rest f0 rest.length (by omega) (by omega) (le_refl _))

/-- One copying step of the trailing-comma scan. -/
theorem tcAux_step_clean (c0 : Char) (rest : List Char) (f : Nat)
    (h0 : tryTC c0 rest = none) (hf : 1 + rest.length ≤ f) :
    tcAux f (c0 :: rest) = c0 :: tcAux rest.length rest := by
  cases f with
  | zero => omega
  | succ f0 =>
    simp only [tcAux, h0]
    exact congrArg (List.cons c0)
      (tcAux_congr f0 rest f0 rest.length (by omega) (by omega) (le_refl _))

mutual
/-- The first repair pass on a rendered defective value quotes every
bare key and changes nothing else. -/
theorem qk_render : ∀ (d : JsonD), wfDJ d = true →
    ∀ (t : List Char) (f : Nat), (renderD d).length + t.length ≤ f →
    qkAux f (renderD d ++ t) = renderD (clearUnqD d) ++ qkAux t.length t
  | .null, _, t, f, hf =>
    qkAux_clean t _ f (qk_seg_cond _ t (by decide)) hf
  | .bool true, _, t, f, hf =>
    qkAux_clean t _ f (qk_seg_cond _ t (by decide)) hf
  | .bool false, _, t, f, hf =>
    qkAux_clean t _ f (qk_seg_cond _ t (by decide)) hf
  | .num n, hd, t, f, hf =>
    qkAux_clean t _ f
      (qk_seg_cond _ t (renderNumber_chars n (by simpa [wfDJ] using hd))) hf
  | .str s, hd, t, f, hf => by
    have hcl : cleanStr s = true := by
      simp only [wfDJ, Bool.and_eq_true] at hd
      exact hd.2
    exact qkAux_clean t _ f (qk_seg_cond _ t (strseg_chars s hcl)) hf
  | .arr xs trail, hd, t, f, hf => by
    simp only [wfDJ, Bool.and_eq_true] at hd
    cases xs with
    | nil =>
      have htr : trail = false := by
        have h1 := hd.1
        simpa using h1
      subst htr
      exact qkAux_clean t _ f (qk_seg_cond _ t (by decide)) hf
    | cons x xs2 =>
      cases trail with
      | false =>
        rw [show renderD (.arr (x :: xs2) false) ++ t =
          '[' :: (renderItemsD (x :: xs2) ++ (']' :: t)) from by
          simp [renderD, List.append_assoc]]
        rw [qkAux_step_clean '[' _ f
          (tryQK_not_trigger '[' _ (by decide) (by decide))
          (by have hlen2 : (renderD (.arr (x :: xs2) false)).length =
                (renderItemsD (x :: xs2)).length + 2 := by
                simp [renderD]
              rw [hlen2] at hf
              simp only [List.length_append, List.length_cons]
              omega)]
        rw [qk_renderItems (x :: xs2) hd.2 (by simp) (']' :: t) _
          (Or.inr (by simp)) (le_of_eq (by simp))]
        rw [qkAux_step_clean ']' t _
          (tryQK_not_trigger ']' _ (by decide) (by decide))
          (by simp only [List.length_cons]; omega)]
        simp [renderD, clearUnqD, List.append_assoc]
      | true =>
        rw [show renderD (.arr (x :: xs2) true) ++ t =
          '[' :: (renderItemsD (x :: xs2) ++ (',' :: ']' :: t)) from by
          simp [renderD, List.append_assoc]]
        rw [qkAux_step_clean '[' _ f
          (tryQK_not_trigger '[' _ (by decide) (by decide))
          (by have hlen2 : (renderD (.arr (x :: xs2) true)).length =
                (renderItemsD (x :: xs2)).length + 3 := by
                simp [renderD]
              rw [hlen2] at hf
              simp only [List.length_append, List.length_cons]
              omega)]
        rw [qk_renderItems (x :: xs2) hd.2 (by simp) (',' :: ']' :: t) _
          (Or.inl (by simp)) (le_of_eq (by simp))]
        rw [qkAux_step_clean ',' (']' :: t) _
          (tryQK_nohead ',' ']' t (by decide) (by decide))
          (by simp only [List.length_cons]; omega)]
        rw [qkAux_step_clean ']' t _
          (tryQK_not_trigger ']' _ (by decide) (by decide))
          (by simp only [List.length_cons]; omega)]
        simp [renderD, clearUnqD, List.append_assoc]
  | .obj fs trail, hd, t, f, hf => by
    simp only [wfDJ, Bool.and_eq_true] at hd
    cases fs with
    | nil =>
      have htr : trail = false := by
        have h1 := hd.1
        simpa using h1
      subst htr
      refine qkAux_clean t _ f
        (qk_seg_cond_cons '{' ['}'] t
          (tryQK_nohead '{' '}' t (by decide) (by decide)) (by decide)) hf
    | cons g gs =>
      cases trail with
      | false =>
        rw [show renderD (.obj (g :: gs) false) ++ t =
          '{' :: (renderFieldsD (g :: gs) ++ ('}' :: t)) from by
          simp [renderD, List.append_assoc]]
        rw [qk_renderFields (g :: gs) hd.2 (by simp) '{' ('}' :: t) f
          (by decide) (Or.inr (by simp))
          (by have hlen2 : (renderD (.obj (g :: gs) false)).length =
                (renderFieldsD (g :: gs)).length + 2 := by
                simp [renderD]
              rw [hlen2] at hf
              simp only [List.length_cons]
              omega)]
        rw [qkAux_step_clean '}' t _
          (tryQK_not_trigger '}' _ (by decide) (by decide))
          (by simp only [List.length_cons]; omega)]
        simp [renderD, clearUnqD, List.append_assoc]
      | true =>
        rw [show renderD (.obj (g :: gs) true) ++ t =
          '{' :: (renderFieldsD (g :: gs) ++ (',' :: '}' :: t)) from by
          simp [renderD, List.append_assoc]]
        rw [qk_renderFields (g :: gs) hd.2 (by simp) '{' (',' :: '}' :: t) f
          (by decide) (Or.inl (by simp))
          (by have hlen2 : (renderD (.obj (g :: gs) true)).length =
                (renderFieldsD (g :: gs)).length + 3 := by
                simp [renderD]
              rw [hlen2] at hf
              simp only [List.length_cons]
              omega)]
        rw [qkAux_step_clean ',' ('}' :: t) _
          (tryQK_nohead ',' '}' t (by decide) (by decide))
          (by simp only [List.length_cons]; omega)]
        rw [qkAux_step_clean '}' t _
          (tryQK_not_trigger '}' _ (by decide) (by decide))
          (by simp only [List.length_cons]; omega)]
        simp [renderD, clearUnqD, List.append_assoc]

/-- The first repair pass on a rendered defective item list. -/
theorem qk_renderItems : ∀ (xs : List JsonD), wfItemsD xs = true →
    xs ≠ [] → ∀ (t : List Char) (f : Nat),
    (t.head? = some ',' ∨ t.head? = some ']') →
    (renderItemsD xs).length + t.length ≤ f →
    qkAux f (renderItemsD xs ++ t) =
      renderItemsD (clearUnqItemsD xs) ++ qkAux t.length t
  | [], _, hne, _, _, _, _ => absurd rfl hne
  | [x], hw, _, t, f, _, hf => by
    have hwx : wfDJ x = true := by
      simp only [wfItemsD, Bool.and_eq_true] at hw
      exact hw.1
    exact qk_render x hwx t f hf
  | x :: y :: ys, hw, _, t, f, ht, hf => by
    simp only [wfItemsD, Bool.and_eq_true] at hw
    have hwx : wfDJ x = true := hw.1
    have hwy : wfDJ y = true := hw.2.1
    rw [show renderItemsD (x :: y :: ys) ++ t =
      renderD x ++ (',' :: (renderItemsD (y :: ys) ++ t)) from by
      simp [renderItemsD, List.append_assoc]]
    rw [qk_render x hwx (',' :: (renderItemsD (y :: ys) ++ t)) f
      (by simp only [renderItemsD, List.length_append, List.length_cons] at hf ⊢
          omega)]
    have hnone : tryQK ',' (renderItemsD (y :: ys) ++ t) = none := by
      cases ys with
      | nil =>
        rw [show renderItemsD [y] ++ t = renderD y ++ t from by
          simp [renderItemsD]]
        refine tryQK_value ',' y hwy t ?_
        rcases ht with ht | ht
        · exact Or.inl ht
        · exact Or.inr (Or.inl ht)
      | cons z zs =>
        rw [show renderItemsD (y :: z :: zs) ++ t =
          renderD y ++ (',' :: (renderItemsD (z :: zs) ++ t)) from by
          simp [renderItemsD, List.append_assoc]]
        exact tryQK_value ',' y hwy _ (Or.inl (by simp))
    rw [qkAux_step_clean ',' (renderItemsD (y :: ys) ++ t) _ hnone
      (by simp only [List.length_cons]; omega)]
    rw [qk_renderItems (y :: ys) (by simp [wfItemsD, hw.2.1, hw.2.2]) (by simp)
      t _ ht (le_of_eq (by simp))]
    simp [renderItemsD, clearUnqItemsD, List.append_assoc]

/-- The first repair pass on a trigger character followed by a rendered
defective field list: each bare key is rewritten to its quoted form. -/
theorem qk_renderFields : ∀ (fs : List (Bool × List Char × JsonD)),
    wfFieldsD fs = true → fs ≠ [] → ∀ (trig : Char) (t : List Char) (f : Nat),
    (trig = '{' || trig = ',') = true →
    (t.head? = some ',' ∨ t.head? = some '}') →
    1 + (renderFieldsD fs).length + t.length ≤ f →
    qkAux f (trig :: (renderFieldsD fs ++ t)) =
      trig :: (renderFieldsD (clearUnqFieldsD fs) ++ qkAux t.length t)
  | [], _, hne, _, _, _, _, _, _ => absurd rfl hne
  | (unq, k, v) :: fs', hw, _, trig, t, f, htrig, ht, hf => by
    simp only [wfFieldsD, Bool.and_eq_true] at hw
    have hv : wfDJ v = true := hw.1.2
    have hfs' : wfFieldsD fs' = true := hw.2
    cases unq with
    | true =>
      have hk : k ≠ [] := by
        have h1 := hw.1.1
        rw [if_pos rfl] at h1
        simp only [Bool.and_eq_true] at h1
        intro he
        rw [he] at h1
        exact absurd h1.1 (by decide)
      have hkw : ∀ d ∈ k, isWordChar d = true := by
        have h1 := hw.1.1
        rw [if_pos rfl] at h1
        simp only [Bool.and_eq_true] at h1
        exact fun d hd => List.all_eq_true.mp h1.2 d hd
      cases fs' with
      | nil =>
        rw [show trig :: (renderFieldsD [(true, k, v)] ++ t) =
          trig :: (k ++ ':' :: (renderD v ++ t)) from by
          simp [renderFieldsD, renderKeyD, List.append_assoc]]
        have hdrop : (k ++ ':' :: (renderD v ++ t)).drop (k.length + 1) =
            renderD v ++ t := by
          rw [show k ++ ':' :: (renderD v ++ t) =
            (k ++ [':']) ++ (renderD v ++ t) from by
            simp [List.append_assoc]]
          rw [show k.length + 1 = (k ++ [':']).length from by simp]
          exact List.drop_left _ _
        cases f with
        | zero =>
          exfalso
          simp only [renderFieldsD, renderKeyD, if_pos trivial,
            List.length_append, List.length_cons] at hf
          omega
        | succ f0 =>
          simp only [qkAux, tryQK_unq trig k (renderD v ++ t) hk hkw htrig,
            hdrop]
          rw [qk_render v hv t f0
            (by simp only [renderFieldsD, renderKeyD, if_pos trivial,
                  List.length_append, List.length_cons] at hf
                omega)]
          simp [renderFieldsD, clearUnqFieldsD, renderKeyD,
            List.append_assoc]
      | cons g gs =>
        rw [show trig :: (renderFieldsD ((true, k, v) :: g :: gs) ++ t) =
          trig :: (k ++ ':' :: (renderD v ++
            (',' :: (renderFieldsD (g :: gs) ++ t)))) from by
          simp [renderFieldsD, renderKeyD, List.append_assoc]]
        have hdrop : (k ++ ':' :: (renderD v ++
            (',' :: (renderFieldsD (g :: gs) ++ t)))).drop (k.length + 1) =
            renderD v ++ (',' :: (renderFieldsD (g :: gs) ++ t)) := by
          rw [show k ++ ':' :: (renderD v ++
            (',' :: (renderFieldsD (g :: gs) ++ t))) =
            (k ++ [':']) ++ (renderD v ++
              (',' :: (renderFieldsD (g :: gs) ++ t))) from by
            simp [List.append_assoc]]
          rw [show k.length + 1 = (k ++ [':']).length from by simp]
          exact List.drop_left _ _
        cases f with
        | zero =>
          exfalso
          simp only [renderFieldsD, renderKeyD, if_pos trivial,
            List.length_append, List.length_cons] at hf
          omega
        | succ f0 =>
          simp only [qkAux, tryQK_unq trig k _ hk hkw htrig, hdrop]
          rw [qk_render v hv (',' :: (renderFieldsD (g :: gs) ++ t)) f0
            (by simp only [renderFieldsD, renderKeyD, if_pos trivial,
                  List.length_append, List.length_cons] at hf ⊢
                omega)]
          rw [show (',' :: (renderFieldsD (g :: gs) ++ t)).length =
            1 + (renderFieldsD (g :: gs)).length + t.length from by
            simp only [List.length_cons, List.length_append]
            omega]
          rw [qk_renderFields (g :: gs) hfs' (by simp) ',' t _
            (by decide) ht (le_refl _)]
          simp [renderFieldsD, clearUnqFieldsD, renderKeyD,
            List.append_assoc]
    | false =>
      have hkcl : cleanStr k = true := by
        have h1 := hw.1.1
        rw [if_neg (by simp)] at h1
        simp only [Bool.and_eq_true] at h1
        exact h1.2
      have hcond : ∀ a c b,
          (trig :: ('"' :: (k ++ '"' :: [':']))) = a ++ c :: b →
          ∀ t2, tryQK c (b ++ t2) = none := by
        intro a c b hab t2
        refine qk_seg_cond_cons trig ('"' :: (k ++ '"' :: [':'])) t2 ?_ ?_
          a c b hab
        · rw [List.cons_append]
          exact tryQK_nohead trig '"' _ (by decide) (by decide)
        · intro c2 hc2
          rcases List.mem_cons.mp hc2 with h | h
          · rw [h]; exact ⟨by decide, by decide⟩
          · rcases List.mem_append.mp h with h | h
            · exact cleanStr_chars k hkcl c2 h
            · rcases List.mem_cons.mp h with h | h
              · rw [h]; exact ⟨by decide, by decide⟩
              · simp only [List.mem_singleton] at h
                rw [h]; exact ⟨by decide, by decide⟩
      cases fs' with
      | nil =>
        rw [show trig :: (renderFieldsD [(false, k, v)] ++ t) =
          (trig :: ('"' :: (k ++ '"' :: [':']))) ++ (renderD v ++ t) from by
          simp [renderFieldsD, renderKeyD, List.append_assoc]]
        rw [qkAux_clean (renderD v ++ t) _ f (fun a c b hab => hcond a c b hab _)
          (by simp [renderFieldsD, renderKeyD, List.length_append,
                List.length_cons] at hf ⊢
              omega)]
        rw [show (renderD v ++ t).length = (renderD v).length + t.length from
          by simp]
        rw [qk_render v hv t _ (le_refl _)]
        simp [renderFieldsD, clearUnqFieldsD, renderKeyD, List.append_assoc]
      | cons g gs =>
        rw [show trig :: (renderFieldsD ((false, k, v) :: g :: gs) ++ t) =
          (trig :: ('"' :: (k ++ '"' :: [':']))) ++
            (renderD v ++ (',' :: (renderFieldsD (g :: gs) ++ t))) from by
          simp [renderFieldsD, renderKeyD, List.append_assoc]]
        rw [qkAux_clean _ _ f (fun a c b hab => hcond a c b hab _)
          (by simp [renderFieldsD, renderKeyD, List.length_append,
                List.length_cons] at hf ⊢
              omega)]
        rw [show (renderD v ++ (',' :: (renderFieldsD (g :: gs) ++ t))).length =
          (renderD v).length + (',' :: (renderFieldsD (g :: gs) ++ t)).length
          from by simp]
        rw [qk_render v hv (',' :: (renderFieldsD (g :: gs) ++ t)) _
          (le_refl _)]
        rw [show (',' :: (renderFieldsD (g :: gs) ++ t)).length =
          1 + (renderFieldsD (g :: gs)).length + t.length from by
          simp only [List.length_cons, List.length_append]
          omega]
        rw [qk_renderFields (g :: gs) hfs' (by simp) ',' t _
          (by decide) ht (le_refl _)]
        simp [renderFieldsD, clearUnqFieldsD, renderKeyD, List.append_assoc]
end

/-- One comma-removal step of the trailing-comma scan. -/
theorem tcAux_drop_step (cl : Char) (t : List Char) (f : Nat)
    (hcl : (cl = '}' || cl = ']') = true) (hws : isJsWs cl = false)
    (hf : 2 + t.length ≤ f) :
    tcAux f (',' :: cl :: t) = cl :: tcAux t.length t := by
  cases f with
  | zero => omega
  | succ f0 =>
    simp only [tcAux, tryTC_close cl t hws hcl]
    simp only [List.drop_succ_cons, List.drop_zero]
    rw [tcAux_congr f0 t f0 t.length (by omega) (by omega) (le_refl _)]
    rfl

mutual
/-- The second repair pass on a rendered defective value with no bare
keys: every trailing comma is removed, producing the canonical render
of the erased value. -/
theorem tc_render : ∀ (d : JsonD), wfDJ d = true → noUnqD d = true →
    ∀ (t : List Char) (f : Nat), (renderD d).length + t.length ≤ f →
    tcAux f (renderD d ++ t) = render (eraseD d) ++ tcAux t.length t
  | .null, _, _, t, f, hf =>
    tcAux_clean t _ f (tc_seg_cond _ t (by decide)) hf
  | .bool true, _, _, t, f, hf =>
    tcAux_clean t _ f (tc_seg_cond _ t (by decide)) hf
  | .bool false, _, _, t, f, hf =>
    tcAux_clean t _ f (tc_seg_cond _ t (by decide)) hf
  | .num n, hd, _, t, f, hf =>
    tcAux_clean t _ f
      (tc_seg_cond _ t
        (fun c hc => (renderNumber_chars n (by simpa [wfDJ] using hd) c hc).2))
      hf
  | .str s, hd, _, t, f, hf => by
    have hcl : cleanStr s = true := by
      simp only [wfDJ, Bool.and_eq_true] at hd
      exact hd.2
    exact tcAux_clean t _ f
      (tc_seg_cond _ t (fun c hc => (strseg_chars s hcl c hc).2)) hf
  | .arr xs trail, hd, hnu, t, f, hf => by
    simp only [wfDJ, Bool.and_eq_true] at hd
    have hnu2 : noUnqItemsD xs = true := by simpa [noUnqD] using hnu
    cases xs with
    | nil =>
      have htr : trail = false := by
        have h1 := hd.1
        simpa using h1
      subst htr
      exact tcAux_clean t _ f (tc_seg_cond _ t (by decide)) hf
    | cons x xs2 =>
      cases trail with
      | false =>
        rw [show renderD (.arr (x :: xs2) false) ++ t =
          '[' :: (renderItemsD (x :: xs2) ++ (']' :: t)) from by
          simp [renderD, List.append_assoc]]
        rw [tcAux_step_clean '[' _ f (tryTC_not_trigger '[' _ (by decide))
          (by have hlen2 : (renderD (.arr (x :: xs2) false)).length =
                (renderItemsD (x :: xs2)).length + 2 := by
                simp [renderD]
              rw [hlen2] at hf
              simp only [List.length_append, List.length_cons]
              omega)]
        rw [tc_renderItems (x :: xs2) hd.2 hnu2 (by simp) (']' :: t) _
          (le_of_eq (by simp))]
        rw [tcAux_step_clean ']' t _ (tryTC_not_trigger ']' _ (by decide))
          (by simp only [List.length_cons]; omega)]
        simp [render, eraseD, List.append_assoc]
      | true =>
        rw [show renderD (.arr (x :: xs2) true) ++ t =
          '[' :: (renderItemsD (x :: xs2) ++ (',' :: ']' :: t)) from by
          simp [renderD, List.append_assoc]]
        rw [tcAux_step_clean '[' _ f (tryTC_not_trigger '[' _ (by decide))
          (by have hlen2 : (renderD (.arr (x :: xs2) true)).length =
                (renderItemsD (x :: xs2)).length + 3 := by
                simp [renderD]
              rw [hlen2] at hf
              simp only [List.length_append, List.length_cons]
              omega)]
        rw [tc_renderItems (x :: xs2) hd.2 hnu2 (by simp) (',' :: ']' :: t) _
          (le_of_eq (by simp))]
        rw [tcAux_drop_step ']' t _ (by decide) (by decide)
          (by simp only [List.length_cons]; omega)]
        simp [render, eraseD, List.append_assoc]
  | .obj fs trail, hd, hnu, t, f, hf => by
    simp only [wfDJ, Bool.and_eq_true] at hd
    have hnu2 : noUnqFieldsD fs = true := by simpa [noUnqD] using hnu
    cases fs with
    | nil =>
      have htr : trail = false := by
        have h1 := hd.1
        simpa using h1
      subst htr
      exact tcAux_clean t _ f (tc_seg_cond _ t (by decide)) hf
    | cons g gs =>
      cases trail with
      | false =>
        rw [show renderD (.obj (g :: gs) false) ++ t =
          '{' :: (renderFieldsD (g :: gs) ++ ('}' :: t)) from by
          simp [renderD, List.append_assoc]]
        rw [tcAux_step_clean '{' _ f (tryTC_not_trigger '{' _ (by decide))
          (by have hlen2 : (renderD (.obj (g :: gs) false)).length =
                (renderFieldsD (g :: gs)).length + 2 := by
                simp [renderD]
              rw [hlen2] at hf
              simp only [List.length_append, List.length_cons]
              omega)]
        rw [tc_renderFields (g :: gs) hd.2 hnu2 (by simp) ('}' :: t) _
          (le_of_eq (by simp))]
        rw [tcAux_step_clean '}' t _ (tryTC_not_trigger '}' _ (by decide))
          (by simp only [List.length_cons]; omega)]
        simp [render, eraseD, List.append_assoc]
      | true =>
        rw [show renderD (.obj (g :: gs) true) ++ t =
          '{' :: (renderFieldsD (g :: gs) ++ (',' :: '}' :: t)) from by
          simp [renderD, List.append_assoc]]
        rw [tcAux_step_clean '{' _ f (tryTC_not_trigger '{' _ (by decide))
          (by have hlen2 : (renderD (.obj (g :: gs) true)).length =
                (renderFieldsD (g :: gs)).length + 3 := by
                simp [renderD]
              rw [hlen2] at hf
              simp only [List.length_append, List.length_cons]
              omega)]
        rw [tc_renderFields (g :: gs) hd.2 hnu2 (by simp) (',' :: '}' :: t) _
          (le_of_eq (by simp))]
        rw [tcAux_drop_step '}' t _ (by decide) (by decide)
          (by simp only [List.length_cons]; omega)]
        simp [render, eraseD, List.append_assoc]

/-- The second repair pass on a rendered defective item list with no
bare keys. -/
theorem tc_renderItems : ∀ (xs : List JsonD), wfItemsD xs = true →
    noUnqItemsD xs = true → xs ≠ [] → ∀ (t : List Char) (f : Nat),
    (renderItemsD xs).length + t.length ≤ f →
    tcAux f (renderItemsD xs ++ t) =
      renderItems (eraseItemsD xs) ++ tcAux t.length t
  | [], _, _, hne, _, _, _ => absurd rfl hne
  | [x], hw, hnu, _, t, f, hf => by
    have hwx : wfDJ x = true := by
      simp only [wfItemsD, Bool.and_eq_true] at hw
      exact hw.1
    have hnux : noUnqD x = true := by
      simp only [noUnqItemsD, Bool.and_eq_true] at hnu
      exact hnu.1
    exact tc_render x hwx hnux t f hf
  | x :: y :: ys, hw, hnu, _, t, f, hf => by
    simp only [wfItemsD, Bool.and_eq_true] at hw
    simp only [noUnqItemsD, Bool.and_eq_true] at hnu
    rw [show renderItemsD (x :: y :: ys) ++ t =
      renderD x ++ (',' :: (renderItemsD (y :: ys) ++ t)) from by
      simp [renderItemsD, List.append_assoc]]
    rw [tc_render x hw.1 hnu.1 (',' :: (renderItemsD (y :: ys) ++ t)) f
      (by simp only [renderItemsD, List.length_append, List.length_cons] at hf ⊢
          omega)]
    have hnone : tryTC ',' (renderItemsD (y :: ys) ++ t) = none := by
      cases ys with
      | nil =>
        rw [show renderItemsD [y] ++ t = renderD y ++ t from by
          simp [renderItemsD]]
        exact tryTC_value ',' y hw.2.1 t
      | cons z zs =>
        rw [show renderItemsD (y :: z :: zs) ++ t =
          renderD y ++ (',' :: (renderItemsD (z :: zs) ++ t)) from by
          simp [renderItemsD, List.append_assoc]]
        exact tryTC_value ',' y hw.2.1 _
    rw [tcAux_step_clean ',' (renderItemsD (y :: ys) ++ t) _ hnone
      (by simp only [List.length_cons]; omega)]
    rw [tc_renderItems (y :: ys) (by simp [wfItemsD, hw.2.1, hw.2.2])
      (by simp [noUnqItemsD, hnu.2.1, hnu.2.2]) (by simp) t _
      (le_of_eq (by simp))]
    simp [renderItems, eraseItemsD, List.append_assoc]

/-- The second repair pass on a rendered defective field list with no
bare keys. -/
theorem tc_renderFields : ∀ (fs : List (Bool × List Char × JsonD)),
    wfFieldsD fs = true → noUnqFieldsD fs = true → fs ≠ [] →
    ∀ (t : List Char) (f : Nat),
    (renderFieldsD fs).length + t.length ≤ f →
    tcAux f (renderFieldsD fs ++ t) =
      renderFields (eraseFieldsD fs) ++ tcAux t.length t
  | [], _, _, hne, _, _, _ => absurd rfl hne
  | (unq, k, v) :: fs', hw, hnu, _, t, f, hf => by
    simp only [noUnqFieldsD, Bool.and_eq_true] at hnu
    have hunq : unq = false := by
      have h1 := hnu.1.1
      simp at h1
      exact h1
    subst hunq
    simp only [wfFieldsD, Bool.and_eq_true] at hw
    have hkcl : cleanStr k = true := by
      have h1 := hw.1.1
      rw [if_neg (by simp)] at h1
      simp only [Bool.and_eq_true] at h1
      exact h1.2
    have hchars : ∀ c ∈ '"' :: (k ++ '"' :: [':']), c ≠ ',' := by
      intro c hc
      rcases List.mem_cons.mp hc with h | h
      · rw [h]; decide
      · rcases List.mem_append.mp h with h | h
        · exact (cleanStr_chars k hkcl c h).2
        · rcases List.mem_cons.mp h with h | h
          · rw [h]; decide
          · simp only [List.mem_singleton] at h
            rw [h]; decide
    cases fs' with
    | nil =>
      rw [show renderFieldsD [(false, k, v)] ++ t =
        ('"' :: (k ++ '"' :: [':'])) ++ (renderD v ++ t) from by
        simp [renderFieldsD, renderKeyD, List.append_assoc]]
      rw [tcAux_clean (renderD v ++ t) _ f (tc_seg_cond _ _ hchars)
        (by simp [renderFieldsD, renderKeyD, List.length_append,
              List.length_cons] at hf ⊢
            omega)]
      rw [show (renderD v ++ t).length = (renderD v).length + t.length from
        by simp]
      rw [tc_render v hw.1.2 hnu.1.2 t _ (le_refl _)]
      simp [renderFields, eraseFieldsD, renderString, List.append_assoc]
    | cons g gs =>
      rw [show renderFieldsD ((false, k, v) :: g :: gs) ++ t =
        ('"' :: (k ++ '"' :: [':'])) ++
          (renderD v ++ (',' :: (renderFieldsD (g :: gs) ++ t))) from by
        simp [renderFieldsD, renderKeyD, List.append_assoc]]
      rw [tcAux_clean _ _ f (tc_seg_cond _ _ hchars)
        (by simp [renderFieldsD, renderKeyD, List.length_append,
              List.length_cons] at hf ⊢
            omega)]
      rw [show (renderD v ++ (',' :: (renderFieldsD (g :: gs) ++ t))).length =
        (renderD v).length + (',' :: (renderFieldsD (g :: gs) ++ t)).length
        from by simp]
      rw [tc_render v hw.1.2 hnu.1.2 (',' :: (renderFieldsD (g :: gs) ++ t)) _
        (le_refl _)]
      have hnone : tryTC ',' (renderFieldsD (g :: gs) ++ t) = none := by
        obtain ⟨u2, k2, v2⟩ := g
        have hu2 : u2 = false := by
          have h1 := hnu.2
          simp only [noUnqFieldsD, Bool.and_eq_true] at h1
          have h2 := h1.1.1
          simp at h2
          exact h2
        subst hu2
        cases gs with
        | nil =>
          rw [show renderFieldsD [(false, k2, v2)] ++ t =
            '"' :: ((k2 ++ '"' :: ':' :: renderD v2) ++ t) from by
            simp [renderFieldsD, renderKeyD, List.append_assoc]]
          exact tryTC_nostop ',' '"' _ (by decide) (by decide) (by decide)
        | cons g2 gs2 =>
          rw [show renderFieldsD ((false, k2, v2) :: g2 :: gs2) ++ t =
            '"' :: ((k2 ++ '"' :: ':' ::
              (renderD v2 ++ ',' :: renderFieldsD (g2 :: gs2))) ++ t) from by
            simp [renderFieldsD, renderKeyD, List.append_assoc]]
          exact tryTC_nostop ',' '"' _ (by decide) (by decide) (by decide)
      rw [tcAux_step_clean ',' (renderFieldsD (g :: gs) ++ t) _ hnone
        (by simp only [List.length_cons]; omega)]
      rw [tc_renderFields (g :: gs) hw.2 hnu.2 (by simp) t _
        (le_of_eq (by simp))]
      simp [renderFields, eraseFieldsD, renderString, List.append_assoc]
end

/-- A nonempty identifier run is both a renderable JSON string content
and repair-inert. -/
theorem word_wfString (k : List Char) (hk : ∀ d ∈ k, isWordChar d = true) :
    wfString k = true ∧ cleanStr k = true := by
  constructor
  · rw [wfString, List.all_eq_true]
    intro c hc
    have hw := word_facts c (hk c hc)
    have hv := word_val c (hk c hc)
    have h1 : c ≠ '\\' := by
      intro he
      rw [he] at hv
      exact absurd hv (by decide)
    have h2 : (c.val < 0x20) = False := by
      simp only [eq_iff_iff, iff_false]
      intro hlt
      have h3 : c.val.toNat < 32 := hlt
      omega
    simp [hw.2.2.1, h1, h2]
  · rw [cleanStr, List.all_eq_true]
    intro c hc
    have hw := word_facts c (hk c hc)
    simp [hw.2.2.2.2.2.1, hw.2.2.2.2.1]

mutual
/-- Clearing the bare-key flags leaves no bare key. -/
theorem noUnq_clearUnq : ∀ d : JsonD, noUnqD (clearUnqD d) = true
  | .null => rfl
  | .bool _ => rfl
  | .num _ => rfl
  | .str _ => rfl
  | .arr xs _ => by
    simp only [clearUnqD, noUnqD]
    exact noUnq_clearUnqItems xs
  | .obj fs _ => by
    simp only [clearUnqD, noUnqD]
    exact noUnq_clearUnqFields fs

/-- Item-list version of `noUnq_clearUnq`. -/
theorem noUnq_clearUnqItems : ∀ xs : List JsonD,
    noUnqItemsD (clearUnqItemsD xs) = true
  | [] => rfl
  | x :: xs => by
    simp only [clearUnqItemsD, noUnqItemsD, Bool.and_eq_true]
    exact ⟨noUnq_clearUnq x, noUnq_clearUnqItems xs⟩

/-- Field-list version of `noUnq_clearUnq`. -/
theorem noUnq_clearUnqFields : ∀ fs : List (Bool × List Char × JsonD),
    noUnqFieldsD (clearUnqFieldsD fs) = true
  | [] => rfl
  | (_, k, v) :: fs => by
    simp only [clearUnqFieldsD, noUnqFieldsD, Bool.and_eq_true]
    exact ⟨⟨rfl, noUnq_clearUnq v⟩, noUnq_clearUnqFields fs⟩
end

mutual
/-- Clearing the bare-key flags preserves well-formedness (a bare key
is an identifier run, hence a valid clean string content). -/
theorem wfDJ_clearUnq : ∀ d : JsonD, wfDJ d = true →
    wfDJ (clearUnqD d) = true
  | .null, _ => rfl
  | .bool _, _ => rfl
  | .num _, h => h
  | .str _, h => h
  | .arr xs trail, h => by
    simp only [wfDJ, Bool.and_eq_true] at h
    simp only [clearUnqD, wfDJ, Bool.and_eq_true]
    refine ⟨?_, wfItemsD_clearUnq xs h.2⟩
    have : (clearUnqItemsD xs).isEmpty = xs.isEmpty := by
      cases xs <;> rfl
    rw [this]
    exact h.1
  | .obj fs trail, h => by
    simp only [wfDJ, Bool.and_eq_true] at h
    simp only [clearUnqD, wfDJ, Bool.and_eq_true]
    refine ⟨?_, wfFieldsD_clearUnq fs h.2⟩
    have : (clearUnqFieldsD fs).isEmpty = fs.isEmpty := by
      cases fs with
      | nil => rfl
      | cons g gs => obtain ⟨u, k, v⟩ := g; rfl
    rw [this]
    exact h.1

/-- Item-list version of `wfDJ_clearUnq`. -/
theorem wfItemsD_clearUnq : ∀ xs : List JsonD, wfItemsD xs = true →
    wfItemsD (clearUnqItemsD xs) = true
  | [], _ => rfl
  | x :: xs, h => by
    simp only [wfItemsD, Bool.and_eq_true, clearUnqItemsD] at h ⊢
    exact ⟨wfDJ_clearUnq x h.1, wfItemsD_clearUnq xs h.2⟩

/-- Field-list version of `wfDJ_clearUnq`. -/
theorem wfFieldsD_clearUnq : ∀ fs : List (Bool × List Char × JsonD),
    wfFieldsD fs = true → wfFieldsD (clearUnqFieldsD fs) = true
  | [], _ => rfl
  | (unq, k, v) :: fs, h => by
    simp only [wfFieldsD, Bool.and_eq_true, clearUnqFieldsD] at h ⊢
    refine ⟨⟨?_, wfDJ_clearUnq v h.1.2⟩, wfFieldsD_clearUnq fs h.2⟩
    cases unq with
    | false =>
      have h1 := h.1.1
      rw [if_neg (by simp)] at h1
      rw [if_neg (by simp)]
      exact h1
    | true =>
      have h1 := h.1.1
      rw [if_pos rfl] at h1
      simp only [Bool.and_eq_true] at h1
      have hkw : ∀ d ∈ k, isWordChar d = true :=
        fun d hd => List.all_eq_true.mp h1.2 d hd
      rw [if_neg (by simp)]
      simp only [Bool.and_eq_true]
      exact word_wfString k hkw
end

mutual
/-- Clearing the bare-key flags does not change the erased value. -/
theorem eraseD_clearUnq : ∀ d : JsonD, eraseD (clearUnqD d) = eraseD d
  | .null => rfl
  | .bool _ => rfl
  | .num _ => rfl
  | .str _ => rfl
  | .arr xs _ => by
    simp only [clearUnqD, eraseD]
    rw [eraseItemsD_clearUnq xs]
  | .obj fs _ => by
    simp only [clearUnqD, eraseD]
    rw [eraseFieldsD_clearUnq fs]

/-- Item-list version of `eraseD_clearUnq`. -/
theorem eraseItemsD_clearUnq : ∀ xs : List JsonD,
    eraseItemsD (clearUnqItemsD xs) = eraseItemsD xs
  | [] => rfl
  | x :: xs => by
    simp only [clearUnqItemsD, eraseItemsD]
    rw [eraseD_clearUnq x, eraseItemsD_clearUnq xs]

/-- Field-list version of `eraseD_clearUnq`. -/
theorem eraseFieldsD_clearUnq : ∀ fs : List (Bool × List Char × JsonD),
    eraseFieldsD (clearUnqFieldsD fs) = eraseFieldsD fs
  | [] => rfl
  | (_, k, v) :: fs => by
    simp only [clearUnqFieldsD, eraseFieldsD]
    rw [eraseD_clearUnq v, eraseFieldsD_clearUnq fs]
end

mutual
/-- A defect-free value renders exactly as its erased canonical form. -/
theorem renderD_no_defect : ∀ d : JsonD, hasDefectD d = false →
    renderD d = render (eraseD d)
  | .null, _ => rfl
  | .bool true, _ => rfl
  | .bool false, _ => rfl
  | .num _, _ => rfl
  | .str _, _ => rfl
  | .arr xs trail, h => by
    simp only [hasDefectD, Bool.or_eq_false_iff] at h
    rw [h.1]
    simp only [renderD, eraseD, render]
    rw [renderItemsD_no_defect xs h.2]
    simp
  | .obj fs trail, h => by
    simp only [hasDefectD, Bool.or_eq_false_iff] at h
    rw [h.1]
    simp only [renderD, eraseD, render]
    rw [renderFieldsD_no_defect fs h.2]
    simp

/-- Item-list version of `renderD_no_defect`. -/
theorem renderItemsD_no_defect : ∀ xs : List JsonD,
    hasDefectItemsD xs = false →
    renderItemsD xs = renderItems (eraseItemsD xs)
  | [], _ => rfl
  | [x], h => by
    simp only [hasDefectItemsD, Bool.or_eq_false_iff] at h
    simp only [renderItemsD, eraseItemsD, renderItems]
    exact renderD_no_defect x h.1
  | x :: y :: ys, h => by
    simp only [hasDefectItemsD, Bool.or_eq_false_iff] at h
    simp only [renderItemsD, eraseItemsD, renderItems]
    rw [renderD_no_defect x h.1]
    have h2 : renderItemsD (y :: ys) = renderItems (eraseItemsD (y :: ys)) :=
      renderItemsD_no_defect (y :: ys)
        (by simp only [hasDefectItemsD, Bool.or_eq_false_iff]
            exact h.2)
    rw [h2]
    rfl

/-- Field-list version of `renderD_no_defect`. -/
theorem renderFieldsD_no_defect : ∀ fs : List (Bool × List Char × JsonD),
    hasDefectFieldsD fs = false →
    renderFieldsD fs = renderFields (eraseFieldsD fs)
  | [], _ => rfl
  | [(unq, k, v)], h => by
    simp only [hasDefectFieldsD, Bool.or_eq_false_iff] at h
    simp only [renderFieldsD, eraseFieldsD, renderFields, renderKeyD]
    rw [if_neg (by simp [h.1.1])]
    rw [renderD_no_defect v h.1.2]
    simp [renderString]
  | (unq, k, v) :: g :: gs, h => by
    simp only [hasDefectFieldsD, Bool.or_eq_false_iff] at h
    simp only [renderFieldsD, eraseFieldsD, renderKeyD]
    rw [if_neg (by simp [h.1.1])]
    rw [renderD_no_defect v h.1.2]
    have h2 : renderFieldsD (g :: gs) =
        renderFields (eraseFieldsD (g :: gs)) :=
      renderFieldsD_no_defect (g :: gs)
        (by simp only [hasDefectFieldsD, Bool.or_eq_false_iff]
            exact h.2)
    rw [h2]
    obtain ⟨u2, k2, v2⟩ := g
    simp [renderFields, renderString, eraseFieldsD]

end

mutual
/-- A well-formed defective value erases to a well-formed canonical
value. -/
theorem wfDJ_wfJson : ∀ d : JsonD, wfDJ d = true →
    wfJson (eraseD d) = true
  | .null, _ => rfl
  | .bool _, _ => rfl
  | .num _, h => h
  | .str _, h => by
    simp only [wfDJ, Bool.and_eq_true] at h
    simpa [eraseD, wfJson] using h.1
  | .arr xs _, h => by
    simp only [wfDJ, Bool.and_eq_true] at h
    simp only [eraseD, wfJson]
    exact wfItemsD_wfList xs h.2
  | .obj fs _, h => by
    simp only [wfDJ, Bool.and_eq_true] at h
    simp only [eraseD, wfJson]
    exact wfFieldsD_wfFields fs h.2

/-- Item-list version of `wfDJ_wfJson`. -/
theorem wfItemsD_wfList : ∀ xs : List JsonD, wfItemsD xs = true →
    wfList (eraseItemsD xs) = true
  | [], _ => rfl
  | x :: xs, h => by
    simp only [wfItemsD, Bool.and_eq_true] at h
    simp only [eraseItemsD, wfList, Bool.and_eq_true]
    exact ⟨wfDJ_wfJson x h.1, wfItemsD_wfList xs h.2⟩

/-- Field-list version of `wfDJ_wfJson`. -/
theorem wfFieldsD_wfFields : ∀ fs : List (Bool × List Char × JsonD),
    wfFieldsD fs = true → wfFields (eraseFieldsD fs) = true
  | [], _ => rfl
  | (unq, k, v) :: fs, h => by
    simp only [wfFieldsD, Bool.and_eq_true] at h
    simp only [eraseFieldsD, wfFields, Bool.and_eq_true]
    refine ⟨⟨?_, wfDJ_wfJson v h.1.2⟩, wfFieldsD_wfFields fs h.2⟩
    cases unq with
    | false =>
      have h1 := h.1.1
      rw [if_neg (by simp)] at h1
      simp only [Bool.and_eq_true] at h1
      exact h1.1
    | true =>
      have h1 := h.1.1
      rw [if_pos rfl] at h1
      simp only [Bool.and_eq_true] at h1
      exact (word_wfString k (fun d hd => List.all_eq_true.mp h1.2 d hd)).1
end

/-- The combined textual repairs turn the defective render into the
canonical render of the erased value. -/
theorem repair_correct (d : JsonD) (hd : wfDJ d = true) :
    stripTrailingCommas (quoteKeys (renderD d)) = render (eraseD d) := by
  have h1 : quoteKeys (renderD d) = renderD (clearUnqD d) := by
    unfold quoteKeys
    have h2 := qk_render d hd [] ((renderD d).length + 1) (by simp)
    rw [List.append_nil, qkAux_nil, List.append_nil] at h2
    exact h2
  have h3 := tc_render (clearUnqD d) (wfDJ_clearUnq d hd) (noUnq_clearUnq d)
    [] ((renderD (clearUnqD d)).length + 1) (by simp)
  rw [List.append_nil, tcAux_nil, List.append_nil, eraseD_clearUnq d] at h3
  rw [h1]
  unfold stripTrailingCommas
  exact h3

/-- The number parser rejects text that starts with neither a digit nor
a minus sign. -/
theorem parseNumber_nondigit (c : Char) (r : List Char)
    (hd : isDig c = false) (hm : c ≠ '-') :
    parseNumber (c :: r) = none := by
  unfold parseNumber
  rw [if_neg (head_cons_ne c '-' r hm)]
  unfold parseNumberCore parseIntPart
  rw [if_neg (head_cons_ne c '0' r (fun he => by
    rw [he] at hd
    exact absurd hd (by decide)))]
  dsimp only [splitDigits]
  rw [List.takeWhile_cons_of_neg (by simp [hd])]
  rw [if_pos rfl]

/-- The value parser rejects text that starts with a structural
delimiter. -/
theorem parseValue_delim (c : Char) (hws : jsonWs c = false)
    (h1 : c ≠ '{') (h2 : c ≠ '[') (h3 : c ≠ '"') (h4 : c ≠ 't')
    (h5 : c ≠ 'f') (h6 : c ≠ 'n') (h7 : isDig c = false) (h8 : c ≠ '-') :
    ∀ (f : Nat) (r : List Char), parseValue f (c :: r) = none := by
  intro f r
  cases f with
  | zero => rfl
  | succ f0 =>
    unfold parseValue
    rw [skipWs_cons_neg c _ hws]
    dsimp only
    rw [if_neg h1, if_neg h2, if_neg h3]
    rw [startsWith_head_ne 't' _ c _ (fun he => h4 he.symm)]
    rw [startsWith_head_ne 'f' _ c _ (fun he => h5 he.symm)]
    rw [startsWith_head_ne 'n' _ c _ (fun he => h6 he.symm)]
    simp only [Bool.false_eq_true, if_false]
    rw [parseNumber_nondigit c r h7 h8]
    rfl

/-- The item parser rejects text that starts with the closing
bracket. -/
theorem parseItems_rbrack : ∀ (f : Nat) (r : List Char),
    parseItems f (']' :: r) = none := by
  intro f r
  cases f with
  | zero => rfl
  | succ f0 =>
    unfold parseItems
    rw [parseValue_delim ']' (by decide) (by decide) (by decide) (by decide)
      (by decide) (by decide) (by decide) (by decide) (by decide) f0 r]

/-- The member parser rejects text that does not start with a quote. -/
theorem parseMembers_noquote (c : Char) (hc : c ≠ '"') :
    ∀ (f : Nat) (r : List Char), parseMembers f (c :: r) = none := by
  intro f r
  cases f with
  | zero => rfl
  | succ f0 =>
    unfold parseMembers
    rw [if_neg (head_cons_ne c '"' r hc)]

/-- The head character of a nonempty defective item-list render. -/
theorem renderItemsD_head (xs : List JsonD) (hne : xs ≠ [])
    (hw : wfItemsD xs = true) :
    ∃ c cs, renderItemsD xs = c :: cs ∧ jsonWs c = false ∧ c ≠ ']' := by
  cases xs with
  | nil => exact absurd rfl hne
  | cons x xs2 =>
    have hwx : wfDJ x = true := by
      simp only [wfItemsD, Bool.and_eq_true] at hw
      exact hw.1
    obtain ⟨c, cs0, hx, _, hjw, hrb, _⟩ := renderD_head x hwx
    cases xs2 with
    | nil => exact ⟨c, cs0, by simp [renderItemsD, hx], hjw, hrb⟩
    | cons y ys =>
      exact ⟨c, cs0 ++ ',' :: renderItemsD (y :: ys),
        by simp [renderItemsD, hx], hjw, hrb⟩

/-- The head character of a nonempty defective field-list render. -/
theorem renderFieldsD_head (fs : List (Bool × List Char × JsonD))
    (hne : fs ≠ []) (hw : wfFieldsD fs = true) :
    ∃ c cs, renderFieldsD fs = c :: cs ∧ jsonWs c = false ∧ c ≠ '}' := by
  cases fs with
  | nil => exact absurd rfl hne
  | cons g gs =>
    obtain ⟨unq, k, v⟩ := g
    simp only [wfFieldsD, Bool.and_eq_true] at hw
    cases unq with
    | true =>
      have h1 := hw.1.1
      rw [if_pos rfl] at h1
      simp only [Bool.and_eq_true] at h1
      obtain ⟨k0, ks, rfl⟩ : ∃ k0 ks, k = k0 :: ks := by
        cases k with
        | nil => exact absurd h1.1 (by decide)
        | cons a b => exact ⟨a, b, rfl⟩
      have hk0 : isWordChar k0 = true :=
        List.all_eq_true.mp h1.2 k0 (by simp)
      have hwf := word_facts k0 hk0
      cases gs with
      | nil =>
        exact ⟨k0, ks ++ ':' :: renderD v,
          by simp [renderFieldsD, renderKeyD], hwf.2.1,
          hwf.2.2.2.2.2.2.1⟩
      | cons g2 gs2 =>
        exact ⟨k0, ks ++ ':' :: (renderD v ++ ',' :: renderFieldsD (g2 :: gs2)),
          by simp [renderFieldsD, renderKeyD, List.append_assoc], hwf.2.1,
          hwf.2.2.2.2.2.2.1⟩
    | false =>
      cases gs with
      | nil =>
        exact ⟨'"', k ++ '"' :: ':' :: renderD v,
          by simp [renderFieldsD, renderKeyD], by decide, by decide⟩
      | cons g2 gs2 =>
        exact ⟨'"',
          k ++ '"' :: ':' :: (renderD v ++ ',' :: renderFieldsD (g2 :: gs2)),
          by simp [renderFieldsD, renderKeyD, List.append_assoc], by decide,
          by decide⟩

/-- Reduction of the value parser on a bracket followed by a nonempty
non-`]` body: the empty-array shortcut does not fire. -/
theorem parseValue_lbrack_red (fuel : Nat) (body rest : List Char)
    (c : Char) (cs : List Char) (hb : body = c :: cs)
    (hjw : jsonWs c = false) (hrb : c ≠ ']') :
    parseValue (fuel + 1) ('[' :: (body ++ rest)) =
      (match parseItems fuel (body ++ rest) with
       | some (vs, r3) => some (.arr vs, r3)
       | none => none) := by
  have hstep : parseValue (fuel + 1) ('[' :: (body ++ rest)) =
      (if (skipWs (body ++ rest)).head? = some ']' then
         some (.arr [], (skipWs (body ++ rest)).tail)
       else match parseItems fuel (skipWs (body ++ rest)) with
            | some (vs, r3) => some (.arr vs, r3)
            | none => none) := rfl
  rw [hstep, show body ++ rest = c :: (cs ++ rest) from by simp [hb],
    skipWs_cons_neg c _ hjw, if_neg (head_cons_ne c ']' _ hrb),
    show c :: (cs ++ rest) = body ++ rest from by simp [hb]]

/-- Reduction of the value parser on a brace followed by a nonempty
non-`}` body: the empty-object shortcut does not fire. -/
theorem parseValue_lbrace_red (fuel : Nat) (body rest : List Char)
    (c : Char) (cs : List Char) (hb : body = c :: cs)
    (hjw : jsonWs c = false) (hrb : c ≠ '}') :
    parseValue (fuel + 1) ('{' :: (body ++ rest)) =
      (match parseMembers fuel (body ++ rest) with
       | some (fs, r3) => some (.obj fs, r3)
       | none => none) := by
  have hstep : parseValue (fuel + 1) ('{' :: (body ++ rest)) =
      (if (skipWs (body ++ rest)).head? = some '}' then
         some (.obj [], (skipWs (body ++ rest)).tail)
       else match parseMembers fuel (skipWs (body ++ rest)) with
            | some (fs, r3) => some (.obj fs, r3)
            | none => none) := rfl
  rw [hstep, show body ++ rest = c :: (cs ++ rest) from by simp [hb],
    skipWs_cons_neg c _ hjw, if_neg (head_cons_ne c '}' _ hrb),
    show c :: (cs ++ rest) = body ++ rest from by simp [hb]]

/-- Reduction of the member parser on a quoted key, its colon, and an
arbitrary continuation. -/
theorem parseMembers_field_red (fuel : Nat) (k : List Char)
    (hwk : wfString k = true) (X : List Char) :
    parseMembers (fuel + 1) ('"' :: (k ++ '"' :: (':' :: X))) =
      (match parseValue fuel X with
       | none => none
       | some (v, r3) =>
         if (skipWs r3).head? = some ',' then
           match parseMembers fuel (skipWs (skipWs r3).tail) with
           | some (fs, r5) => some ((k, v) :: fs, r5)
           | none => none
         else if (skipWs r3).head? = some '}' then
           some ([(k, v)], (skipWs r3).tail)
         else none) := by
  have hstep : parseMembers (fuel + 1) ('"' :: (k ++ '"' :: (':' :: X))) =
      (if ('"' :: (k ++ '"' :: (':' :: X))).head? = some '"' then
         match parseJString ('"' :: (k ++ '"' :: (':' :: X))).tail with
         | none => none
         | some (k2, r1) =>
           if (skipWs r1).head? = some ':' then
             match parseValue fuel (skipWs r1).tail with
             | none => none
             | some (v, r3) =>
               if (skipWs r3).head? = some ',' then
                 match parseMembers fuel (skipWs (skipWs r3).tail) with
                 | some (fs, r5) => some ((k2, v) :: fs, r5)
                 | none => none
               else if (skipWs r3).head? = some '}' then
                 some ([(k2, v)], (skipWs r3).tail)
               else none
           else none
       else none) := rfl
  rw [hstep, if_pos (by simp)]
  simp only [List.tail_cons]
  rw [parseJString_render k hwk (':' :: X)]
  dsimp only
  rw [skipWs_cons_neg ':' _ (by decide)]
  simp only [List.head?_cons]
  rw [if_pos trivial]
  simp only [List.tail_cons]

/-- Partial correctness of the fueled parser on defective renders, for
every fuel: a render carrying a materialised defect is always rejected,
and a defect-free render is either rejected (fuel too low) or parsed
exactly to its erased value. -/
theorem parse_renderD : ∀ fuel : Nat,
    (∀ (d : JsonD) (rest : List Char), wfDJ d = true → GoodRest rest →
      (hasDefectD d = true → parseValue fuel (renderD d ++ rest) = none) ∧
      (hasDefectD d = false →
        parseValue fuel (renderD d ++ rest) = none ∨
        parseValue fuel (renderD d ++ rest) = some (eraseD d, rest))) ∧
    (∀ (xs : List JsonD) (rest : List Char), wfItemsD xs = true → xs ≠ [] →
      parseItems fuel (renderItemsD xs ++ ',' :: ']' :: rest) = none ∧
      (hasDefectItemsD xs = true →
        parseItems fuel (renderItemsD xs ++ ']' :: rest) = none) ∧
      (hasDefectItemsD xs = false →
        parseItems fuel (renderItemsD xs ++ ']' :: rest) = none ∨
        parseItems fuel (renderItemsD xs ++ ']' :: rest) =
          some (eraseItemsD xs, rest))) ∧
    (∀ (fs : List (Bool × List Char × JsonD)) (rest : List Char),
      wfFieldsD fs = true → fs ≠ [] →
      parseMembers fuel (renderFieldsD fs ++ ',' :: '}' :: rest) = none ∧
      (hasDefectFieldsD fs = true →
        parseMembers fuel (renderFieldsD fs ++ '}' :: rest) = none) ∧
      (hasDefectFieldsD fs = false →
        parseMembers fuel (renderFieldsD fs ++ '}' :: rest) = none ∨
        parseMembers fuel (renderFieldsD fs ++ '}' :: rest) =
          some (eraseFieldsD fs, rest))) := by
  intro fuel
  induction fuel with
  | zero =>
    exact ⟨fun d rest _ _ => ⟨fun _ => rfl, fun _ => Or.inl rfl⟩,
      fun xs rest _ _ => ⟨rfl, fun _ => rfl, fun _ => Or.inl rfl⟩,
      fun fs rest _ _ => ⟨rfl, fun _ => rfl, fun _ => Or.inl rfl⟩⟩
  | succ fuel ih =>
    obtain ⟨ihP, ihQ, ihR⟩ := ih
    have goodComma : ∀ xs : List Char, GoodRest (',' :: xs) :=
      fun xs => goodRest_lit ',' xs
        ⟨by decide, by decide, by decide, by decide, by decide⟩
    have goodRB : ∀ xs : List Char, GoodRest (']' :: xs) :=
      fun xs => goodRest_lit ']' xs
        ⟨by decide, by decide, by decide, by decide, by decide⟩
    have goodCB : ∀ xs : List Char, GoodRest ('}' :: xs) :=
      fun xs => goodRest_lit '}' xs
        ⟨by decide, by decide, by decide, by decide, by decide⟩
    refine ⟨?_, ?_, ?_⟩
    · -- values
      intro d rest hwf hrest
      cases d with
      | null =>
        exact ⟨fun h => absurd h (by decide),
          fun _ => Or.inr ((parse_render (fuel + 1)).1 .null rest rfl
            (by simp only [fuelFor]; omega) hrest)⟩
      | bool b =>
        cases b
        · exact ⟨fun h => absurd h (by decide),
            fun _ => Or.inr ((parse_render (fuel + 1)).1 (.bool false) rest rfl
              (by simp only [fuelFor]; omega) hrest)⟩
        · exact ⟨fun h => absurd h (by decide),
            fun _ => Or.inr ((parse_render (fuel + 1)).1 (.bool true) rest rfl
              (by simp only [fuelFor]; omega) hrest)⟩
      | str s =>
        have hws : wfString s = true := by
          simp only [wfDJ, Bool.and_eq_true] at hwf
          exact hwf.1
        exact ⟨fun h => absurd h (by simp [hasDefectD]),
          fun _ => Or.inr ((parse_render (fuel + 1)).1 (.str s) rest
            (by simpa [wfJson] using hws) (by simp only [fuelFor]; omega)
            hrest)⟩
      | num n =>
        have hn : wfNumber n = true := by simpa [wfDJ] using hwf
        exact ⟨fun h => absurd h (by simp [hasDefectD]),
          fun _ => Or.inr ((parse_render (fuel + 1)).1 (.num n) rest
            (by simpa [wfJson] using hn) (by simp only [fuelFor]; omega)
            hrest)⟩
      | arr xs trail =>
        simp only [wfDJ, Bool.and_eq_true] at hwf
        cases xs with
        | nil =>
          have htr : trail = false := by simpa using hwf.1
          subst htr
          exact ⟨fun h => absurd h (by decide),
            fun _ => Or.inr ((parse_render (fuel + 1)).1 (.arr []) rest rfl
              (by simp only [fuelFor, fuelForItems]; omega) hrest)⟩
        | cons x xs2 =>
          obtain ⟨c, cs, hri, hjw, hrb⟩ :=
            renderItemsD_head (x :: xs2) (by simp) hwf.2
          cases trail with
          | true =>
            constructor
            · intro _
              rw [show renderD (.arr (x :: xs2) true) ++ rest =
                '[' :: ((renderItemsD (x :: xs2) ++ ',' :: [']']) ++ rest)
                from by simp [renderD, List.append_assoc]]
              rw [parseValue_lbrack_red fuel
                (renderItemsD (x :: xs2) ++ ',' :: [']']) rest c
                (cs ++ ',' :: [']']) (by simp [hri]) hjw hrb]
              rw [show (renderItemsD (x :: xs2) ++ ',' :: [']']) ++ rest =
                renderItemsD (x :: xs2) ++ ',' :: ']' :: rest from by
                simp [List.append_assoc]]
              rw [(ihQ (x :: xs2) rest hwf.2 (by simp)).1]
            · intro habs
              rw [show hasDefectD (.arr (x :: xs2) true) =
                (true || hasDefectItemsD (x :: xs2)) from rfl] at habs
              simp at habs
          | false =>
            have hdef : hasDefectD (.arr (x :: xs2) false) =
                hasDefectItemsD (x :: xs2) := by
              simp [hasDefectD]
            have hshape : renderD (.arr (x :: xs2) false) ++ rest =
                '[' :: ((renderItemsD (x :: xs2) ++ [']']) ++ rest) := by
              simp [renderD, List.append_assoc]
            have hred : parseValue (fuel + 1)
                ('[' :: ((renderItemsD (x :: xs2) ++ [']']) ++ rest)) =
                (match parseItems fuel
                    (renderItemsD (x :: xs2) ++ ']' :: rest) with
                 | some (vs, r3) => some (.arr vs, r3)
                 | none => none) := by
              rw [parseValue_lbrack_red fuel
                (renderItemsD (x :: xs2) ++ [']']) rest c (cs ++ [']'])
                (by simp [hri]) hjw hrb]
              rw [show (renderItemsD (x :: xs2) ++ [']']) ++ rest =
                renderItemsD (x :: xs2) ++ ']' :: rest from by
                simp [List.append_assoc]]
            constructor
            · intro hdd
              rw [hdef] at hdd
              rw [hshape, hred]
              rw [(ihQ (x :: xs2) rest hwf.2 (by simp)).2.1 hdd]
            · intro hdd
              rw [hdef] at hdd
              rcases (ihQ (x :: xs2) rest hwf.2 (by simp)).2.2 hdd with hq | hq
              · left
                rw [hshape, hred, hq]
              · right
                rw [hshape, hred, hq]
                rfl
      | obj fs trail =>
        simp only [wfDJ, Bool.and_eq_true] at hwf
        cases fs with
        | nil =>
          have htr : trail = false := by simpa using hwf.1
          subst htr
          exact ⟨fun h => absurd h (by decide),
            fun _ => Or.inr ((parse_render (fuel + 1)).1 (.obj []) rest rfl
              (by simp only [fuelFor, fuelForFields]; omega) hrest)⟩
        | cons g gs =>
          obtain ⟨c, cs, hri, hjw, hrb⟩ :=
            renderFieldsD_head (g :: gs) (by simp) hwf.2
          cases trail with
          | true =>
            constructor
            · intro _
              rw [show renderD (.obj (g :: gs) true) ++ rest =
                '{' :: ((renderFieldsD (g :: gs) ++ ',' :: ['}']) ++ rest)
                from by simp [renderD, List.append_assoc]]
              rw [parseValue_lbrace_red fuel
                (renderFieldsD (g :: gs) ++ ',' :: ['}']) rest c
                (cs ++ ',' :: ['}']) (by simp [hri]) hjw hrb]
              rw [show (renderFieldsD (g :: gs) ++ ',' :: ['}']) ++ rest =
                renderFieldsD (g :: gs) ++ ',' :: '}' :: rest from by
                simp [List.append_assoc]]
              rw [(ihR (g :: gs) rest hwf.2 (by simp)).1]
            · intro habs
              rw [show hasDefectD (.obj (g :: gs) true) =
                (true || hasDefectFieldsD (g :: gs)) from rfl] at habs
              simp at habs
          | false =>
            have hdef : hasDefectD (.obj (g :: gs) false) =
                hasDefectFieldsD (g :: gs) := by
              simp [hasDefectD]
            have hshape : renderD (.obj (g :: gs) false) ++ rest =
                '{' :: ((renderFieldsD (g :: gs) ++ ['}']) ++ rest) := by
              simp [renderD, List.append_assoc]
            have hred : parseValue (fuel + 1)
                ('{' :: ((renderFieldsD (g :: gs) ++ ['}']) ++ rest)) =
                (match parseMembers fuel
                    (renderFieldsD (g :: gs) ++ '}' :: rest) with
                 | some (fs2, r3) => some (.obj fs2, r3)
                 | none => none) := by
              rw [parseValue_lbrace_red fuel
                (renderFieldsD (g :: gs) ++ ['}']) rest c (cs ++ ['}'])
                (by simp [hri]) hjw hrb]
              rw [show (renderFieldsD (g :: gs) ++ ['}']) ++ rest =
                renderFieldsD (g :: gs) ++ '}' :: rest from by
                simp [List.append_assoc]]
            constructor
            · intro hdd
              rw [hdef] at hdd
              rw [hshape, hred]
              rw [(ihR (g :: gs) rest hwf.2 (by simp)).2.1 hdd]
            · intro hdd
              rw [hdef] at hdd
              rcases (ihR (g :: gs) rest hwf.2 (by simp)).2.2 hdd with hq | hq
              · left
                rw [hshape, hred, hq]
              · right
                rw [hshape, hred, hq]
                rfl
    · -- item lists
      intro xs rest hw hne
      cases xs with
      | nil => exact absurd rfl hne
      | cons x xs2 =>
        simp only [wfItemsD, Bool.and_eq_true] at hw
        refine ⟨?_, ?_, ?_⟩
        · -- trailing comma: always rejected
          cases xs2 with
          | nil =>
            rw [show renderItemsD [x] ++ ',' :: ']' :: rest =
              renderD x ++ ',' :: ']' :: rest from by simp [renderItemsD]]
            unfold parseItems
            have hPx := ihP x (',' :: ']' :: rest) hw.1 (goodComma _)
            cases hdd : hasDefectD x with
            | true => rw [hPx.1 hdd]
            | false =>
              rcases hPx.2 hdd with hv | hv
              · rw [hv]
              · rw [hv]
                dsimp only
                rw [skipWs_cons_neg ',' _ (by decide)]
                simp only [List.head?_cons]
                rw [if_pos trivial]
                simp only [List.tail_cons]
                rw [parseItems_rbrack fuel rest]
          | cons y ys =>
            rw [show renderItemsD (x :: y :: ys) ++ ',' :: ']' :: rest =
              renderD x ++
                (',' :: (renderItemsD (y :: ys) ++ ',' :: ']' :: rest)) from by
              simp [renderItemsD, List.append_assoc]]
            unfold parseItems
            have hPx := ihP x
              (',' :: (renderItemsD (y :: ys) ++ ',' :: ']' :: rest)) hw.1
              (goodComma _)
            cases hdd : hasDefectD x with
            | true => rw [hPx.1 hdd]
            | false =>
              rcases hPx.2 hdd with hv | hv
              · rw [hv]
              · rw [hv]
                dsimp only
                rw [skipWs_cons_neg ',' _ (by decide)]
                simp only [List.head?_cons]
                rw [if_pos trivial]
                simp only [List.tail_cons]
                rw [(ihQ (y :: ys) rest hw.2 (by simp)).1]
        · -- a defect inside: rejected
          intro hdd
          simp only [hasDefectItemsD, Bool.or_eq_true] at hdd
          cases xs2 with
          | nil =>
            rw [show renderItemsD [x] ++ ']' :: rest =
              renderD x ++ ']' :: rest from by simp [renderItemsD]]
            unfold parseItems
            have hPx := ihP x (']' :: rest) hw.1 (goodRB _)
            rcases hdd with hdd | hdd
            · rw [hPx.1 hdd]
            · exact absurd hdd (by decide)
          | cons y ys =>
            rw [show renderItemsD (x :: y :: ys) ++ ']' :: rest =
              renderD x ++ (',' :: (renderItemsD (y :: ys) ++ ']' :: rest))
              from by simp [renderItemsD, List.append_assoc]]
            unfold parseItems
            have hPx := ihP x
              (',' :: (renderItemsD (y :: ys) ++ ']' :: rest)) hw.1
              (goodComma _)
            cases hddx : hasDefectD x with
            | true => rw [hPx.1 hddx]
            | false =>
              have hdd2 : hasDefectItemsD (y :: ys) = true := by
                rcases hdd with h | h
                · rw [hddx] at h
                  exact absurd h (by decide)
                · exact h
              rcases hPx.2 hddx with hv | hv
              · rw [hv]
              · rw [hv]
                dsimp only
                rw [skipWs_cons_neg ',' _ (by decide)]
                simp only [List.head?_cons]
                rw [if_pos trivial]
                simp only [List.tail_cons]
                rw [(ihQ (y :: ys) rest hw.2 (by simp)).2.1 hdd2]
        · -- defect-free: rejected or parsed to the erased list
          intro hdd
          simp only [hasDefectItemsD, Bool.or_eq_false_iff] at hdd
          cases xs2 with
          | nil =>
            rw [show renderItemsD [x] ++ ']' :: rest =
              renderD x ++ ']' :: rest from by simp [renderItemsD]]
            unfold parseItems
            have hPx := ihP x (']' :: rest) hw.1 (goodRB _)
            rcases hPx.2 hdd.1 with hv | hv
            · left; rw [hv]
            · right
              rw [hv]
              dsimp only
              rw [skipWs_cons_neg ']' _ (by decide)]
              simp only [List.head?_cons]
              rw [if_neg (by decide), if_pos trivial]
              rfl
          | cons y ys =>
            rw [show renderItemsD (x :: y :: ys) ++ ']' :: rest =
              renderD x ++ (',' :: (renderItemsD (y :: ys) ++ ']' :: rest))
              from by simp [renderItemsD, List.append_assoc]]
            unfold parseItems
            have hPx := ihP x
              (',' :: (renderItemsD (y :: ys) ++ ']' :: rest)) hw.1
              (goodComma _)
            rcases hPx.2 hdd.1 with hv | hv
            · left; rw [hv]
            · rcases (ihQ (y :: ys) rest hw.2 (by simp)).2.2 hdd.2 with hq | hq
              · left
                rw [hv]
                dsimp only
                rw [skipWs_cons_neg ',' _ (by decide)]
                simp only [List.head?_cons]
                rw [if_pos trivial]
                simp only [List.tail_cons]
                rw [hq]
              · right
                rw [hv]
                dsimp only
                rw [skipWs_cons_neg ',' _ (by decide)]
                simp only [List.head?_cons]
                rw [if_pos trivial]
                simp only [List.tail_cons]
                rw [hq]
                rfl
    · -- field lists
      intro fs rest hw hne
      cases fs with
      | nil => exact absurd rfl hne
      | cons g gs =>
        obtain ⟨unq, k, v⟩ := g
        simp only [wfFieldsD, Bool.and_eq_true] at hw
        cases unq with
        | true =>
          have h1 := hw.1.1
          rw [if_pos rfl] at h1
          simp only [Bool.and_eq_true] at h1
          obtain ⟨k0, ks, rfl⟩ : ∃ k0 ks, k = k0 :: ks := by
            cases k with
            | nil => exact absurd h1.1 (by decide)
            | cons a b => exact ⟨a, b, rfl⟩
          have hk0 : isWordChar k0 = true :=
            List.all_eq_true.mp h1.2 k0 (by simp)
          have hnq : k0 ≠ '"' := (word_facts k0 hk0).2.2.1
          have hshape : ∀ S : List Char,
              renderFieldsD ((true, k0 :: ks, v) :: gs) ++ S =
              k0 :: ((ks ++ ':' :: renderD v ++
                (match gs with
                 | [] => ([] : List Char)
                 | _ :: _ => ',' :: renderFieldsD gs)) ++ S) := by
            intro S
            cases gs with
            | nil => simp [renderFieldsD, renderKeyD, List.append_assoc]
            | cons g2 gs2 =>
              simp [renderFieldsD, renderKeyD, List.append_assoc]
          refine ⟨?_, fun _ => ?_, fun habs => ?_⟩
          · rw [hshape]
            exact parseMembers_noquote k0 hnq (fuel + 1) _
          · rw [hshape]
            exact parseMembers_noquote k0 hnq (fuel + 1) _
          · exfalso
            simp only [hasDefectFieldsD, Bool.true_or] at habs
            exact absurd habs (by decide)
        | false =>
          have h1 := hw.1.1
          rw [if_neg (by simp)] at h1
          simp only [Bool.and_eq_true] at h1
          have hwk : wfString k = true := h1.1
          have hwv : wfDJ v = true := hw.1.2
          cases gs with
          | nil =>
            have hshape : ∀ S : List Char,
                renderFieldsD [(false, k, v)] ++ S =
                '"' :: (k ++ '"' :: (':' :: (renderD v ++ S))) := by
              intro S
              simp [renderFieldsD, renderKeyD, List.append_assoc]
            refine ⟨?_, ?_, ?_⟩
            · rw [hshape (',' :: '}' :: rest),
                parseMembers_field_red fuel k hwk _]
              have hPv := ihP v (',' :: '}' :: rest) hwv (goodComma _)
              cases hdd : hasDefectD v with
              | true => rw [hPv.1 hdd]
              | false =>
                rcases hPv.2 hdd with hv | hv
                · rw [hv]
                · rw [hv]
                  dsimp only
                  rw [skipWs_cons_neg ',' _ (by decide)]
                  simp only [List.head?_cons]
                  rw [if_pos trivial]
                  simp only [List.tail_cons]
                  rw [skipWs_cons_neg '}' _ (by decide)]
                  rw [parseMembers_noquote '}' (by decide) fuel rest]
            · intro hdd
              have hdv : hasDefectD v = true := by
                simp only [hasDefectFieldsD, Bool.or_eq_true] at hdd
                rcases hdd with (h | h) | h
                · exact absurd h (by decide)
                · exact h
                · exact absurd h (by decide)
              rw [hshape ('}' :: rest), parseMembers_field_red fuel k hwk _]
              have hPv := ihP v ('}' :: rest) hwv (goodCB _)
              rw [hPv.1 hdv]
            · intro hdd
              have hdv : hasDefectD v = false := by
                simp only [hasDefectFieldsD, Bool.or_eq_false_iff] at hdd
                exact hdd.1.2
              rw [hshape ('}' :: rest), parseMembers_field_red fuel k hwk _]
              have hPv := ihP v ('}' :: rest) hwv (goodCB _)
              rcases hPv.2 hdv with hv | hv
              · left; rw [hv]
              · right
                rw [hv]
                dsimp only
                rw [skipWs_cons_neg '}' _ (by decide)]
                simp only [List.head?_cons]
                rw [if_neg (by decide), if_pos trivial]
                rfl
          | cons g2 gs2 =>
            have hwgs : wfFieldsD (g2 :: gs2) = true := hw.2
            obtain ⟨c2, cs2, hri2, hjw2, _⟩ :=
              renderFieldsD_head (g2 :: gs2) (by simp) hwgs
            have hshape : ∀ S : List Char,
                renderFieldsD ((false, k, v) :: g2 :: gs2) ++ S =
                '"' :: (k ++ '"' :: (':' :: (renderD v ++
                  (',' :: (renderFieldsD (g2 :: gs2) ++ S))))) := by
              intro S
              simp [renderFieldsD, renderKeyD, List.append_assoc]
            have hskip : ∀ S : List Char,
                skipWs (renderFieldsD (g2 :: gs2) ++ S) =
                renderFieldsD (g2 :: gs2) ++ S := by
              intro S
              rw [show renderFieldsD (g2 :: gs2) ++ S = c2 :: (cs2 ++ S)
                from by simp [hri2]]
              rw [skipWs_cons_neg c2 _ hjw2]
            refine ⟨?_, ?_, ?_⟩
            · rw [hshape (',' :: '}' :: rest),
                parseMembers_field_red fuel k hwk _]
              have hPv := ihP v
                (',' :: (renderFieldsD (g2 :: gs2) ++ ',' :: '}' :: rest))
                hwv (goodComma _)
              cases hdd : hasDefectD v with
              | true => rw [hPv.1 hdd]
              | false =>
                rcases hPv.2 hdd with hv | hv
                · rw [hv]
                · rw [hv]
                  dsimp only
                  rw [skipWs_cons_neg ',' _ (by decide)]
                  simp only [List.head?_cons]
                  rw [if_pos trivial]
                  simp only [List.tail_cons]
                  rw [hskip]
                  rw [(ihR (g2 :: gs2) rest hwgs (by simp)).1]
            · intro hdd
              rw [hshape ('}' :: rest), parseMembers_field_red fuel k hwk _]
              have hPv := ihP v
                (',' :: (renderFieldsD (g2 :: gs2) ++ '}' :: rest))
                hwv (goodComma _)
              cases hddv : hasDefectD v with
              | true => rw [hPv.1 hddv]
              | false =>
                have hdd2 : hasDefectFieldsD (g2 :: gs2) = true := by
                  rw [show hasDefectFieldsD ((false, k, v) :: g2 :: gs2) =
                    (false || hasDefectD v ||
                      hasDefectFieldsD (g2 :: gs2)) from rfl, hddv] at hdd
                  simpa using hdd
                rcases hPv.2 hddv with hv | hv
                · rw [hv]
                · rw [hv]
                  dsimp only
                  rw [skipWs_cons_neg ',' _ (by decide)]
                  simp only [List.head?_cons]
                  rw [if_pos trivial]
                  simp only [List.tail_cons]
                  rw [hskip]
                  rw [(ihR (g2 :: gs2) rest hwgs (by simp)).2.1 hdd2]
            · intro hdd
              rw [show hasDefectFieldsD ((false, k, v) :: g2 :: gs2) =
                (false || hasDefectD v ||
                  hasDefectFieldsD (g2 :: gs2)) from rfl] at hdd
              simp only [Bool.false_or, Bool.or_eq_false_iff] at hdd
              rw [hshape ('}' :: rest), parseMembers_field_red fuel k hwk _]
              have hPv := ihP v
                (',' :: (renderFieldsD (g2 :: gs2) ++ '}' :: rest))
                hwv (goodComma _)
              rcases hPv.2 hdd.1 with hv | hv
              · left; rw [hv]
              · rcases (ihR (g2 :: gs2) rest hwgs (by simp)).2.2 hdd.2
                  with hq | hq
                · left
                  rw [hv]
                  dsimp only
                  rw [skipWs_cons_neg ',' _ (by decide)]
                  simp only [List.head?_cons]
                  rw [if_pos trivial]
                  simp only [List.tail_cons]
                  rw [hskip, hq]
                · right
                  rw [hv]
                  dsimp only
                  rw [skipWs_cons_neg ',' _ (by decide)]
                  simp only [List.head?_cons]
                  rw [if_pos trivial]
                  simp only [List.tail_cons]
                  rw [hskip, hq]
                  rfl

/-- Strict `JSON.parse` rejects the render of any well-formed value
that carries at least one materialised defect. -/
theorem jsonParse_renderD_defect (d : JsonD) (hd : wfDJ d = true)
    (hdef : hasDefectD d = true) : jsonParse (renderD d) = none := by
  unfold jsonParse
  have h := ((parse_renderD (2 * (renderD d).length + 2)).1 d [] hd
    (by intro c hc; simp at hc)).1 hdef
  rw [List.append_nil] at h
  rw [h]

/-- Claim C3 counterexample: the array `["x,]",]`, whose only defect is
a single trailing comma, parses through the repair pipeline to a
different logical array than its well-formed equivalent `["x,]"]`: the
comma-removal regex also fires inside the string content. -/
theorem claim_C3_counterexample :
    renderD (.arr [.str "x,]".data] true) = "[\"x,]\",]".data ∧
    jsonParse (render (eraseD (.arr [.str "x,]".data] true))) =
      some (.arr [.str "x,]".data]) ∧
    parseAndCleanJson (renderD (.arr [.str "x,]".data] true)) =
      some (.arr [.str "x]".data]) ∧
    (Json.arr [.str "x]".data] : Json) ≠ Json.arr [.str "x,]".data] := by
  exact ⟨by decide, by decide, by decide, by decide⟩

/-- Claim C3 (amended): the repair parser attempts strict parsing
first; when strict parsing, the repaired retry and the bracket-span
retry all fail it returns null; and for every well-formed defective
value (unquoted identifier keys and trailing commas as the only
defects) whose string contents and quoted keys contain neither `\x7b`
nor `,`, the pipeline returns exactly the parse of the well-formed
equivalent. -/
theorem claim_C3_amended :
    (∀ (s : List Char) (v : Json), jsonParse s = some v →
      parseAndCleanJson s = some v) ∧
    (∀ s : List Char, jsonParse s = none →
      jsonParse (stripTrailingCommas (quoteKeys s)) = none →
      (∀ sub, extractSpan s = some sub → jsonParse sub = none) →
      parseAndCleanJson s = none) ∧
    (∀ d : JsonD, wfDJ d = true →
      parseAndCleanJson (renderD d) = some (eraseD d) ∧
      jsonParse (render (eraseD d)) = some (eraseD d)) := by
  refine ⟨?_, ?_, ?_⟩
  · intro s v h
    unfold parseAndCleanJson
    rw [h]
  · intro s h1 h2 h3
    unfold parseAndCleanJson
    rw [h1]
    dsimp only
    rw [h2]
    dsimp only
    cases hs : extractSpan s with
    | none => rfl
    | some sub =>
      dsimp only
      exact h3 sub hs
  · intro d hd
    have hwj : wfJson (eraseD d) = true := wfDJ_wfJson d hd
    have hrt : jsonParse (render (eraseD d)) = some (eraseD d) :=
      jsonParse_render _ hwj
    refine ⟨?_, hrt⟩
    unfold parseAndCleanJson
    cases hdef : hasDefectD d with
    | false =>
      rw [renderD_no_defect d hdef, hrt]
    | true =>
      rw [jsonParse_renderD_defect d hd hdef]
      dsimp only
      rw [repair_correct d hd, hrt]

/-- Claim C3 amended witness: the defective array `[\x7ba:1,\x7d,]`
(bare key plus two trailing commas) repairs and parses to the same
array as its well-formed equivalent `[\x7b"a":1\x7d]`. -/
theorem claim_C3_amended_witness :
    parseAndCleanJson "[\x7ba:1,\x7d,]".data =
      some (.arr [.obj [("a".data,
        .num ⟨false, ['1'], [], false, false, []⟩)]]) := by
  have h := (claim_C3_amended.2.2 (.arr [.obj [(true, "a".data,
    .num ⟨false, ['1'], [], false, false, []⟩)] true] true) (by decide)).1
  rw [show renderD (.arr [.obj [(true, "a".data,
    .num ⟨false, ['1'], [], false, false, []⟩)] true] true) =
    "[\x7ba:1,\x7d,]".data from by decide] at h
  exact h
